import Mathlib

/-!
Verification of the jify indexed JSON storage engine.

Shallow embedding of the TypeScript sources:
* `src/src/utils.ts` — the Z85 numeric codecs,
* `src/unnamed/part_012` — `JSONStore.getAppendPosition`,
* `src/unnamed/part_003` — `Database.find` / `Database.findQuery` / `Database.insert`,
* `src/src/index.ts` (third variant, lines 1177-1740) — the skip-list index:
  `Index.insert`, `Index.indexObjectField`, `Index.find`,
* `src/src/index.ts` lines 1741-1801 — the `predicate` template helper.

Machine integers are modelled as `Nat` with explicit `% 2 ^ w` where overflow
matters; JavaScript exceptions are modelled with `Option`/`Except`.
-/

set_option linter.unusedSectionVars false

namespace Jify

/-! ## Z85 codec (`src/src/utils.ts`)

The npm `z85` module encodes a buffer of `4·k` bytes as `5·k` base-85 digits,
each 4-byte group big-endian, most significant digit first.  We model an
encoded string as its list of digit values (`Nat < 85`); the character `"0"`
of the Z85 alphabet is the digit `0`, so the compact modes' `replace(/^0+/)` /
`replace(/0+$/)` and `padStart`/`padEnd` with `"0"` act on digit value `0`. -/

/-- Big-endian base-85 digits of `n`, fixed width `k` (the encoding of the
`4·k/5`-byte big-endian buffer holding `n`). -/
def encodeBE : Nat → Nat → List Nat
  | 0, _ => []
  | k + 1, n => encodeBE k (n / 85) ++ [n % 85]

/-- Value of a big-endian base-85 digit string. -/
def val85 (ds : List Nat) : Nat := ds.foldl (fun a d => a * 85 + d) 0

/-- Decode one 5-digit Z85 group into the 32-bit value of its 4 bytes. -/
def decodeGroup (ds : List Nat) : Nat := val85 ds % 2 ^ 32

/-- Value of the 8-byte buffer decoded from a 10-digit Z85 string
(two 4-byte groups, big-endian). -/
def decode8Bytes (ds : List Nat) : Nat :=
  decodeGroup (ds.take 5) * 2 ^ 32 + decodeGroup (ds.drop 5)

/-- `s.padStart(k, "0")` on digit strings. -/
def padStartZeros (k : Nat) (ds : List Nat) : List Nat :=
  List.replicate (k - ds.length) 0 ++ ds

/-- `s.padEnd(k, "0")` on digit strings. -/
def padEndZeros (k : Nat) (ds : List Nat) : List Nat :=
  ds ++ List.replicate (k - ds.length) 0

/-- `s.replace(/^0+/, "")` on digit strings. -/
def dropLeadZeros (ds : List Nat) : List Nat := ds.dropWhile (· == 0)

/-- `s.replace(/0+$/, "")` on digit strings. -/
def dropTrailZeros (ds : List Nat) : List Nat :=
  (ds.reverse.dropWhile (· == 0)).reverse

/-- `z85EncodeAsUInt32` (`utils.ts` 270-274): write `n` as 4 bytes big-endian,
Z85-encode (5 digits); compact mode strips leading zero digits. -/
def z85EncodeAsUInt32 (n : Nat) (compact : Bool) : List Nat :=
  let encoded := encodeBE 5 n
  if compact then dropLeadZeros encoded else encoded

/-- `z85DecodeAsUInt32` (`utils.ts` 276-281): reject strings longer than 5;
compact mode pads to 5 with zero digits; read the 4 decoded bytes big-endian.
A non-compact string of length ≠ 5 fails inside `z85.decode` (length not a
multiple of 5) or `readUInt32BE` (empty buffer). -/
def z85DecodeAsUInt32 (s : List Nat) (compact : Bool) : Option Nat :=
  if 5 < s.length then none
  else if compact then some (decodeGroup (padStartZeros 5 s))
  else if s.length = 5 then some (decodeGroup s) else none

/-- `z85EncodeAsUInt` (`utils.ts` 284-288): write `n` into bytes 2-7 of an
8-byte buffer whose bytes 0-1 are always zero, Z85-encode (10 digits);
compact mode strips leading zero digits, fixed mode drops the first two
digits (always zero for `n < 2^48`). -/
def z85EncodeAsUInt (n : Nat) (compact : Bool) : List Nat :=
  let encoded := encodeBE 5 (n / 2 ^ 32) ++ encodeBE 5 (n % 2 ^ 32)
  if compact then dropLeadZeros encoded else encoded.drop 2

/-- `z85DecodeAsUInt` (`utils.ts` 290-297): fixed mode requires length 8,
any string longer than 8 is rejected; pad to 10 with leading zero digits,
decode, then `readUIntBE(2, 6)` reads the low 6 bytes. -/
def z85DecodeAsUInt (s : List Nat) (compact : Bool) : Option Nat :=
  if ¬compact ∧ s.length ≠ 8 then none
  else if 8 < s.length then none
  else some (decode8Bytes (padStartZeros 10 s) % 2 ^ 48)

/-- `z85EncodeAsDouble` (`utils.ts` 300-304): write the double's 8-byte
IEEE-754 pattern big-endian (modelled by its 64-bit pattern `n`), Z85-encode
(10 digits); compact mode strips trailing zero digits. -/
def z85EncodeAsDouble (n : Nat) (compact : Bool) : List Nat :=
  let encoded := encodeBE 5 (n / 2 ^ 32) ++ encodeBE 5 (n % 2 ^ 32)
  if compact then dropTrailZeros encoded else encoded

/-- `z85DecodeAsDouble` (`utils.ts` 306-311): reject strings longer than 10;
compact mode pads to 10 with trailing zero digits; read the 8 decoded bytes
as the double's bit pattern.  A non-compact string of length ≠ 10 fails
inside `z85.decode`. -/
def z85DecodeAsDouble (s : List Nat) (compact : Bool) : Option Nat :=
  if 10 < s.length then none
  else if compact then some (decode8Bytes (padEndZeros 10 s))
  else if s.length = 10 then some (decode8Bytes s) else none

theorem encodeBE_length (k n : Nat) : (encodeBE k n).length = k := by
  induction k generalizing n with
  | zero => rfl
  | succ k ih => simp [encodeBE, ih]

theorem val85_foldl (ds : List Nat) (acc : Nat) :
    ds.foldl (fun a d => a * 85 + d) acc = acc * 85 ^ ds.length + val85 ds := by
  induction ds generalizing acc with
  | nil => simp [val85]
  | cons d ds ih =>
    have hd : val85 (d :: ds) = d * 85 ^ ds.length + val85 ds := by
      show List.foldl _ (0 * 85 + d) ds = _
      rw [ih]
      ring_nf
    simp only [List.foldl_cons, List.length_cons, hd]
    rw [ih]
    ring

theorem val85_append (a b : List Nat) :
    val85 (a ++ b) = val85 a * 85 ^ b.length + val85 b := by
  unfold val85
  rw [List.foldl_append]
  exact val85_foldl b _

theorem val85_encodeBE (k n : Nat) : val85 (encodeBE k n) = n % 85 ^ k := by
  induction k generalizing n with
  | zero => simp [encodeBE, val85, Nat.mod_one]
  | succ k ih =>
    rw [encodeBE, val85_append, ih]
    have h1 : val85 [n % 85] = n % 85 := by simp [val85]
    simp only [List.length_singleton, pow_one, h1]
    rw [Nat.pow_succ, Nat.mul_comm (85 ^ k) 85, Nat.mod_mul]
    ring

theorem takeWhile_eq_replicate_zero (l : List Nat) :
    l.takeWhile (· == 0) = List.replicate (l.takeWhile (· == 0)).length 0 := by
  induction l with
  | nil => rfl
  | cons x xs ih =>
    by_cases h : x = 0
    · subst h
      simp only [List.takeWhile_cons, beq_self_eq_true, List.length_cons,
        List.replicate_succ]
      simp only [if_pos rfl] at *
      exact congrArg (0 :: ·) ih
    · simp [List.takeWhile_cons, h]

theorem padStart_dropLead (l : List Nat) (k : Nat) (hl : l.length = k) :
    padStartZeros k (dropLeadZeros l) = l := by
  unfold padStartZeros dropLeadZeros
  conv_rhs => rw [← List.takeWhile_append_dropWhile (p := (· == 0)) (l := l)]
  have hlen : (l.takeWhile (· == 0)).length + (l.dropWhile (· == 0)).length = k := by
    rw [← hl, ← List.length_append, List.takeWhile_append_dropWhile]
  have : k - (l.dropWhile (· == 0)).length = (l.takeWhile (· == 0)).length := by
    omega
  rw [this, ← takeWhile_eq_replicate_zero]

theorem padEnd_dropTrail (l : List Nat) (k : Nat) (hl : l.length = k) :
    padEndZeros k (dropTrailZeros l) = l := by
  unfold padEndZeros dropTrailZeros
  have h := padStart_dropLead l.reverse k (by simpa using hl)
  unfold padStartZeros dropLeadZeros at h
  have := congrArg List.reverse h
  simpa [List.reverse_append] using this

theorem length_dropWhile_le (p : Nat → Bool) (l : List Nat) :
    (l.dropWhile p).length ≤ l.length := by
  induction l with
  | nil => simp
  | cons x xs ih =>
    by_cases h : p x
    · rw [List.dropWhile_cons_of_pos h]
      exact Nat.le_succ_of_le ih
    · rw [List.dropWhile_cons_of_neg h]

theorem encodeBE_split (j k n : Nat) :
    encodeBE (j + k) n = encodeBE j (n / 85 ^ k) ++ encodeBE k n := by
  induction k generalizing n with
  | zero => simp [encodeBE]
  | succ k ih =>
    show encodeBE (j + k + 1) n = _
    rw [encodeBE, ih, encodeBE, List.append_assoc, Nat.div_div_eq_div_mul]
    have h85 : 85 * 85 ^ k = 85 ^ (k + 1) := by rw [Nat.pow_succ]; ring
    rw [h85]

theorem decodeGroup_encodeBE (n : Nat) (h : n < 2 ^ 32) :
    decodeGroup (encodeBE 5 n) = n := by
  have h85 : n < 85 ^ 5 := lt_of_lt_of_le h (by norm_num)
  unfold decodeGroup
  rw [val85_encodeBE, Nat.mod_eq_of_lt h85, Nat.mod_eq_of_lt h]

theorem decode8Bytes_encode (n : Nat) (h : n < 2 ^ 64) :
    decode8Bytes (encodeBE 5 (n / 2 ^ 32) ++ encodeBE 5 (n % 2 ^ 32)) = n := by
  unfold decode8Bytes
  rw [List.take_left' (encodeBE_length 5 _), List.drop_left' (encodeBE_length 5 _),
    decodeGroup_encodeBE _ (by omega),
    decodeGroup_encodeBE _ (Nat.mod_lt _ (by norm_num))]
  omega

theorem encode10_head_zeros (n : Nat) (h : n < 2 ^ 48) :
    encodeBE 5 (n / 2 ^ 32) ++ encodeBE 5 (n % 2 ^ 32) =
      [0, 0] ++ (encodeBE 5 (n / 2 ^ 32) ++ encodeBE 5 (n % 2 ^ 32)).drop 2 := by
  have hhi : n / 2 ^ 32 < 85 ^ 3 := by
    have : n / 2 ^ 32 < 2 ^ 16 := by omega
    omega
  have hsplit : encodeBE 5 (n / 2 ^ 32) =
      encodeBE 2 (n / 2 ^ 32 / 85 ^ 3) ++ encodeBE 3 (n / 2 ^ 32) :=
    encodeBE_split 2 3 _
  have hz : n / 2 ^ 32 / 85 ^ 3 = 0 := Nat.div_eq_of_lt hhi
  have h20 : encodeBE 2 0 = [0, 0] := rfl
  rw [hsplit, hz, h20]
  simp

/-- C7: for every value representable in the codec's width (32-bit for the
UInt32 codec, 48-bit for the UInt codec, and any 64-bit IEEE-754 bit pattern
— in particular every finite double — for the double codec), decoding the
Z85 encoding returns the original value, in both the compact and fixed-width
modes. -/
theorem z85_round_trip (n : Nat) (c : Bool) :
    (n < 2 ^ 32 → z85DecodeAsUInt32 (z85EncodeAsUInt32 n c) c = some n) ∧
    (n < 2 ^ 48 → z85DecodeAsUInt (z85EncodeAsUInt n c) c = some n) ∧
    (n < 2 ^ 64 → z85DecodeAsDouble (z85EncodeAsDouble n c) c = some n) := by
  refine ⟨fun h32 => ?_, fun h48 => ?_, fun h64 => ?_⟩
  · unfold z85EncodeAsUInt32 z85DecodeAsUInt32
    cases c with
    | false => simp [encodeBE_length, decodeGroup_encodeBE n h32]
    | true =>
      have hlen : (dropLeadZeros (encodeBE 5 n)).length ≤ 5 := by
        calc (dropLeadZeros (encodeBE 5 n)).length
            ≤ (encodeBE 5 n).length := length_dropWhile_le _ _
          _ = 5 := encodeBE_length 5 n
      have hne : ¬5 < (dropLeadZeros (encodeBE 5 n)).length := by omega
      simp [hne, padStart_dropLead _ _ (encodeBE_length 5 n),
        decodeGroup_encodeBE n h32]
  · have hfull :
        (encodeBE 5 (n / 2 ^ 32) ++ encodeBE 5 (n % 2 ^ 32)).length = 10 := by
      simp [encodeBE_length]
    cases c with
    | false =>
      have henc : z85EncodeAsUInt n false =
          (encodeBE 5 (n / 2 ^ 32) ++ encodeBE 5 (n % 2 ^ 32)).drop 2 := rfl
      have hdlen :
          ((encodeBE 5 (n / 2 ^ 32) ++ encodeBE 5 (n % 2 ^ 32)).drop 2).length
            = 8 := by
        rw [List.length_drop, hfull]
      have hpad : padStartZeros 10
          ((encodeBE 5 (n / 2 ^ 32) ++ encodeBE 5 (n % 2 ^ 32)).drop 2) =
          encodeBE 5 (n / 2 ^ 32) ++ encodeBE 5 (n % 2 ^ 32) := by
        unfold padStartZeros
        rw [hdlen]
        conv_rhs => rw [encode10_head_zeros n h48]
        rfl
      rw [henc]
      unfold z85DecodeAsUInt
      rw [if_neg (fun h => h.2 hdlen), if_neg (by rw [hdlen]; omega), hpad,
        decode8Bytes_encode n (by omega), Nat.mod_eq_of_lt h48]
    | true =>
      have henc : z85EncodeAsUInt n true =
          dropLeadZeros (encodeBE 5 (n / 2 ^ 32) ++ encodeBE 5 (n % 2 ^ 32)) := rfl
      have hlen : (dropLeadZeros
          (encodeBE 5 (n / 2 ^ 32) ++ encodeBE 5 (n % 2 ^ 32))).length ≤ 8 := by
        conv_lhs => rw [encode10_head_zeros n h48]
        unfold dropLeadZeros
        show (List.dropWhile _ (0 :: 0 :: _)).length ≤ 8
        rw [List.dropWhile_cons_of_pos (by rfl), List.dropWhile_cons_of_pos (by rfl)]
        calc (List.dropWhile (· == 0)
              ((encodeBE 5 (n / 2 ^ 32) ++ encodeBE 5 (n % 2 ^ 32)).drop 2)).length
            ≤ ((encodeBE 5 (n / 2 ^ 32) ++ encodeBE 5 (n % 2 ^ 32)).drop 2).length :=
              length_dropWhile_le _ _
          _ ≤ 8 := by simp [encodeBE_length]
      rw [henc]
      unfold z85DecodeAsUInt
      rw [if_neg (by simp), if_neg (by omega), padStart_dropLead _ _ hfull,
        decode8Bytes_encode n (by omega), Nat.mod_eq_of_lt h48]
  · have hfull :
        (encodeBE 5 (n / 2 ^ 32) ++ encodeBE 5 (n % 2 ^ 32)).length = 10 := by
      simp [encodeBE_length]
    cases c with
    | false =>
      have henc : z85EncodeAsDouble n false =
          encodeBE 5 (n / 2 ^ 32) ++ encodeBE 5 (n % 2 ^ 32) := rfl
      rw [henc]
      unfold z85DecodeAsDouble
      rw [if_neg (by omega), if_neg (Bool.false_ne_true), if_pos hfull,
        decode8Bytes_encode n h64]
    | true =>
      have henc : z85EncodeAsDouble n true =
          dropTrailZeros (encodeBE 5 (n / 2 ^ 32) ++ encodeBE 5 (n % 2 ^ 32)) := rfl
      have hlen : (dropTrailZeros
          (encodeBE 5 (n / 2 ^ 32) ++ encodeBE 5 (n % 2 ^ 32))).length ≤ 10 := by
        unfold dropTrailZeros
        calc ((List.dropWhile (· == 0)
              (encodeBE 5 (n / 2 ^ 32) ++ encodeBE 5 (n % 2 ^ 32)).reverse).reverse).length
            ≤ ((encodeBE 5 (n / 2 ^ 32) ++ encodeBE 5 (n % 2 ^ 32)).reverse).length := by
              rw [List.length_reverse]
              exact length_dropWhile_le _ _
          _ = 10 := by simp [encodeBE_length]
      rw [henc]
      unfold z85DecodeAsDouble
      rw [if_neg (by omega), if_pos rfl, padEnd_dropTrail _ _ hfull,
        decode8Bytes_encode n h64]

/-- Witness for `z85_round_trip` at concrete inputs. -/
theorem z85_round_trip_witness :
    (3000000000 < 2 ^ 32 ∧
      z85DecodeAsUInt32 (z85EncodeAsUInt32 3000000000 true) true =
        some 3000000000) ∧
    (200000000000000 < 2 ^ 48 ∧
      z85DecodeAsUInt (z85EncodeAsUInt 200000000000000 false) false =
        some 200000000000000) ∧
    (4638387860618067575 < 2 ^ 64 ∧
      z85DecodeAsDouble (z85EncodeAsDouble 4638387860618067575 true) true =
        some 4638387860618067575) :=
  ⟨⟨by norm_num, (z85_round_trip 3000000000 true).1 (by norm_num)⟩,
   ⟨by norm_num, (z85_round_trip 200000000000000 false).2.1 (by norm_num)⟩,
   ⟨by norm_num, (z85_round_trip 4638387860618067575 true).2.2 (by norm_num)⟩⟩

/-! ## `JSONStore.getAppendPosition` (`src/unnamed/part_012` lines 71-103)

The file's bytes are modelled as the list of its (ASCII) code points; the
reverse reader `file.read(-1, true)` yields `(offset, codePoint)` pairs from
the last byte backwards, modelled by `bytes.enum.reverse`.  The JavaScript
test `if (!position)` is true when `position` is still `undefined` or when it
is the number `0`, which we model on `Option Int`. -/

/-- Bytes skipped by the scan: space (32) and newline (10). -/
def isWS (c : Nat) : Bool := c == 32 || c == 10

/-- JavaScript falsiness of the `position` variable (`undefined` or `0`). -/
def posFalsy : Option Int → Bool
  | none => true
  | some p => p == 0

/-- The reverse-scan loop of `getAppendPosition`.  On `done = true; break`
paths the function either returns `{position, first}` (when `position` is
truthy) or falls through to `if (!position) throw` (modelled by `none`). -/
def appendPosLoop : List (Nat × Nat) → Option Int → Bool → Option (Int × Bool)
  | [], pos, first =>
      match pos with
      | none => none
      | some p => if p = 0 then none else some (p, first)
  | (i, c) :: rest, pos, first =>
      if isWS c then appendPosLoop rest pos first
      else if posFalsy pos then
        if c = 93 then appendPosLoop rest (some ((i : Int) - 1)) first
        else none
      else
        match pos with
        | none => none
        | some p => some (p, c = 91)

/-- `JSONStore.getAppendPosition`: scan the file tail in reverse, skipping
spaces and newlines; `position` is set to (offset of the found `]`) − 1;
`first` becomes true when the next significant byte going backwards is `[`.
`none` models the `Invalid JSON file` error. -/
def getAppendPosition (bytes : List Nat) : Option (Int × Bool) :=
  appendPosLoop bytes.enum.reverse none false

/-- The significant (non-space, non-newline) `(offset, byte)` pairs seen by
the reverse scan, in scan order. -/
def revSignificant (bytes : List Nat) : List (Nat × Nat) :=
  bytes.enum.reverse.filter (fun p => !isWS p.2)

/-- C6's claim, as stated, at one input: the scan fails exactly when it does
not encounter a `]`, i.e. when the first significant byte from the end is
not a `]`. -/
def c6Stated (bytes : List Nat) : Prop :=
  (getAppendPosition bytes = none) ↔
    ((revSignificant bytes).head?.all (fun p => p.2 != 93) = true)

instance (bytes : List Nat) : Decidable (c6Stated bytes) := by
  unfold c6Stated
  infer_instance

/-- Exact error condition of the scan, on the significant pairs: the next
significant byte is not a `]`, or it is a `]` at offset 1 (computed position
0, which the JavaScript falsiness test treats as still unset) and the scan
then fails on the rest. -/
def scanErr : List (Nat × Nat) → Bool
  | [] => true
  | (i, c) :: rest => if c ≠ 93 then true else if i = 1 then scanErr rest else false

/-- The byte list of the word `invalid`. -/
def invalidBytes : List Nat := [105, 110, 118, 97, 108, 105, 100]

theorem appendPosLoop_truthy (l : List (Nat × Nat)) (p : Int) (first : Bool)
    (hp : p ≠ 0) : ∃ f, appendPosLoop l (some p) first = some (p, f) := by
  induction l generalizing first with
  | nil => exact ⟨first, by simp [appendPosLoop, hp]⟩
  | cons x rest ih =>
    obtain ⟨i, c⟩ := x
    by_cases hws : isWS c = true
    · simpa [appendPosLoop, hws] using ih first
    · have hfalsy : posFalsy (some p) = false := by
        simp [posFalsy, hp]
      exact ⟨c = 91, by simp [appendPosLoop, hws, hfalsy]⟩

theorem appendPosLoop_falsy_err (l : List (Nat × Nat)) (pos : Option Int)
    (first : Bool) (hpos : posFalsy pos = true) :
    (appendPosLoop l pos first = none) ↔
      scanErr (l.filter (fun p => !isWS p.2)) = true := by
  induction l generalizing pos first with
  | nil =>
    cases pos with
    | none => simp [appendPosLoop, scanErr]
    | some p =>
      have : p = 0 := by simpa [posFalsy] using hpos
      subst this
      simp [appendPosLoop, scanErr]
  | cons x rest ih =>
    obtain ⟨i, c⟩ := x
    by_cases hws : isWS c = true
    · rw [show appendPosLoop ((i, c) :: rest) pos first
          = appendPosLoop rest pos first by simp [appendPosLoop, hws]]
      rw [ih pos first hpos]
      simp [hws]
    · by_cases hc : c = 93
      · subst hc
        rw [show appendPosLoop ((i, 93) :: rest) pos first
            = appendPosLoop rest (some ((i : Int) - 1)) first by
          simp [appendPosLoop, hws, hpos]]
        by_cases hi : i = 1
        · subst hi
          rw [ih _ first (by simp [posFalsy])]
          simp [hws, scanErr]
        · have hne : ((i : Int) - 1) ≠ 0 := by
            omega
          obtain ⟨f, hf⟩ := appendPosLoop_truthy rest _ first hne
          rw [hf]
          simp [hws, scanErr, hi]
      · rw [show appendPosLoop ((i, c) :: rest) pos first = none by
          simp [appendPosLoop, hws, hpos, hc]]
        simp [hws, scanErr, hc]

/-- C6 counterexample: on the two-byte file `[]` the reverse scan does
encounter a `]` (it is the first significant byte from the end), yet
`getAppendPosition` still fails, because the computed position `0` is falsy
in JavaScript; so the claim's "exactly when" is false at this input. -/
theorem getAppendPosition_counterexample : ¬ c6Stated [91, 93] := by
  decide

/-! ## `Database.insert` store/lock traces

`src/unnamed/part_003` lines 147-239 and `src/src/database.ts` lines 82-139.
The sequence of store and lock operations performed by one `insert` call is
modelled as an event list; a `getAppendPosition` failure (`InvalidFormat`)
propagates out of the `try`/`finally` as `Except.error`. -/

inductive StoreEvent
  | lockEv (pos : Nat) (exclusive : Bool)
  | unlockEv (pos : Nat)
  | appendPosEv
  | writeEv
  | beginTxEv (field : String)
  | endTxEv (field : String)
  | indexInsertEv (field : String)
deriving DecidableEq, Repr

/-- `Number.MAX_SAFE_INTEGER`. -/
def maxSafeInteger : Nat := 2 ^ 53 - 1

/-- Event trace of `Database.insert` in `src/unnamed/part_003` (lines
147-239): lock the store at `Number.MAX_SAFE_INTEGER` exclusively; inside
the `try`, begin a transaction per indexed field, compute the append
position (throwing `InvalidFormat` on a malformed tail), build the buffers
and issue the single publishing `store.write`, insert the per-field index
batches, end the transactions; the `finally` unlocks. -/
def databaseInsertTrace (bytes : List Nat) (fields : List String) :
    Except Unit (List StoreEvent) :=
  match getAppendPosition bytes with
  | none => .error ()
  | some _ =>
      .ok ([StoreEvent.lockEv maxSafeInteger true]
        ++ fields.map StoreEvent.beginTxEv
        ++ [StoreEvent.appendPosEv, StoreEvent.writeEv]
        ++ fields.map StoreEvent.indexInsertEv
        ++ fields.map StoreEvent.endTxEv
        ++ [StoreEvent.unlockEv maxSafeInteger])

/-- Event trace of `Database.insert` in `src/src/database.ts` (lines 82-139):
begin a transaction per indexed field, lock the store at position `0`
exclusively, compute the append position, `appendRaw` the records (the
publishing write), unlock, then insert the index batches and end the
transactions. -/
def databaseInsertTraceV0 (bytes : List Nat) (fields : List String) :
    Except Unit (List StoreEvent) :=
  match getAppendPosition bytes with
  | none => .error ()
  | some _ =>
      .ok (fields.map StoreEvent.beginTxEv
        ++ [StoreEvent.lockEv 0 true]
        ++ [StoreEvent.appendPosEv, StoreEvent.writeEv]
        ++ [StoreEvent.unlockEv 0]
        ++ fields.map StoreEvent.indexInsertEv
        ++ fields.map StoreEvent.endTxEv)

/-- The byte list of the canonical empty data file `[\n]\n`. -/
def emptyFileBytes : List Nat := [91, 10, 93, 10]

/-- Whether an event is a lock acquisition. -/
def isLockEv : StoreEvent → Bool
  | StoreEvent.lockEv _ _ => true
  | _ => false

/-- C6 (amended): `getAppendPosition` fails exactly when the reverse scan,
skipping spaces and newlines, does not find a `]` as the first significant
byte from the end, or finds one at byte offset 1 (computed position 0, which
the JavaScript `!position` test treats as unset) and then fails on the
remaining significant bytes in the same way; consequently `Database.insert`
on a data file whose entire content is the word `invalid` fails with the
invalid-format error. -/
theorem getAppendPosition_invalid_format :
    (∀ bytes : List Nat,
      (getAppendPosition bytes = none) ↔ scanErr (revSignificant bytes) = true) ∧
    getAppendPosition invalidBytes = none ∧
    (∀ fields, databaseInsertTrace invalidBytes fields = .error ()) := by
  refine ⟨fun bytes => appendPosLoop_falsy_err _ none false rfl, by decide, ?_⟩
  intro fields
  unfold databaseInsertTrace
  rw [show getAppendPosition invalidBytes = none by decide]

/-- C9 counterexample: on the empty data file, the part_003 `Database.insert`
acquires its exclusive store lock at `Number.MAX_SAFE_INTEGER`, not at
position 0: the trace contains no lock event at position 0. -/
theorem databaseInsert_lock_counterexample :
    ∃ tr, databaseInsertTrace emptyFileBytes [] = .ok tr ∧
      tr.filter isLockEv = [StoreEvent.lockEv maxSafeInteger true] ∧
      maxSafeInteger ≠ 0 := by
  refine ⟨[StoreEvent.lockEv maxSafeInteger true, StoreEvent.appendPosEv,
    StoreEvent.writeEv, StoreEvent.unlockEv maxSafeInteger],
    by rfl, by decide, by decide⟩

/-- C9 (amended): each `Database.insert` variant performs its
append-position computation and its record-publishing write while holding
the store's exclusive byte-range lock at one fixed position — position 0 in
the `database.ts` variant, `Number.MAX_SAFE_INTEGER` in the part_003
variant — and that position is a constant, the same for every in-process
insert, so concurrent inserts serialize on it. -/
theorem databaseInsert_lock_serializes :
    ∀ bytes fields tr,
      (databaseInsertTrace bytes fields = .ok tr →
        ∃ mid rest,
          tr = StoreEvent.lockEv maxSafeInteger true :: mid
              ++ StoreEvent.unlockEv maxSafeInteger :: rest ∧
          rest = [] ∧
          StoreEvent.appendPosEv ∈ mid ∧ StoreEvent.writeEv ∈ mid ∧
          tr.filter isLockEv = [StoreEvent.lockEv maxSafeInteger true]) ∧
      (databaseInsertTraceV0 bytes fields = .ok tr →
        ∃ pre mid rest,
          tr = pre ++ StoreEvent.lockEv 0 true :: mid
              ++ StoreEvent.unlockEv 0 :: rest ∧
          StoreEvent.appendPosEv ∈ mid ∧ StoreEvent.writeEv ∈ mid ∧
          tr.filter isLockEv = [StoreEvent.lockEv 0 true]) := by
  intro bytes fields tr
  constructor
  · intro h
    unfold databaseInsertTrace at h
    cases hap : getAppendPosition bytes with
    | none => rw [hap] at h; exact absurd h (by simp)
    | some v =>
      rw [hap] at h
      have htr := (Except.ok.injEq _ _).mp h.symm
      subst htr
      refine ⟨fields.map StoreEvent.beginTxEv
          ++ [StoreEvent.appendPosEv, StoreEvent.writeEv]
          ++ fields.map StoreEvent.indexInsertEv
          ++ fields.map StoreEvent.endTxEv, [], by simp, rfl, by simp, by simp, ?_⟩
      simp [isLockEv, List.filter_map, Function.comp_def]
  · intro h
    unfold databaseInsertTraceV0 at h
    cases hap : getAppendPosition bytes with
    | none => rw [hap] at h; exact absurd h (by simp)
    | some v =>
      rw [hap] at h
      have htr := (Except.ok.injEq _ _).mp h.symm
      subst htr
      refine ⟨fields.map StoreEvent.beginTxEv,
          [StoreEvent.appendPosEv, StoreEvent.writeEv],
          fields.map StoreEvent.indexInsertEv ++ fields.map StoreEvent.endTxEv,
          by simp, by simp, by simp, ?_⟩
      simp [isLockEv, List.filter_map, Function.comp_def]

/-- Witness for `databaseInsert_lock_serializes` at a concrete input. -/
theorem databaseInsert_lock_serializes_witness :
    ∃ mid rest,
      ([StoreEvent.lockEv maxSafeInteger true, StoreEvent.appendPosEv,
        StoreEvent.writeEv, StoreEvent.unlockEv maxSafeInteger]
          : List StoreEvent)
        = StoreEvent.lockEv maxSafeInteger true :: mid
            ++ StoreEvent.unlockEv maxSafeInteger :: rest ∧
      rest = [] ∧
      StoreEvent.appendPosEv ∈ mid ∧ StoreEvent.writeEv ∈ mid ∧
      ([StoreEvent.lockEv maxSafeInteger true, StoreEvent.appendPosEv,
        StoreEvent.writeEv, StoreEvent.unlockEv maxSafeInteger]
          : List StoreEvent).filter isLockEv
        = [StoreEvent.lockEv maxSafeInteger true] :=
  (databaseInsert_lock_serializes emptyFileBytes [] _).1 (by rfl)

/-! ## `Database.find` / `Database.findQuery` (`src/unnamed/part_003` lines 63-145)

A query object is its list of `field → predicate` entries in iteration
order; the per-field `Index.find` results are an oracle
`ifind : String → P → Finset Nat` of record-offset sets. -/

/-- The field loop of `Database.findQuery` (lines 105-141): `positions`
starts `undefined`; at the top of each iteration `if (positions &&
!positions.size) break`; the first field's positions are adopted, later
fields intersect. -/
def findQueryLoop {P : Type} (ifind : String → P → Finset Nat) :
    Option (Finset Nat) → List (String × P) → Option (Finset Nat)
  | pos?, [] => pos?
  | pos?, (f, p) :: rest =>
    match pos? with
    | some s =>
        if s = ∅ then some s
        else findQueryLoop ifind (some (s ∩ ifind f p)) rest
    | none => findQueryLoop ifind (some (ifind f p)) rest

/-- `Database.findQuery`: run the field loop, then `positions || new Set()`. -/
def findQuery {P : Type} (ifind : String → P → Finset Nat)
    (q : List (String × P)) : Finset Nat :=
  (findQueryLoop ifind none q).getD ∅

/-- The query loop of `Database.find` (lines 72-80): the first query's set is
adopted, later query results are added into it (union); with no queries,
`positions` stays `undefined` and the iterator returns without yielding. -/
def dbFindLoop {P : Type} (ifind : String → P → Finset Nat) :
    Option (Finset Nat) → List (List (String × P)) → Option (Finset Nat)
  | pos?, [] => pos?
  | pos?, q :: rest =>
    match pos? with
    | none => dbFindLoop ifind (some (findQuery ifind q)) rest
    | some s => dbFindLoop ifind (some (s ∪ findQuery ifind q)) rest

/-- The set of record offsets `Database.find(...queries)` yields records
for (fetching one record per offset is one-to-one). -/
def dbFindPositions {P : Type} (ifind : String → P → Finset Nat)
    (queries : List (List (String × P))) : Finset Nat :=
  (dbFindLoop ifind none queries).getD ∅

theorem findQueryLoop_mem {P : Type} (ifind : String → P → Finset Nat)
    (x : Nat) (q : List (String × P)) (s : Finset Nat) :
    (x ∈ (findQueryLoop ifind (some s) q).getD ∅) ↔
      (x ∈ s ∧ ∀ fp ∈ q, x ∈ ifind fp.1 fp.2) := by
  induction q generalizing s with
  | nil => simp [findQueryLoop]
  | cons fp rest ih =>
    obtain ⟨f, p⟩ := fp
    by_cases hs : s = ∅
    · subst hs
      simp [findQueryLoop]
    · rw [show findQueryLoop ifind (some s) ((f, p) :: rest)
          = findQueryLoop ifind (some (s ∩ ifind f p)) rest by
        simp [findQueryLoop, hs]]
      rw [ih]
      simp only [Finset.mem_inter, List.mem_cons]
      constructor
      · rintro ⟨⟨hx, hf⟩, hrest⟩
        exact ⟨hx, fun fp hfp => by
          rcases hfp with h | h
          · subst h; exact hf
          · exact hrest fp h⟩
      · rintro ⟨hx, hall⟩
        exact ⟨⟨hx, hall (f, p) (Or.inl rfl)⟩, fun fp h => hall fp (Or.inr h)⟩

theorem findQuery_mem {P : Type} (ifind : String → P → Finset Nat)
    (x : Nat) (q : List (String × P)) :
    x ∈ findQuery ifind q ↔ (q ≠ [] ∧ ∀ fp ∈ q, x ∈ ifind fp.1 fp.2) := by
  cases q with
  | nil => simp [findQuery, findQueryLoop]
  | cons fp rest =>
    obtain ⟨f, p⟩ := fp
    unfold findQuery
    rw [show findQueryLoop ifind none ((f, p) :: rest)
        = findQueryLoop ifind (some (ifind f p)) rest from rfl]
    rw [findQueryLoop_mem]
    simp only [List.mem_cons, ne_eq, List.cons_ne_nil, not_false_eq_true,
      true_and]
    constructor
    · rintro ⟨hx, hrest⟩
      exact fun fp hfp => by
        rcases hfp with h | h
        · subst h; exact hx
        · exact hrest fp h
    · intro hall
      exact ⟨hall (f, p) (Or.inl rfl), fun fp h => hall fp (Or.inr h)⟩

theorem dbFindLoop_mem {P : Type} (ifind : String → P → Finset Nat)
    (x : Nat) (queries : List (List (String × P))) (s : Finset Nat) :
    (x ∈ (dbFindLoop ifind (some s) queries).getD ∅) ↔
      (x ∈ s ∨ ∃ q ∈ queries, x ∈ findQuery ifind q) := by
  induction queries generalizing s with
  | nil => simp [dbFindLoop]
  | cons q rest ih =>
    rw [show dbFindLoop ifind (some s) (q :: rest)
        = dbFindLoop ifind (some (s ∪ findQuery ifind q)) rest from rfl]
    rw [ih]
    simp only [Finset.mem_union, List.mem_cons]
    constructor
    · rintro (⟨h | h⟩ | ⟨q', hq', hx⟩)
      · exact Or.inl h
      · exact Or.inr ⟨q, Or.inl rfl, h⟩
      · exact Or.inr ⟨q', Or.inr hq', hx⟩
    · rintro (h | ⟨q', hq' | hq', hx⟩)
      · exact Or.inl (Or.inl h)
      · subst hq'; exact Or.inl (Or.inr hx)
      · exact Or.inr ⟨q', hq', hx⟩

/-- C3: `find(Q1, Q2, …)` returns exactly `⋃ᵢ ⋂ᶠ find(f, Qᵢ[f])`: an offset
is yielded iff some query has all of its per-field `Index.find` sets
containing the offset.  Each query must mention at least one field (the
intersection over an empty conjunction is taken as empty by the code, see
`dbFind_empty_query`). -/
theorem dbFind_union_inter {P : Type} (ifind : String → P → Finset Nat)
    (queries : List (List (String × P)))
    (hne : ∀ q ∈ queries, q ≠ []) (x : Nat) :
    x ∈ dbFindPositions ifind queries ↔
      ∃ q ∈ queries, ∀ fp ∈ q, x ∈ ifind fp.1 fp.2 := by
  cases queries with
  | nil => simp [dbFindPositions, dbFindLoop]
  | cons q rest =>
    unfold dbFindPositions
    rw [show dbFindLoop ifind none (q :: rest)
        = dbFindLoop ifind (some (findQuery ifind q)) rest from rfl]
    rw [dbFindLoop_mem]
    constructor
    · rintro (hx | ⟨q', hq', hx⟩)
      · exact ⟨q, List.mem_cons_self _ _,
          ((findQuery_mem ifind x q).mp hx).2⟩
      · exact ⟨q', List.mem_cons_of_mem _ hq',
          ((findQuery_mem ifind x q').mp hx).2⟩
    · rintro ⟨q', hq', hall⟩
      rcases List.mem_cons.mp hq' with h | h
      · subst h
        exact Or.inl ((findQuery_mem ifind x q').mpr
          ⟨hne q' hq', hall⟩)
      · exact Or.inr ⟨q', h, (findQuery_mem ifind x q').mpr
          ⟨hne q' hq', hall⟩⟩

/-- Witness for `dbFind_union_inter` at a concrete input. -/
theorem dbFind_union_inter_witness :
    (∀ q ∈ [[("a", 0)]], q ≠ []) ∧
    (7 ∈ dbFindPositions (fun _ _ => ({7} : Finset Nat)) [[("a", 0)]] ↔
      ∃ q ∈ [[("a", 0)]], ∀ fp ∈ q, 7 ∈ (fun (_ : String) (_ : Nat) =>
        ({7} : Finset Nat)) fp.1 fp.2) :=
  ⟨by simp, dbFind_union_inter (fun _ _ => ({7} : Finset Nat)) [[("a", 0)]]
    (by simp) 7⟩

/-- C10: a query object with no fields contributes the empty set (the
accumulator is `undefined` after the loop and `positions || new Set()`
yields the empty set), a find with an empty query list yields nothing, and a
find whose only query is empty yields nothing: there is no fallback to all
records. -/
theorem dbFind_empty_query {P : Type} (ifind : String → P → Finset Nat) :
    findQuery ifind ([] : List (String × P)) = ∅ ∧
    dbFindPositions ifind ([] : List (List (String × P))) = ∅ ∧
    dbFindPositions ifind [([] : List (String × P))] = ∅ := by
  refine ⟨rfl, rfl, ?_⟩
  unfold dbFindPositions
  rw [show dbFindLoop ifind none [([] : List (String × P))]
      = some (findQuery ifind []) from rfl]
  rfl

/-! ## The skip-list index (`src/src/index.ts`, third variant, lines 1177-1740)

Single-field model.  JavaScript values compared by `<=`/`>=`/`==` are
modelled by a linear order `V` (faithful for the homogeneous, same-type
values of one indexed field; for `date-time` fields the values are the
already-`Date.parse`-converted numbers).  The field header's
`node.value` — in the source the serialized metadata JSON string, which
lives in the same JavaScript value universe and is compared by `==` against
an inserted value in the duplicate test of `indexObjectField` line 1399 —
is modelled as an element of `V` carried in the header entry.

`position`/`link`/`levels` are `Int`: positive = byte offset of an entry in
the index file, `0` = null/end, negative = the in-batch placeholder
`-(i+1)` denoting `inserts[i]` (lines 1407-1408). -/

/-- `SkipListNode` (lines 1610-1684): forward pointers and the value. -/
structure SkipNode (V : Type) where
  levels : List Int
  value : V
deriving Repr, DecidableEq

/-- `IndexEntry` (lines 1686-1718). -/
structure IdxEntry (V : Type) where
  position : Int
  pointer : Nat
  link : Int
  node : SkipNode V
deriving Repr, DecidableEq

/-- `node.next(level)`: `levels[level]`, with JavaScript `undefined` for an
out-of-range index being falsy exactly like `0`. -/
def nodeNext {V : Type} (n : SkipNode V) (i : Nat) : Int := n.levels.getD i 0

/-- `node.isDuplicate` (line 1645): no forward pointers. -/
def isDup {V : Type} (e : IdxEntry V) : Prop := e.node.levels = []

/-- `maxHeight` (line 1187). -/
def maxHeight : Nat := 32

/-- A reference to an entry during a batch insert: the locked field header,
a stored entry at a byte offset, or the pending `inserts[i]`. -/
inductive Ref
  | hd
  | disk (p : Nat)
  | new (i : Nat)
deriving Repr, DecidableEq

/-- The `Int` under which a referenced entry appears in `levels`/`link`
slots: its `position` (placeholder `-(i+1)` for `inserts[i]`).  `Ref.hd` is
never a slot target. -/
def refInt : Ref → Int
  | Ref.hd => 0
  | Ref.disk p => p
  | Ref.new i => -(i + 1 : Int)

/-- Decode a nonzero slot: `nextNodePos < 0 ? inserts[-nextNodePos - 1] :
getEntry(nextNodePos)` (line 1384). -/
def intRef (n : Int) : Option Ref :=
  if n = 0 then none
  else if 0 < n then some (Ref.disk n.toNat)
  else some (Ref.new (n.natAbs - 1))

/-- In-memory state of one field's index during an `Index.insert` call: the
header entry (read under the head lock and mutated in place), the stored
entries (`base`, read-only, keyed by byte offset), the mutated cached
entries (`mods`, shadowing `base`), and the pending `inserts`. -/
structure Mem (V : Type) where
  head : IdxEntry V
  base : Nat → Option (IdxEntry V)
  mods : Nat → Option (IdxEntry V)
  inserts : List (IdxEntry V)

/-- Read an entry (the shared-object cache: mutations are visible). -/
def getRef {V : Type} (m : Mem V) : Ref → Option (IdxEntry V)
  | Ref.hd => some m.head
  | Ref.disk p => (m.mods p).elim (m.base p) some
  | Ref.new i => m.inserts.get? i

/-- Mutate an entry in place. -/
def setRef {V : Type} (m : Mem V) : Ref → IdxEntry V → Mem V
  | Ref.hd, e => { m with head := e }
  | Ref.disk p, e => { m with mods := fun q => if q = p then some e else m.mods q }
  | Ref.new i, e => { m with inserts := m.inserts.set i e }

section SkipListOps

variable {V : Type} [LinearOrder V]

/-- The level-`i` advance loop of `indexObjectField` (lines 1381-1390):
`while (nextNodePos = current.node.next(i))`, advance while
`next.value <= value`, stop at `next.value >= value`.  `none` = exhausted
fuel or a dangling reference (the JavaScript code would not terminate or
would crash there). -/
def forwardIns (m : Mem V) (value : V) (i : Nat) :
    Ref → Nat → Option Ref
  | _, 0 => none
  | cur, fuel + 1 =>
    match getRef m cur with
    | none => none
    | some e =>
      let np := nodeNext e.node i
      if np = 0 then some cur
      else
        match intRef np with
        | none => none
        | some r =>
          match getRef m r with
          | none => none
          | some nx =>
            if nx.node.value ≤ value then
              if value ≤ nx.node.value then some r
              else forwardIns m value i r fuel
            else some cur

/-- The descent `for (let i = height - 1; i >= 0; i--)` of
`indexObjectField` (lines 1380-1396), collecting the `updates` snapshot for
levels `≤ level`. -/
def descendIns (m : Mem V) (value : V) (level : Nat) (fuel : Nat) :
    Nat → Ref → List Ref → Option (List Ref)
  | 0, _, ups => some ups
  | i + 1, cur, ups =>
    match forwardIns m value i cur fuel with
    | none => none
    | some cur' =>
        descendIns m value level fuel i cur'
          (if i ≤ level then ups ++ [ cur'] else ups)

/-- One `(value, position)` input of a batch (`ObjectField`, single field,
value already type-transformed). -/
structure ObjField (V : Type) where
  value : V
  position : Nat
deriving Repr, DecidableEq

/-- `head.node.levels.filter(p => p != 0).length` (line 1366). -/
def countNonzero (l : List Int) : Nat := (l.filter (· ≠ 0)).length

/-- The splice at one level `i` (lines 1417-1419):
`entry.node.levels[i] = current.node.next(i);
current.node.levels[i] = entry.position`. -/
def spliceStep {W : Type} [LinearOrder W] (ups : List Ref) (eref : Ref)
    (m : Mem W) (i : Nat) : Option (Mem W) :=
  match ups.get? (ups.length - i - 1) with
  | none => none
  | some cur =>
    match getRef m cur, getRef m eref with
    | some curE, some e =>
      let e2 := { e with node :=
        { e.node with levels := e.node.levels.set i (nodeNext curE.node i) } }
      let m2 := setRef m eref e2
      match getRef m2 cur with
      | some curE2 =>
        some (setRef m2 cur { curE2 with node :=
          { curE2.node with levels := curE2.node.levels.set i e.position } })
      | none => none
    | _, _ => none

/-- `Index.indexObjectField` (lines 1360-1423) for one object: compute the
clamped random level (`lvl` stands for the coin-flip outcome), run the
descent, create the entry (a duplicate when the level-0 predecessor holds an
equal value), push it onto `inserts` with placeholder position, then either
chain it as a duplicate or splice it at levels `0..level`.  Returns the
refs whose entries were modified (the source's return value, whose
`position > 0` members the caller collects as `updates`). -/
def indexObjectField (m : Mem V) (of : ObjField V) (lvl : Nat) (fuel : Nat) :
    Option (Mem V × List Ref) :=
  let height0 := countNonzero m.head.node.levels
  let maxLevel := min height0 (maxHeight - 1)
  let level := min lvl maxLevel
  let height := max height0 (level + 1)
  match descendIns m of.value level fuel height Ref.hd [] with
  | none => none
  | some ups =>
    match ups.getLast? with
    | none => none
    | some prev =>
      match getRef m prev with
      | none => none
      | some prevE =>
        let k := m.inserts.length
        if prevE.node.value = of.value then
          let entry : IdxEntry V :=
            ⟨-(k + 1 : Int), of.position, prevE.link, ⟨[], of.value⟩⟩
          let m2 := { m with inserts := m.inserts ++ [entry] }
          let m3 := setRef m2 prev { prevE with link := -(k + 1 : Int) }
          some (m3, [prev])
        else
          let entry : IdxEntry V :=
            ⟨-(k + 1 : Int), of.position, 0,
              ⟨List.replicate (level + 1) 0, of.value⟩⟩
          let m2 := { m with inserts := m.inserts ++ [entry] }
          match (List.range (level + 1)).foldlM
              (spliceStep ups (Ref.new k)) m2 with
          | none => none
          | some m3 => some (m3, ups)

/-- The per-object loop of `Index.insert` (lines 1275-1282), with the
coin-flip outcomes supplied as the second components; collects the refs of
modified entries with `position > 0` (`updates.set`, insertion-ordered and
deduplicated like the `Map`). -/
def insertPhase (fuel : Nat) :
    List (ObjField V × Nat) → Mem V → List Ref → Option (Mem V × List Ref)
  | [], m, ups => some (m, ups)
  | (of, lvl) :: rest, m, ups =>
    match indexObjectField m of lvl fuel with
    | none => none
    | some (m2, entries) =>
      let ups2 := entries.foldl (fun acc r =>
        match getRef m2 r with
        | some e => if 0 < e.position ∧ r ∉ acc then acc ++ [r] else acc
        | none => acc) ups
      insertPhase fuel rest m2 ups2

end SkipListOps

section WritePhase

variable {V : Type} [LinearOrder V]

/-- `store.joiner.length` for the index store (indent 0, joiner `,\n`),
line 1293. -/
def joinerLen : Nat := 2

/-- State of the write phase of `Index.insert` (lines 1287-1340): the
`inserts` array (entries mutated in place as they are processed), the
`insertPosition` cursor, and the indices already pushed onto `pendingRaw`
in write order. -/
structure WriteSt (V : Type) where
  arr : List (IdxEntry V)
  insertPos : Nat
  pendingIdx : List Nat

/-- `process(entry)` (lines 1295-1308) on `inserts[j]`: assign the real
position `insertPosition + joiner.length`, substitute the real positions of
`inserts[-pos - 1]` for negative level slots, serialize (its byte length
given by `rawLen`) and advance the cursor.  `rawLen` abstracts
`this.store.stringify(entry.encoded()).length`. -/
def processEntry (rawLen : IdxEntry V → Nat) (ws : WriteSt V) (j : Nat) :
    WriteSt V :=
  match ws.arr.get? j with
  | none => ws
  | some e =>
    let position := ws.insertPos + joinerLen
    let levels2 := e.node.levels.map (fun p =>
      if p < 0 then
        match ws.arr.get? (p.natAbs - 1) with
        | some nx => nx.position
        | none => p
      else p)
    let e2 := { e with position := (position : Int),
                       node := { e.node with levels := levels2 } }
    { arr := ws.arr.set j e2,
      insertPos := position + rawLen e2,
      pendingIdx := ws.pendingIdx ++ [j] }

/-- The inner `while ((dupe = inserts[i + 1]) && dupe.node.value == value)`
loop (lines 1322-1328): link each same-value follower to the previously
processed entry and process it.  The counter is `arr.length - j` at entry,
so it never runs out before the array does. -/
def consumeDupes (rawLen : IdxEntry V → Nat) (value : V) :
    Nat → Nat → Option Nat → WriteSt V → WriteSt V × Nat × Option Nat
  | 0, j, prev, ws => (ws, j, prev)
  | n + 1, j, prev, ws =>
    match ws.arr.get? j with
    | none => (ws, j, prev)
    | some d =>
      if d.node.value = value then
        let ws2 := match prev with
          | some pj =>
            match ws.arr.get? pj with
            | some pe => { ws with arr := ws.arr.set j { d with link := pe.position } }
            | none => ws
          | none => ws
        consumeDupes rawLen value n (j + 1) (some j) (processEntry rawLen ws2 j)
      else (ws, j, prev)

/-- The outer write loop `for (let i = 0; i < inserts.length; i++)`
(lines 1311-1334): a duplicate head entry is processed first, same-value
followers are consumed and chained, and a primary entry is linked to the
last written duplicate and processed after them. -/
def writeLoopGo (rawLen : IdxEntry V → Nat) :
    Nat → Nat → WriteSt V → WriteSt V
  | 0, _, ws => ws
  | n + 1, i, ws =>
    match ws.arr.get? i with
    | none => ws
    | some entry =>
      let value := entry.node.value
      let st1 :=
        if entry.node.levels = [] then (processEntry rawLen ws i, some i)
        else (ws, none)
      let res := consumeDupes rawLen value (st1.1.arr.length - (i + 1)) (i + 1)
        st1.2 st1.1
      let ws3 := res.1
      let j := res.2.1
      let prev := res.2.2
      let ws4 :=
        if entry.node.levels = [] then ws3
        else
          let ws' := match prev with
            | some pj =>
              match ws3.arr.get? i, ws3.arr.get? pj with
              | some e, some pe =>
                  { ws3 with arr := ws3.arr.set i { e with link := pe.position } }
              | _, _ => ws3
            | none => ws3
          processEntry rawLen ws' i
      writeLoopGo rawLen n j ws4

/-- Persistent state of one field's index between operations: the header
entry at byte offset `headPos`, its metadata `tx` flag, the value entries by
byte offset, and the file's append position. -/
structure IndexState (V : Type) where
  headPos : Nat
  head : IdxEntry V
  tx : Bool
  store : Nat → Option (IdxEntry V)
  appendPos : Nat

/-- View a persistent state as an in-memory state with no pending work. -/
def memOf (st : IndexState V) : Mem V :=
  ⟨st.head, st.store, fun _ => none, []⟩

/-- Resolution of leftover negative placeholders against the processed
`inserts` array (the update pass, lines 1345-1353). -/
def resolveInt (arr : List (IdxEntry V)) (p : Int) : Int :=
  if p < 0 then
    match arr.get? (p.natAbs - 1) with
    | some nx => nx.position
    | none => p
  else p

/-- Resolve every slot of an updated entry (lines 1346-1352). -/
def resolveEntry (arr : List (IdxEntry V)) (e : IdxEntry V) : IdxEntry V :=
  { e with link := resolveInt arr e.link,
           node := { e.node with levels := e.node.levels.map (resolveInt arr) } }

/-- Assemble the post-insert persistent state: `appendRaw` adds the
processed entries at their assigned positions (in write order), and the
update pass rewrites each collected modified entry (and the header, when
modified) with its placeholders resolved. -/
def finalizeInsert (st : IndexState V) (m : Mem V) (ws : WriteSt V)
    (ups : List Ref) : IndexState V :=
  let baseStore : Nat → Option (IdxEntry V) := fun p =>
    ((ups.filterMap (fun r => match r with
        | Ref.disk q => if q = p then getRef m (Ref.disk q) else none
        | _ => none)).head?.map (resolveEntry ws.arr)).elim (st.store p) some
  let store2 : Nat → Option (IdxEntry V) := fun p =>
    (ws.pendingIdx.filterMap (fun j => match ws.arr.get? j with
        | some e => if e.position = (p : Int) then some e else none
        | none => none)).head?.elim (baseStore p) some
  { headPos := st.headPos,
    head := if Ref.hd ∈ ups then resolveEntry ws.arr m.head else m.head,
    tx := st.tx,
    store := store2,
    appendPos := ws.insertPos }

/-- The JavaScript-side descending sort of the batch (lines 1260-1269): the
comparator `(b, a) => a.value < b.value ? -1 : a.value > b.value ? 1 : 0`
keeps `x` before `y` iff `y.value <= x.value`, and `Array.prototype.sort`
is stable; `insertionSort` by the same total preorder is the same stable
sort. -/
def sortBatch (batch : List (ObjField V)) : List (ObjField V) :=
  batch.insertionSort (fun x y => y.value ≤ x.value)

/-- `Index.insert` (lines 1241-1358) for one field's batch: sort
descending, run the traversal/splice phase (coin-flip outcomes in `lvls`),
compute the real positions and write the new entries (single append), then
rewrite the collected updated entries in place.  `rawLen` gives each
serialized entry's byte length. -/
def indexInsert (rawLen : IdxEntry V → Nat) (st : IndexState V)
    (batch : List (ObjField V)) (lvls : List Nat) (fuel : Nat) :
    Option (IndexState V) :=
  if batch.isEmpty then some st
  else
    let sorted := sortBatch batch
    match insertPhase fuel (sorted.zip lvls) (memOf st) [] with
    | none => none
    | some (m, ups) =>
      let ws0 : WriteSt V := ⟨m.inserts, st.appendPos, []⟩
      let ws := writeLoopGo rawLen ws0.arr.length 0 ws0
      some (finalizeInsert st m ws ups)

/-- A sequence of `Index.insert` calls. -/
def insertSeq (rawLen : IdxEntry V → Nat) (fuel : Nat) :
    IndexState V → List (List (ObjField V) × List Nat) → Option (IndexState V)
  | st, [] => some st
  | st, (batch, lvls) :: rest =>
    match indexInsert rawLen st batch lvls fuel with
    | none => none
    | some st2 => insertSeq rawLen fuel st2 rest

end WritePhase

section FindOps

variable {V : Type} [LinearOrder V]

/-- The `{seek, match}` result of a predicate (`Predicate` contract,
`src/src/query.ts`). -/
structure SeekMatch where
  seek : Int
  matched : Bool
deriving Repr, DecidableEq

/-- The equality predicate `Database.findQuery` builds for a plain value
(`src/unnamed/part_003` lines 112-124): `seek = sign(value - start)`,
`match = (value == start)`. -/
def eqPred (start : V) : V → SeekMatch := fun v =>
  ⟨if v < start then -1 else if start < v then 1 else 0, decide (v = start)⟩

/-- The range predicate built by the `predicate` template helper
(`src/src/index.ts` lines 1741-1801) from `>`/`>=`/`<`/`<=` conditions:
`seek` is `1` without a lower bound, else `sign(value - start)`; `match`
requires both bounds (strictly when excluded). -/
def rangePred (lo hi : Option V) (exLo exHi : Bool) : V → SeekMatch := fun v =>
  ⟨match lo with
    | none => 1
    | some s => if v < s then -1 else if s < v then 1 else 0,
   (match lo with
    | none => true
    | some s => if exLo then decide (s < v) else decide (s ≤ v)) &&
   (match hi with
    | none => true
    | some e => if exHi then decide (v < e) else decide (v ≤ e))⟩

/-- The level-`i` advance loop of `Index.find` (lines 1554-1564):
`if (seek <= 0) current = next; if (seek == 0) found = true;
if (seek >= 0) break`. -/
def findForward (m : Mem V) (p : V → SeekMatch) (i : Nat) :
    Ref → Nat → Option (Ref × Bool)
  | _, 0 => none
  | cur, fuel + 1 =>
    match getRef m cur with
    | none => none
    | some e =>
      let np := nodeNext e.node i
      if np = 0 then some (cur, false)
      else
        match intRef np with
        | none => none
        | some r =>
          match getRef m r with
          | none => none
          | some nx =>
            let s := (p nx.node.value).seek
            if s ≤ 0 then
              if s = 0 then some (r, true)
              else findForward m p i r fuel
            else some (cur, false)

/-- The find descent (lines 1552-1567), breaking out when `found`. -/
def findDescend (m : Mem V) (p : V → SeekMatch) :
    Nat → Ref → Nat → Option Ref
  | 0, cur, _ => some cur
  | i + 1, cur, fuel =>
    match findForward m p i cur fuel with
    | none => none
    | some ( cur', found) =>
      if found then some cur' else findDescend m p i cur' fuel

/-- `pointers.add` (a JavaScript `Set`: insertion order, deduplicated). -/
def addPtr (acc : List Nat) (x : Nat) : List Nat :=
  if x ∈ acc then acc else acc ++ [x]

/-- The duplicate walk `while (entry.link)` (lines 1585-1589). -/
def linkChain (m : Mem V) : IdxEntry V → List Nat → Nat → Option (List Nat)
  | _, _, 0 => none
  | e, acc, fuel + 1 =>
    if e.link = 0 then some acc
    else
      match intRef e.link with
      | none => none
      | some r =>
        match getRef m r with
        | none => none
        | some nx => linkChain m nx (addPtr acc nx.pointer) fuel

/-- The level-0 result scan of `Index.find` (lines 1575-1590). -/
def findScan (m : Mem V) (p : V → SeekMatch) :
    Option Ref → List Nat → Nat → Option (List Nat)
  | none, acc, _ => some acc
  | some _, _, 0 => none
  | some cur, acc, fuel + 1 =>
    match getRef m cur with
    | none => none
    | some e =>
      let nn := nodeNext e.node 0
      let nxt? : Option (Option Ref) :=
        if nn = 0 then some none
        else
          match intRef nn with
          | some r => if (getRef m r).isSome then some (some r) else none
          | none => none
      match nxt? with
      | none => none
      | some nxt =>
        let sm := p e.node.value
        if sm.seek ≤ 0 ∧ sm.matched = false then findScan m p nxt acc fuel
        else if sm.matched = false then some acc
        else
          match linkChain m e (addPtr acc e.pointer) fuel with
          | none => none
          | some acc2 => findScan m p nxt acc2 fuel

/-- Errors of `Index.find`: the `FieldInTransaction` check of lines
1544-1545, and `ioErr` standing for the crash/divergence paths the
JavaScript has on a corrupted file (dangling offsets; the model's fuel). -/
inductive FindErr
  | fieldInTransaction
  | ioErr
deriving Repr, DecidableEq

/-- The body of `Index.find` after the transaction check (lines
1547-1594): descend, then scan from the landing entry (or from the first
level-0 entry when the descent stayed at the head). -/
def indexFindBody (st : IndexState V) (p : V → SeekMatch) (fuel : Nat) :
    Option (List Nat) :=
  match findDescend (memOf st) p (countNonzero st.head.node.levels)
      Ref.hd fuel with
  | none => none
  | some cur =>
    let start : Option Ref :=
      if cur = Ref.hd then
        if nodeNext st.head.node 0 = 0 then none
        else intRef (nodeNext st.head.node 0)
      else some cur
    findScan (memOf st) p start [] fuel

/-- `Index.find` (lines 1536-1595): under the shared head lock, refuse a
field in transaction, then descend and scan, returning the ordered set of
record pointers. -/
def indexFind (st : IndexState V) (p : V → SeekMatch) (fuel : Nat) :
    Except FindErr (List Nat) :=
  if st.tx then Except.error FindErr.fieldInTransaction
  else
    match indexFindBody st p fuel with
    | none => Except.error FindErr.ioErr
    | some ps => Except.ok ps

/-- C8: `Index.find` on a present field raises `FieldInTransaction` (and
yields no result) exactly when the field header's metadata `tx` flag is set
(the flag is `0` or `1`; `tx = true` models `1`); with `tx = 0` the find
never raises that error. -/
theorem indexFind_tx (st : IndexState V) (p : V → SeekMatch) (fuel : Nat) :
    (indexFind st p fuel = Except.error FindErr.fieldInTransaction ↔
      st.tx = true) := by
  constructor
  · intro h
    by_cases htx : st.tx
    · exact htx
    · exfalso
      unfold indexFind at h
      rw [if_neg htx] at h
      cases hb : indexFindBody st p fuel with
      | none => rw [hb] at h; simp at h
      | some ps => rw [hb] at h; simp at h
  · intro htx
    unfold indexFind
    rw [if_pos htx]

/-- Witness for `indexFind_tx`: a concrete in-transaction state errors. -/
theorem indexFind_tx_witness :
    (indexFind ⟨5, ⟨5, 0, 0, ⟨List.replicate 32 0, (0 : Int)⟩⟩, true,
        fun _ => none, 9⟩ (eqPred 3) 10
      = Except.error FindErr.fieldInTransaction ↔ True) := by
  rw [indexFind_tx]
  simp

end FindOps

section Counterexamples

/-- The empty single-field index: header at offset 5 with all-zero levels
and metadata value `0` (standing for the serialized metadata JSON string,
an element of the same JavaScript value universe as the field's values),
no value entries, append position 9. -/
def emptyIdx : IndexState Int :=
  ⟨5, ⟨5, 0, 0, ⟨List.replicate 32 0, 0⟩⟩, false, fun _ => none, 9⟩

/-- C1 counterexample.  A string-valued field can hold the exact text of the
header's serialized metadata (`JSON.stringify` of the field info, `tx` set
to 1 during the insert).  When such a value sorts before every value in the
list, the level-0 predecessor found by `indexObjectField` is the header
itself and the duplicate test `prev.node.value == value` (line 1399)
succeeds against the metadata string, so the record is chained from the
header's `link` instead of entering the skip list — here `V = Int` with the
metadata value `0` and the colliding record value `0` at offset 42.  After
the insert, `find` with the equality predicate for that value returns the
empty set instead of offset 42. -/
theorem roundTrip_counterexample :
    (indexInsert (V := Int) (fun _ => 10) emptyIdx
        [⟨0, 42⟩] [0] 100).map
      (fun st1 => indexFind st1 (eqPred 0) 100)
      = some (Except.ok []) := by rfl

/-- C2 counterexample.  Two records whose field value equals the header's
metadata value (see `roundTrip_counterexample`): both become duplicates
chained from the header's `link`.  The leveled list stays empty (the header
levels remain all zero, so a predicate matching everything finds nothing),
yet two entries carrying the value exist, and the first occurrence's entry
(offset 11, pointer 41) has `link = 0`, so the further occurrence (offset
23, pointer 42) is not reachable from it. -/
theorem order_dupes_counterexample :
    (indexInsert (V := Int) (fun _ => 10) emptyIdx
        [⟨0, 41⟩, ⟨0, 42⟩] [0, 0] 100).map
      (fun st1 =>
        (indexFind st1 (rangePred none none false false) 100,
         (st1.store 11).map (fun e => (e.pointer, e.link)),
         (st1.store 23).map (fun e => e.pointer),
         st1.head.node.levels))
      = some (Except.ok [], some (41, 0), some 42, List.replicate 32 0) := by rfl

end Counterexamples

/-! ## Structural invariant of one field's skip list

The invariant relates an in-memory state to an abstraction: the ordered
list `C` of level-0 chain refs (the leveled entries) and, for each of them,
the list `D r` of its duplicate refs in `link` order. -/

section Invariant

variable {V : Type} [LinearOrder V] [Inhabited V]

instance : Inhabited (IdxEntry V) := ⟨⟨0, 0, 0, ⟨[], default⟩⟩⟩

/-- The entry an in-play ref denotes (junk default for dangling refs;
the invariant rules those out). -/
def ent (m : Mem V) (r : Ref) : IdxEntry V := (getRef m r).getD default

/-- Value, level count, level slot, link, pointer of a referenced entry. -/
def mval (m : Mem V) (r : Ref) : V := (ent m r).node.value

def mlen (m : Mem V) (r : Ref) : Nat := (ent m r).node.levels.length

def mslot (m : Mem V) (r : Ref) (i : Nat) : Int := nodeNext (ent m r).node i

def mlink (m : Mem V) (r : Ref) : Int := (ent m r).link

def mptr (m : Mem V) (r : Ref) : Nat := (ent m r).pointer

/-- The refs present in the level-`i` list: the chain refs whose entry has
more than `i` levels. -/
def subLv (m : Mem V) (C : List Ref) (i : Nat) : List Ref :=
  C.filter (fun r => decide (i < mlen m r))

/-- `Links m i s L`: starting from slot value `s`, the level-`i` forward
pointers traverse exactly the refs `L`. -/
inductive Links (m : Mem V) (i : Nat) : Int → List Ref → Prop
  | nil : Links m i 0 []
  | cons {r : Ref} {rest : List Ref} :
      Links m i (mslot m r i) rest → Links m i (refInt r) (r :: rest)

/-- `DChain m s L`: starting from link value `s`, the `link` pointers
traverse exactly the duplicate refs `L` (each a stored entry with no
levels). -/
inductive DChain (m : Mem V) : Int → List Ref → Prop
  | nil : DChain m 0 []
  | cons {r : Ref} {rest : List Ref} :
      (getRef m r).isSome →
      (ent m r).node.levels = [] →
      DChain m (mlink m r) rest → DChain m (refInt r) (r :: rest)

/-- A ref that may appear in a slot: a stored entry at a positive offset or
a pending insert; never the header. -/
def refValid (m : Mem V) : Ref → Prop
  | Ref.hd => False
  | Ref.disk p => 0 < p ∧ (getRef m (Ref.disk p)).isSome
  | Ref.new i => i < m.inserts.length

/-- All refs the abstraction mentions. -/
def allRefs (C : List Ref) (D : Ref → List Ref) : List Ref :=
  C ++ (C.map D).join

/-- The invariant.  `hp` is the header's byte offset, `apos` the append
position of the index file. -/
structure Inv (hp apos : Nat) (m : Mem V) (C : List Ref) (D : Ref → List Ref) :
    Prop where
  headLen : m.head.node.levels.length = maxHeight
  headPos : m.head.position = (hp : Int)
  hpPos : 0 < hp
  hpLtApos : hp < apos
  baseHp : m.base hp = none
  valid : ∀ r ∈ allRefs C D, refValid m r
  nodupAll : (allRefs C D).Nodup
  sorted : (C.map (mval m)).Chain' (· < ·)
  lvPos : ∀ r ∈ C, 0 < mlen m r ∧ mlen m r ≤ maxHeight
  links : ∀ i < maxHeight, Links m i (nodeNext m.head.node i) (subLv m C i)
  dups : ∀ r ∈ C, DChain m (mlink m r) (D r)
  posBase : ∀ p e, m.base p = some e → e.position = (p : Int)
  posMods : ∀ p e, m.mods p = some e → e.position = (p : Int)
  posNew : ∀ i e, m.inserts.get? i = some e → e.position = -(i + 1 : Int)
  modsSub : ∀ p, (m.mods p).isSome → (m.base p).isSome
  baseFresh : ∀ p, apos ≤ p → m.base p = none
  newUsed : ∀ i < m.inserts.length, Ref.new i ∈ allRefs C D

/-- The multiset of `(value, record offset)` pairs the field's list holds:
each chain entry with its own pointer, and each of its duplicates carrying
the chain entry's value. -/
def contents (m : Mem V) (C : List Ref) (D : Ref → List Ref) :
    List (V × Nat) :=
  C.bind (fun r =>
    (mval m r, mptr m r) :: (D r).map (fun d => (mval m r, mptr m d)))

theorem getRef_setRef_same (m : Mem V) (r : Ref) (e : IdxEntry V)
    (hv : r = Ref.hd ∨ refValid m r) :
    getRef (setRef m r e) r = some e := by
  cases r with
  | hd => rfl
  | disk p => simp [getRef, setRef]
  | new i =>
    rcases hv with h | h
    · cases h
    · simp only [getRef, setRef]
      rw [List.get?_set_eq, List.get?_eq_get (by simpa using h)]
      rfl

theorem getRef_setRef_other (m : Mem V) (r r' : Ref) (e : IdxEntry V)
    (hne : r' ≠ r) : getRef (setRef m r e) r' = getRef m r' := by
  cases r with
  | hd =>
    cases r' with
    | hd => exact absurd rfl hne
    | disk p => rfl
    | new i => rfl
  | disk p =>
    cases r' with
    | hd => rfl
    | disk q =>
      have : q ≠ p := fun h => hne (by rw [h])
      simp [getRef, setRef, this]
    | new i => rfl
  | new i =>
    cases r' with
    | hd => rfl
    | disk q => rfl
    | new j =>
      have : j ≠ i := fun h => hne (by rw [h])
      simp only [getRef, setRef]
      rw [List.get?_set_ne _ _ (fun h => this h.symm)]

theorem Links_frame {m m' : Mem V} {i : Nat} {s : Int} {L : List Ref}
    (h : Links m i s L) (heq : ∀ r ∈ L, mslot m' r i = mslot m r i) :
    Links m' i s L := by
  induction h with
  | nil => exact Links.nil
  | cons hrest ih =>
    rename_i r rest
    have : Links m' i (mslot m' r i) rest := by
      rw [heq r (List.mem_cons_self _ _)]
      exact ih (fun x hx => heq x (List.mem_cons_of_mem _ hx))
    exact Links.cons this

theorem DChain_frame {m m' : Mem V} {s : Int} {L : List Ref}
    (h : DChain m s L)
    (heq : ∀ r ∈ L, getRef m' r = getRef m r) :
    DChain m' s L := by
  induction h with
  | nil => exact DChain.nil
  | cons hsome hlv hrest ih =>
    rename_i r rest
    have hr : getRef m' r = getRef m r := heq r (List.mem_cons_self _ _)
    have hent : ent m' r = ent m r := by unfold ent; rw [hr]
    refine DChain.cons (by rw [hr]; exact hsome) (by rw [hent]; exact hlv) ?_
    rw [show mlink m' r = mlink m r by unfold mlink; rw [hent]]
    exact ih (fun x hx => heq x (List.mem_cons_of_mem _ hx))

theorem intRef_refInt (m : Mem V) (r : Ref) (hv : refValid m r) :
    intRef (refInt r) = some r := by
  cases r with
  | hd => cases hv
  | disk p =>
    obtain ⟨hp, _⟩ := hv
    simp only [refInt, intRef]
    rw [if_neg (by omega), if_pos (by omega)]
    simp
  | new i =>
    simp only [refInt, intRef]
    rw [if_neg (by omega), if_neg (by omega)]
    simp only [Option.some.injEq, Ref.new.injEq]
    omega

theorem refInt_ne_zero (m : Mem V) (r : Ref) (hv : refValid m r) :
    refInt r ≠ 0 := by
  cases r with
  | hd => cases hv
  | disk p => obtain ⟨hp, _⟩ := hv; simp [refInt]; omega
  | new i => simp [refInt]; omega

end Invariant

section SearchLemmas

variable {V : Type} [LinearOrder V] [Inhabited V]

theorem refValid_isSome (m : Mem V) (r : Ref) (hv : refValid m r) :
    (getRef m r).isSome := by
  cases r with
  | hd => cases hv
  | disk p => exact hv.2
  | new i =>
    simp only [getRef]
    rw [List.get?_eq_get (by simpa using hv)]
    rfl

theorem ent_eq {m : Mem V} {r : Ref} {e : IdxEntry V}
    (h : getRef m r = some e) : ent m r = e := by
  unfold ent
  rw [h]
  rfl

/-- In a strictly sorted list, filtering a downward-closed value predicate
is the same as taking the prefix. -/
theorem sorted_filter_eq_takeWhile (f : Ref → V) (v : V) :
    ∀ (L : List Ref), ((L.map f).Chain' (· < ·)) →
      L.filter (fun r => decide (f r ≤ v)) =
        L.takeWhile (fun r => decide (f r ≤ v)) := by
  intro L hs
  induction L with
  | nil => rfl
  | cons x xs ih =>
    have hs' : ((xs.map f).Chain' (· < ·)) := (List.chain'_cons'.mp hs).2
    by_cases hx : f x ≤ v
    · rw [List.filter_cons_of_pos (by simpa using hx),
        List.takeWhile_cons_of_pos (by simpa using hx), ih hs']
    · rw [List.filter_cons_of_neg (by simpa using hx),
        List.takeWhile_cons_of_neg (by simpa using hx)]
      have hpw : ∀ y ∈ xs, f x < f y := by
        have := List.chain'_iff_pairwise.mp hs
        intro y hy
        exact List.rel_of_pairwise_cons this (List.mem_map_of_mem f hy)
      rw [List.filter_eq_nil_iff.mpr]
      intro y hy
      have : f x < f y := hpw y hy
      simp only [decide_eq_true_eq]
      intro hle
      exact absurd hle (not_le.mpr (lt_of_le_of_lt (le_of_not_le hx) this))
  
theorem Links_nil_inv {m : Mem V} {i : Nat} {s : Int}
    (h : Links m i s ([] : List Ref)) : s = 0 := by
  cases h
  rfl

theorem Links_cons_inv {m : Mem V} {i : Nat} {s : Int} {r : Ref}
    {rest : List Ref} (h : Links m i s (r :: rest)) :
    s = refInt r ∧ Links m i (mslot m r i) rest := by
  cases h
  exact ⟨rfl, by assumption⟩

theorem DChain_nil_inv {m : Mem V} {s : Int}
    (h : DChain m s ([] : List Ref)) : s = 0 := by
  cases h
  rfl

theorem DChain_cons_inv {m : Mem V} {s : Int} {r : Ref} {rest : List Ref}
    (h : DChain m s (r :: rest)) :
    s = refInt r ∧ (getRef m r).isSome ∧ (ent m r).node.levels = [] ∧
      DChain m (mlink m r) rest := by
  cases h
  exact ⟨rfl, by assumption, by assumption, by assumption⟩

theorem Links_suffix {m : Mem V} {i : Nat} :
    ∀ (L1 : List Ref) {s : Int} {r : Ref} {L2 : List Ref},
      Links m i s (L1 ++ r :: L2) → Links m i (mslot m r i) L2 := by
  intro L1
  induction L1 with
  | nil =>
    intro s r L2 h
    exact (Links_cons_inv h).2
  | cons x xs ih =>
    intro s r L2 h
    exact ih ((Links_cons_inv h).2)

/-- Along a links chain, every slot value is zero or the placeholder of a
chain member. -/
theorem Links_slot_bound {m : Mem V} {i : Nat} :
    ∀ {L : List Ref} {s : Int}, Links m i s L →
    ∀ r ∈ L, mslot m r i = 0 ∨ ∃ r', r' ∈ L ∧ mslot m r i = refInt r' := by
  intro L
  induction L with
  | nil =>
    intro s h r hr
    cases hr
  | cons a as ih =>
    intro s h r hr
    obtain ⟨hs, hrest⟩ := Links_cons_inv h
    rcases List.mem_cons.mp hr with h2 | h2
    · subst h2
      cases as with
      | nil =>
        left
        exact Links_nil_inv hrest
      | cons b bs =>
        right
        exact ⟨b, List.mem_cons_of_mem _ (List.mem_cons_self _ _),
          (Links_cons_inv hrest).1⟩
    · rcases ih hrest r h2 with h0 | ⟨r2, hr2, he⟩
      · exact Or.inl h0
      · exact Or.inr ⟨r2, List.mem_cons_of_mem _ hr2, he⟩

/-- The level-`i` advance loop lands at the last chain element whose value
is at most `v` (the starting entry when none is). -/
theorem forwardIns_spec (m : Mem V) (v : V) (i : Nat) :
    ∀ (L : List Ref) (cur : Ref) (fuel : Nat),
    Links m i (mslot m cur i) L →
    (∀ r ∈ L, refValid m r) →
    ((L.map (mval m)).Chain' (· < ·)) →
    (getRef m cur).isSome →
    L.length < fuel →
    forwardIns m v i cur fuel =
      some ((L.takeWhile (fun r => decide (mval m r ≤ v))).getLastD cur) := by
  intro L
  induction L with
  | nil =>
    intro cur fuel hlinks _ _ hcur hfuel
    obtain ⟨f, rfl⟩ : ∃ f, fuel = f + 1 := ⟨fuel - 1, by omega⟩
    obtain ⟨e, he⟩ := Option.isSome_iff_exists.mp hcur
    have hslot : mslot m cur i = 0 := Links_nil_inv hlinks
    unfold forwardIns
    rw [he]
    simp only []
    rw [show nodeNext e.node i = mslot m cur i by
      unfold mslot; rw [ent_eq he], hslot]
    rfl
  | cons r rest ih =>
    intro cur fuel hlinks hvalid hsorted hcur hfuel
    obtain ⟨f, rfl⟩ : ∃ f, fuel = f + 1 := ⟨fuel - 1, by omega⟩
    obtain ⟨e, he⟩ := Option.isSome_iff_exists.mp hcur
    have hrv : refValid m r := hvalid r (List.mem_cons_self _ _)
    obtain ⟨hslot, hrest⟩ := Links_cons_inv hlinks
    obtain ⟨nx, hnx⟩ := Option.isSome_iff_exists.mp (refValid_isSome m r hrv)
    have hnxval : nx.node.value = mval m r := by
      unfold mval; rw [ent_eq hnx]
    have hpw := List.chain'_iff_pairwise.mp hsorted
    have hrlt : ∀ x ∈ rest, mval m r < mval m x := by
      intro x hx
      exact List.rel_of_pairwise_cons (by simpa using hpw)
        (List.mem_map_of_mem (mval m) hx)
    unfold forwardIns
    rw [he]
    simp only []
    rw [show nodeNext e.node i = mslot m cur i by
      unfold mslot; rw [ent_eq he], hslot,
      if_neg (refInt_ne_zero m r hrv), intRef_refInt m r hrv]
    simp only []
    rw [hnx]
    simp only [hnxval]
    rcases lt_trichotomy (mval m r) v with hlt | heq | hgt
    · rw [if_pos (le_of_lt hlt), if_neg (not_le.mpr hlt)]
      rw [ih r f hrest (fun x hx => hvalid x (List.mem_cons_of_mem _ hx))
        ((List.chain'_cons'.mp (by simpa using hsorted)).2)
        (refValid_isSome m r hrv) (by simpa using hfuel)]
      rw [List.takeWhile_cons_of_pos (by simpa using le_of_lt hlt),
        List.getLastD_cons]
    · rw [if_pos (le_of_eq heq), if_pos (ge_of_eq heq)]
      rw [List.takeWhile_cons_of_pos (by simpa using le_of_eq heq),
        List.getLastD_cons]
      have htw : rest.takeWhile (fun x => decide (mval m x ≤ v)) = [] := by
        cases hr : rest with
        | nil => rfl
        | cons a as =>
          rw [List.takeWhile_cons_of_neg]
          simp only [decide_eq_true_eq]
          exact not_le.mpr (heq ▸ (hrlt a (by rw [hr]; simp)))
      rw [htw]
      rfl
    · rw [if_neg (not_le.mpr hgt)]
      rw [List.takeWhile_cons_of_neg (by simpa using not_le.mpr hgt)]
      rfl

end SearchLemmas

section DescentLemmas

variable {V : Type} [LinearOrder V] [Inhabited V]

/-- The chain elements with value at most `v`. -/
def seg (m : Mem V) (v : V) (L : List Ref) : List Ref :=
  L.filter (fun r => decide (mval m r ≤ v))

/-- The level-`i` predecessor of `v`: the last level-`i` element with value
at most `v`, the header if none. -/
def predAt (m : Mem V) (C : List Ref) (v : V) (i : Nat) : Ref :=
  (seg m v (subLv m C i)).getLastD Ref.hd

theorem subLv_succ (m : Mem V) (C : List Ref) (i : Nat) :
    subLv m C (i + 1) = (subLv m C i).filter
      (fun r => decide (i + 1 < mlen m r)) := by
  unfold subLv
  rw [List.filter_filter]
  congr 1
  funext r
  by_cases h : i + 1 < mlen m r
  · have h0 : i < mlen m r := by omega
    simp [h, h0]
  · by_cases h0 : i < mlen m r
    · simp [h, h0]
    · simp [h, h0]

theorem subLv_sublist (m : Mem V) (C : List Ref) (i : Nat) :
    (subLv m C i).Sublist C := List.filter_sublist C

theorem seg_sublist (m : Mem V) (v : V) (L : List Ref) :
    (seg m v L).Sublist L := List.filter_sublist L

theorem sorted_sublist {m : Mem V} {C L : List Ref}
    (hsub : L.Sublist C) (hs : (C.map (mval m)).Chain' (· < ·)) :
    (L.map (mval m)).Chain' (· < ·) := by
  rw [List.chain'_iff_pairwise] at *
  exact List.Pairwise.sublist (List.Sublist.map _ hsub) hs

theorem getRef_hd (m : Mem V) : getRef m Ref.hd = some m.head := rfl

theorem getLastD_cons_mem {α : Type} (a : α) (l : List α) (d : α) :
    (a :: l).getLastD d ∈ a :: l := by
  induction l generalizing a with
  | nil => simp [List.getLastD_eq_getLast?]
  | cons b bs ih =>
    rw [List.getLastD_cons]
    exact List.mem_cons_of_mem a (ih b)

theorem mslot_hd (m : Mem V) (i : Nat) :
    mslot m Ref.hd i = nodeNext m.head.node i := rfl

/-- The level-`i` advance starting from the level-`(i+1)` predecessor lands
at the level-`i` predecessor. -/
theorem forward_from_pred (m : Mem V) (C : List Ref) (v : V) (i : Nat)
    (fuel : Nat)
    (hlinks : Links m i (nodeNext m.head.node i) (subLv m C i))
    (hsorted : (C.map (mval m)).Chain' (· < ·))
    (hvalid : ∀ r ∈ C, refValid m r)
    (hfuel : C.length < fuel)
    (hstart : ∀ r ∈ seg m v (subLv m C (i + 1)), r ∈ seg m v (subLv m C i)) :
    forwardIns m v i (predAt m C v (i + 1)) fuel = some (predAt m C v i) := by
  have hsortedSi : ((subLv m C i).map (mval m)).Chain' (· < ·) :=
    sorted_sublist (subLv_sublist m C i) hsorted
  have hvalidSi : ∀ r ∈ subLv m C i, refValid m r :=
    fun r hr => hvalid r ((subLv_sublist m C i).mem hr)
  have hfuelSi : (subLv m C i).length < fuel :=
    lt_of_le_of_lt ((subLv_sublist m C i).length_le) hfuel
  have htwseg : (subLv m C i).takeWhile (fun r => decide (mval m r ≤ v))
      = seg m v (subLv m C i) :=
    (sorted_filter_eq_takeWhile (mval m) v _ hsortedSi).symm
  cases hseg : seg m v (subLv m C (i + 1)) with
  | nil =>
    have hpred : predAt m C v (i + 1) = Ref.hd := by
      unfold predAt
      rw [hseg]
      rfl
    rw [hpred]
    rw [forwardIns_spec m v i (subLv m C i) Ref.hd fuel
      (by rw [mslot_hd]; exact hlinks) hvalidSi hsortedSi (by rfl) hfuelSi]
    rw [htwseg]
    rfl
  | cons s0 srest =>
    set cur := predAt m C v (i + 1) with hcurdef
    have hcurseg : cur ∈ seg m v (subLv m C (i + 1)) := by
      unfold predAt at hcurdef
      rw [hseg] at hcurdef
      rw [hcurdef, hseg]
      exact getLastD_cons_mem _ _ _
    have hcurSi : cur ∈ seg m v (subLv m C i) := hstart cur hcurseg
    have hcurle : mval m cur ≤ v := by
      have := List.of_mem_filter hcurSi
      simpa using this
    obtain ⟨A, B, hAB⟩ := List.append_of_mem (List.mem_of_mem_filter hcurSi)
    -- subLv m C i = A ++ cur :: B
    have hlinksB : Links m i (mslot m cur i) B := by
      rw [hAB] at hlinks
      exact Links_suffix A hlinks
    have hsortedABC : ((A ++ cur :: B).map (mval m)).Chain' (· < ·) := by
      rw [← hAB]
      exact hsortedSi
    have hsortedB : (B.map (mval m)).Chain' (· < ·) := by
      refine sorted_sublist ?_ hsortedABC
      refine List.Sublist.trans (List.sublist_cons_self cur B) ?_
      exact (List.sublist_append_right A (cur :: B))
    have hvalidB : ∀ r ∈ B, refValid m r := by
      intro r hr
      exact hvalidSi r (by rw [hAB]; simp [hr])
    have hfuelB : B.length < fuel := by
      have : B.length ≤ (subLv m C i).length := by
        rw [hAB]
        simp only [List.length_append, List.length_cons]
        omega
      omega
    have hcurval : (getRef m cur).isSome :=
      refValid_isSome m cur (hvalidSi cur (List.mem_of_mem_filter hcurSi))
    rw [forwardIns_spec m v i B cur fuel hlinksB hvalidB hsortedB hcurval
      hfuelB]
    -- identify the two getLastD values
    have htwB : B.takeWhile (fun r => decide (mval m r ≤ v)) = seg m v B :=
      (sorted_filter_eq_takeWhile (mval m) v B hsortedB).symm
    have hsegSi : seg m v (subLv m C i) = A ++ cur :: seg m v B := by
      unfold seg
      rw [hAB, List.filter_append, List.filter_cons_of_pos (by simpa using hcurle)]
      congr 1
      rw [List.filter_eq_self]
      intro a ha
      -- every element before cur is smaller than cur hence ≤ v
      have hpw := List.chain'_iff_pairwise.mp hsortedABC
      rw [List.map_append] at hpw
      have h3 := (List.pairwise_append.mp hpw).2.2
      have : mval m a < mval m cur :=
        h3 (mval m a) (List.mem_map_of_mem _ ha) (mval m cur) (by simp)
      simpa using le_of_lt (lt_of_lt_of_le this hcurle)
    unfold predAt
    rw [hsegSi, htwB]
    rw [show A ++ cur :: seg m v B = (A ++ [cur]) ++ seg m v B by simp]
    cases hsB : seg m v B with
    | nil =>
      rw [List.append_nil]
      have h1 : ((A ++ [cur]) : List Ref).getLastD Ref.hd = cur := by
        rw [List.getLastD_eq_getLast?, List.getLast?_concat]
        rfl
      rw [h1]
      simp [List.getLastD_eq_getLast?]
    | cons b bs =>
      obtain ⟨x, hx⟩ : ∃ x, (b :: bs).getLast? = some x :=
        ⟨_, List.getLast?_eq_getLast _ (by simp)⟩
      have h1 : ((A ++ [cur]) ++ b :: bs).getLastD Ref.hd = x := by
        rw [List.getLastD_eq_getLast?, List.getLast?_append, hx]
        rfl
      have h2 : (b :: bs).getLastD cur = x := by
        rw [List.getLastD_eq_getLast?, hx]
        rfl
      rw [h1, h2]

end DescentLemmas

section DescendFull

variable {V : Type} [LinearOrder V] [Inhabited V]

theorem seg_succ_subset (m : Mem V) (C : List Ref) (v : V) (i : Nat)
    (r : Ref) (hr : r ∈ seg m v (subLv m C (i + 1))) :
    r ∈ seg m v (subLv m C i) := by
  unfold seg at *
  rw [subLv_succ] at hr
  have h1 := List.mem_filter.mp hr
  exact List.mem_filter.mpr ⟨List.mem_of_mem_filter h1.1, h1.2⟩

theorem descendIns_spec (m : Mem V) (C : List Ref) (v : V) (level fuel : Nat)
    (hlinks : ∀ i < maxHeight,
      Links m i (nodeNext m.head.node i) (subLv m C i))
    (hsorted : (C.map (mval m)).Chain' (· < ·))
    (hvalid : ∀ r ∈ C, refValid m r)
    (hfuel : C.length < fuel) :
    ∀ k, k ≤ maxHeight → ∀ ups,
      descendIns m v level fuel k (predAt m C v k) ups =
        some (ups ++ ((List.range k).reverse.filter
          (fun i => decide (i ≤ level))).map (predAt m C v)) := by
  intro k
  induction k with
  | zero => intro _ ups; simp [descendIns]
  | succ k ih =>
    intro hk ups
    unfold descendIns
    rw [forward_from_pred m C v k fuel (hlinks k (by omega)) hsorted hvalid
      hfuel (seg_succ_subset m C v k)]
    simp only []
    rw [ih (by omega)]
    have hrange : (List.range (k + 1)).reverse =
        k :: (List.range k).reverse := by
      rw [List.range_succ, List.reverse_append]
      rfl
    rw [hrange]
    by_cases hkl : k ≤ level
    · rw [List.filter_cons_of_pos (by simpa using hkl), if_pos hkl,
        List.map_cons, List.append_cons]
      simp
    · rw [List.filter_cons_of_neg (by simpa using hkl), if_neg hkl]

theorem mono_chain_zero {P : Nat → Prop}
    (hmono : ∀ j, P (j + 1) → P j) : ∀ j, P j → P 0 := by
  intro j
  induction j with
  | zero => exact id
  | succ k ih => exact fun h => ih (hmono k h)

theorem getD_zero_of_count_le :
    ∀ (l : List Int),
    (∀ j, l.getD (j + 1) 0 ≠ 0 → l.getD j 0 ≠ 0) →
    ∀ j, (l.filter (fun x => decide (x ≠ 0))).length ≤ j → l.getD j 0 = 0 := by
  intro l
  induction l with
  | nil => intro _ j _; simp
  | cons x xs ih =>
    intro hmono j hj
    by_cases hx : x = 0
    · subst hx
      by_contra hne
      have h0 : (0 :: xs).getD 0 0 ≠ 0 :=
        mono_chain_zero (P := fun j => (0 :: xs).getD j 0 ≠ 0) hmono j hne
      simp at h0
    · have hfil : ((x :: xs).filter (fun y => decide (y ≠ 0))).length
          = (xs.filter (fun y => decide (y ≠ 0))).length + 1 := by
        rw [List.filter_cons_of_pos (by simpa using hx)]
        rfl
      rw [hfil] at hj
      obtain ⟨j2, rfl⟩ : ∃ j2, j = j2 + 1 := ⟨j - 1, by omega⟩
      rw [List.getD_cons_succ]
      refine ih ?_ j2 (by omega)
      intro j3 h3
      have := hmono (j3 + 1) (by rw [List.getD_cons_succ]; exact h3)
      rw [List.getD_cons_succ] at this
      exact this

/-- Beyond the header's nonzero-level count, every level list is empty. -/
theorem subLv_empty_of_count (m : Mem V) (C : List Ref)
    (hlinks : ∀ i < maxHeight,
      Links m i (nodeNext m.head.node i) (subLv m C i))
    (hvalid : ∀ r ∈ C, refValid m r)
    (hlv : ∀ r ∈ C, 0 < mlen m r ∧ mlen m r ≤ maxHeight)
    (hlen : m.head.node.levels.length = maxHeight) :
    ∀ j, countNonzero m.head.node.levels ≤ j → subLv m C j = [] := by
  have hiff : ∀ i, i < maxHeight →
      (nodeNext m.head.node i ≠ 0 ↔ subLv m C i ≠ []) := by
    intro i hi
    constructor
    · intro hne
      cases hS : subLv m C i with
      | nil =>
        have := hlinks i hi
        rw [hS] at this
        exact absurd (Links_nil_inv this) hne
      | cons a as => simp
    · intro hne
      cases hS : subLv m C i with
      | nil => exact absurd hS hne
      | cons a as =>
        have hl := hlinks i hi
        rw [hS] at hl
        have := (Links_cons_inv hl).1
        rw [this]
        refine refInt_ne_zero m a ?_
        exact hvalid a ((subLv_sublist m C i).mem (by rw [hS]; simp))
  intro j hj
  by_cases hj32 : j < maxHeight
  · have hmono : ∀ i, m.head.node.levels.getD (i + 1) 0 ≠ 0 →
        m.head.node.levels.getD i 0 ≠ 0 := by
      intro i hne
      by_cases hi32 : i + 1 < maxHeight
      · have hS1 : subLv m C (i + 1) ≠ [] := (hiff (i + 1) hi32).mp hne
        have hS0 : subLv m C i ≠ [] := by
          intro h0
          rw [subLv_succ, h0] at hS1
          exact hS1 rfl
        exact (hiff i (by omega)).mpr hS0
      · exfalso
        apply hne
        refine List.getD_eq_default _ _ ?_
        rw [hlen]
        omega
    have hz := getD_zero_of_count_le m.head.node.levels hmono j hj
    cases hS : subLv m C j with
    | nil => rfl
    | cons a as =>
      exfalso
      refine (hiff j hj32).mpr (by rw [hS]; simp) ?_
      exact hz
  · unfold subLv
    refine List.filter_eq_nil_iff.mpr ?_
    intro r hr
    have h2 := (hlv r hr).2
    simp only [decide_eq_true_eq]
    unfold maxHeight at h2 hj32
    omega

end DescendFull

section SpliceLemmas

variable {V : Type} [LinearOrder V] [Inhabited V]

/-- Splice surgery on one level chain: insert `nw` right after `pr`. -/
theorem Links_splice {m m' : Mem V} {i : Nat} {s : Int}
    {A B : List Ref} {pr nw : Ref}
    (h : Links m i s (A ++ pr :: B))
    (hA : ∀ x ∈ A, mslot m' x i = mslot m x i)
    (hB : ∀ x ∈ B, mslot m' x i = mslot m x i)
    (hpr : mslot m' pr i = refInt nw)
    (hnw : mslot m' nw i = mslot m pr i) :
    Links m' i s (A ++ pr :: nw :: B) := by
  induction A generalizing s with
  | nil =>
    obtain ⟨rfl, hrest⟩ := Links_cons_inv h
    refine Links.cons ?_
    rw [hpr]
    refine Links.cons ?_
    rw [hnw]
    exact Links_frame hrest hB
  | cons a as ih =>
    obtain ⟨rfl, hrest⟩ := Links_cons_inv h
    refine Links.cons ?_
    rw [hA a (List.mem_cons_self _ _)]
    exact ih hrest (fun x hx => hA x (List.mem_cons_of_mem _ hx))

/-- Prepend surgery: insert `nw` at the front of a level chain. -/
theorem Links_prepend {m m' : Mem V} {i : Nat}
    {L : List Ref} {nw : Ref} {s : Int}
    (h : Links m i s L)
    (hL : ∀ x ∈ L, mslot m' x i = mslot m x i)
    (hnw : mslot m' nw i = s) :
    Links m' i (refInt nw) (nw :: L) := by
  refine Links.cons ?_
  rw [hnw]
  exact Links_frame h hL

/-- The last element of the value segment is a chain member (when the
segment is not empty), and carries the largest value `≤ v`. -/
theorem predAt_mem_of_ne (m : Mem V) (C : List Ref) (v : V) (i : Nat)
    (hne : seg m v (subLv m C i) ≠ []) :
    predAt m C v i ∈ seg m v (subLv m C i) := by
  unfold predAt
  cases h : seg m v (subLv m C i) with
  | nil => exact absurd h hne
  | cons a as => exact getLastD_cons_mem _ _ _

theorem predAt_hd_iff (m : Mem V) (C : List Ref) (v : V) (i : Nat)
    (hvalid : ∀ r ∈ C, refValid m r) :
    predAt m C v i = Ref.hd ↔ seg m v (subLv m C i) = [] := by
  constructor
  · intro h
    by_contra hne
    have hmem := predAt_mem_of_ne m C v i hne
    rw [h] at hmem
    have : refValid m Ref.hd :=
      hvalid Ref.hd ((subLv_sublist m C i).mem (List.mem_of_mem_filter hmem))
    cases this
  · intro h
    unfold predAt
    rw [h]
    rfl

/-- `subLv` at level 0 is the whole chain. -/
theorem subLv_zero (m : Mem V) (C : List Ref)
    (hlv : ∀ r ∈ C, 0 < mlen m r) : subLv m C 0 = C := by
  unfold subLv
  rw [List.filter_eq_self]
  intro r hr
  simpa using hlv r hr

/-- In a strictly sorted chain, values are unique: distinct members have
distinct values. -/
theorem chain_val_inj {m : Mem V} {C : List Ref}
    (hsorted : (C.map (mval m)).Chain' (· < ·)) :
    ∀ {A B : List Ref} {x y : Ref}, C = A ++ x :: B → y ∈ B →
      mval m x < mval m y := by
  intro A B x y hC hy
  have hpw := List.chain'_iff_pairwise.mp hsorted
  rw [hC, List.map_append, List.map_cons] at hpw
  have h1 := (List.pairwise_append.mp hpw).1
  have h2 := (List.pairwise_append.mp hpw).2.1
  exact List.rel_of_pairwise_cons h2 (List.mem_map_of_mem _ hy)

/-- If a chain member carries value `v`, it is the level-0 predecessor. -/
theorem pred0_of_mem (m : Mem V) (C : List Ref) (v : V) (pr : Ref)
    (hsorted : (C.map (mval m)).Chain' (· < ·))
    (hlv : ∀ r ∈ C, 0 < mlen m r)
    (hpr : pr ∈ C) (hval : mval m pr = v) :
    predAt m C v 0 = pr := by
  obtain ⟨A, B, hC⟩ := List.append_of_mem hpr
  unfold predAt
  rw [subLv_zero m C hlv]
  have hsegC : seg m v C = A ++ [pr] := by
    unfold seg
    rw [hC, List.filter_append]
    have hA : A.filter (fun r => decide (mval m r ≤ v)) = A := by
      rw [List.filter_eq_self]
      intro a ha
      have : mval m a < mval m pr := by
        have hpw := List.chain'_iff_pairwise.mp hsorted
        rw [hC, List.map_append, List.map_cons] at hpw
        exact (List.pairwise_append.mp hpw).2.2 (mval m a)
          (List.mem_map_of_mem _ ha) (mval m pr) (by simp)
      simpa using le_of_lt (lt_of_lt_of_le this (le_of_eq hval))
    have hB : (pr :: B).filter (fun r => decide (mval m r ≤ v))
        = [pr] := by
      rw [List.filter_cons_of_pos (by simpa using le_of_eq hval)]
      rw [List.filter_eq_nil_iff.mpr]
      intro b hb
      have : mval m pr < mval m b := chain_val_inj hsorted hC hb
      simp only [decide_eq_true_eq]
      rw [hval] at this
      exact not_le.mpr this
    rw [hA, hB]
  rw [hsegC]
  have h1 : ((A ++ [pr]) : List Ref).getLastD Ref.hd = pr := by
    rw [List.getLastD_eq_getLast?, List.getLast?_concat]
    rfl
  exact h1

end SpliceLemmas

section SpliceLoop

variable {V : Type} [LinearOrder V] [Inhabited V]

theorem getRef_push (m : Mem V) (e : IdxEntry V) (r : Ref) :
    getRef { m with inserts := m.inserts ++ [e] } r =
      if r = Ref.new m.inserts.length then some e else getRef m r := by
  cases r with
  | hd => rw [if_neg (by simp)]; rfl
  | disk p => rw [if_neg (by simp)]; rfl
  | new i =>
    by_cases h : i = m.inserts.length
    · subst h
      rw [if_pos rfl]
      simp only [getRef]
      exact List.get?_concat_length _ _
    · rw [if_neg (by simp [h])]
      simp only [getRef]
      by_cases hlt : i < m.inserts.length
      · exact List.get?_append hlt
      · have h1 : (m.inserts ++ [e]).get? i = none := by
          refine List.get?_eq_none.mpr ?_
          simp only [List.length_append, List.length_cons, List.length_nil]
          omega
        have h2 : m.inserts.get? i = none := List.get?_eq_none.mpr (by omega)
        rw [h1, h2]

theorem getD_set_int (l : List Int) (i i' : Nat) (x : Int) :
    (l.set i x).getD i' 0 =
      if i' = i ∧ i < l.length then x else l.getD i' 0 := by
  by_cases h : i' = i
  · subst h
    by_cases hlt : i' < l.length
    · rw [if_pos ⟨rfl, hlt⟩, List.getD_eq_getElem?_getD, List.getElem?_set_self',
        List.getElem?_eq_getElem hlt]
      rfl
    · rw [if_neg (fun hc => hlt hc.2), List.getD_eq_default, List.getD_eq_default]
      · simpa using Nat.le_of_not_lt hlt
      · simpa using Nat.le_of_not_lt hlt
  · rw [if_neg (fun hc => h hc.1), List.getD_eq_getElem?_getD,
      List.getElem?_set_ne (fun he => h he.symm), ← List.getD_eq_getElem?_getD]

theorem getD_replicate_zero (n i : Nat) :
    (List.replicate n (0 : Int)).getD i 0 = 0 := by
  induction n generalizing i with
  | zero => simp
  | succ n ih =>
    cases i with
    | zero => rfl
    | succ j => simpa [List.replicate_succ] using ih j

theorem setRef_base (m : Mem V) (r : Ref) (e : IdxEntry V) :
    (setRef m r e).base = m.base := by
  cases r <;> rfl

theorem setRef_inserts_length (m : Mem V) (r : Ref) (e : IdxEntry V) :
    (setRef m r e).inserts.length = m.inserts.length := by
  cases r with
  | hd => rfl
  | disk p => rfl
  | new i => simp [setRef]

theorem refValid_st {m2 mj : Mem V}
    (hdom : ∀ r, (getRef mj r).isSome = (getRef m2 r).isSome)
    (hlen : mj.inserts.length = m2.inserts.length)
    (r : Ref) (h : refValid m2 r) : refValid mj r := by
  cases r with
  | hd => cases h
  | disk p => exact ⟨h.1, by rw [hdom]; exact h.2⟩
  | new i => simpa [refValid, hlen] using h

/-- State of the splice loop after the first `j` of the `level + 1` level
splices: only the predecessors' spliced slots and the new entry's filled
slots differ from the pre-loop memory. -/
structure SpliceSt (m2 : Mem V) (k j : Nat) (pf : Nat → Ref) (mj : Mem V) :
    Prop where
  base : mj.base = m2.base
  ilen : mj.inserts.length = m2.inserts.length
  dom : ∀ r, (getRef mj r).isSome = (getRef m2 r).isSome
  frame : ∀ r, r ≠ Ref.new k → (∀ i, i < j → pf i ≠ r) →
      getRef mj r = getRef m2 r
  flds : ∀ r, (ent mj r).position = (ent m2 r).position ∧
      (ent mj r).pointer = (ent m2 r).pointer ∧
      (ent mj r).link = (ent m2 r).link ∧
      (ent mj r).node.value = (ent m2 r).node.value
  len : ∀ r, mlen mj r = mlen m2 r
  slot : ∀ r i', r ≠ Ref.new k →
      mslot mj r i' = if i' < j ∧ pf i' = r then -(k + 1 : Int)
        else mslot m2 r i'
  slotK : ∀ i', mslot mj (Ref.new k) i' =
      if i' < j then mslot m2 (pf i') i' else 0

theorem setRef_dom (m : Mem V) (r0 : Ref) (e : IdxEntry V)
    (hr0 : r0 = Ref.hd ∨ refValid m r0) :
    ∀ r, (getRef (setRef m r0 e) r).isSome = (getRef m r).isSome := by
  intro r
  by_cases h : r = r0
  · subst h
    rw [getRef_setRef_same m _ _ hr0]
    rcases hr0 with h | h
    · subst h; rfl
    · rw [refValid_isSome m _ h]; rfl
  · rw [getRef_setRef_other _ _ _ _ h]

theorem spliceStep_eq (ups : List Ref) (k : Nat) (m : Mem V) (j : Nat)
    (cur : Ref) (curE eK : IdxEntry V)
    (hcur : ups.get? (ups.length - j - 1) = some cur)
    (hne : cur ≠ Ref.new k)
    (hcurE : getRef m cur = some curE)
    (heK : getRef m (Ref.new k) = some eK) :
    spliceStep ups (Ref.new k) m j =
      some (setRef (setRef m (Ref.new k)
          { eK with node := { eK.node with
              levels := eK.node.levels.set j (nodeNext curE.node j) } })
        cur { curE with node := { curE.node with
              levels := curE.node.levels.set j eK.position } }) := by
  unfold spliceStep
  rw [hcur]
  simp only []
  rw [hcurE, heK]
  simp only []
  rw [getRef_setRef_other _ _ _ _ hne, hcurE]

theorem spliceLoop_spec (m2 : Mem V) (ups : List Ref) (k level : Nat)
    (pf : Nat → Ref) (entry : IdxEntry V)
    (hlen : ups.length = level + 1)
    (hget : ∀ i, i ≤ level → ups.get? (level - i) = some (pf i))
    (hke : getRef m2 (Ref.new k) = some entry)
    (hkpos : entry.position = -(k + 1 : Int))
    (hklv : entry.node.levels = List.replicate (level + 1) 0)
    (hkvalid : refValid m2 (Ref.new k))
    (hpfv : ∀ i, i ≤ level → pf i = Ref.hd ∨ refValid m2 (pf i))
    (hpfk : ∀ i, i ≤ level → pf i ≠ Ref.new k)
    (hpflen : ∀ i, i ≤ level → i < mlen m2 (pf i)) :
    ∀ j, j ≤ level + 1 → ∃ mj,
      (List.range j).foldlM (spliceStep ups (Ref.new k)) m2 = some mj ∧
      SpliceSt m2 k j pf mj := by
  intro j
  induction j with
  | zero =>
    intro _
    refine ⟨m2, rfl, rfl, rfl, fun r => rfl, fun r _ _ => rfl,
      fun r => ⟨rfl, rfl, rfl, rfl⟩, fun r => rfl, ?_, ?_⟩
    · intro r i' _
      rw [if_neg (fun hc => Nat.not_lt_zero _ hc.1)]
    · intro i'
      rw [if_neg (Nat.not_lt_zero _)]
      show mslot m2 (Ref.new k) i' = 0
      unfold mslot
      rw [ent_eq hke]
      unfold nodeNext
      rw [hklv, getD_replicate_zero]
  | succ j ih =>
    intro hj
    obtain ⟨mj, hfold, st⟩ := ih (by omega)
    have hjle : j ≤ level := by omega
    have hnej : pf j ≠ Ref.new k := hpfk j hjle
    have hcur : ups.get? (ups.length - j - 1) = some (pf j) := by
      rw [hlen, show level + 1 - j - 1 = level - j by omega]
      exact hget j hjle
    have hkj_some : (getRef mj (Ref.new k)).isSome := by
      rw [st.dom, hke]; rfl
    obtain ⟨eK, heK⟩ := Option.isSome_iff_exists.mp hkj_some
    have hpfj_some : (getRef mj (pf j)).isSome := by
      rw [st.dom]
      rcases hpfv j hjle with h | h
      · rw [h]; rfl
      · exact refValid_isSome m2 _ h
    obtain ⟨curE, hcurE⟩ := Option.isSome_iff_exists.mp hpfj_some
    have hkvmj : refValid mj (Ref.new k) := refValid_st st.dom st.ilen _ hkvalid
    have hpfv_mj : pf j = Ref.hd ∨ refValid mj (pf j) := by
      rcases hpfv j hjle with h | h
      · exact Or.inl h
      · exact Or.inr (refValid_st st.dom st.ilen _ h)
    set e2 : IdxEntry V := { eK with node := { eK.node with
        levels := eK.node.levels.set j (nodeNext curE.node j) } } with he2
    set m' : Mem V := setRef mj (Ref.new k) e2 with hm'
    set curE' : IdxEntry V := { curE with node := { curE.node with
        levels := curE.node.levels.set j eK.position } } with hcurE'
    set mj1 : Mem V := setRef m' (pf j) curE' with hmj1
    refine ⟨mj1, ?_, ?_⟩
    · rw [List.range_succ, List.foldlM_append, hfold]
      show ([j] : List Nat).foldlM (spliceStep ups (Ref.new k)) mj = some mj1
      have hstep := spliceStep_eq ups k mj j (pf j) curE eK hcur hnej hcurE heK
      simp only [List.foldlM]
      rw [hstep]
      rfl
    · -- the new state characterization
      have hdom' : ∀ r, (getRef m' r).isSome = (getRef mj r).isSome :=
        setRef_dom mj _ e2 (Or.inr hkvmj)
      have hpfv_m' : pf j = Ref.hd ∨ refValid m' (pf j) := by
        rcases hpfv_mj with h | h
        · exact Or.inl h
        · exact Or.inr (refValid_st hdom'
            (setRef_inserts_length mj _ e2) _ h)
      have hdom1 : ∀ r, (getRef mj1 r).isSome = (getRef m' r).isSome :=
        setRef_dom m' _ curE' hpfv_m'
      have hgk : getRef mj1 (Ref.new k) = some e2 := by
        rw [hmj1, getRef_setRef_other _ _ _ _ (fun h => hnej h.symm),
          hm', getRef_setRef_same mj _ _ (Or.inr hkvmj)]
      have hgp : getRef mj1 (pf j) = some curE' := by
        rw [hmj1, getRef_setRef_same m' _ _ hpfv_m']
      have hgo : ∀ r, r ≠ Ref.new k → r ≠ pf j → getRef mj1 r = getRef mj r := by
        intro r h1 h2
        rw [hmj1, getRef_setRef_other _ _ _ _ h2, hm',
          getRef_setRef_other _ _ _ _ h1]
      have hlenK : eK.node.levels.length = level + 1 := by
        have h1 : mlen mj (Ref.new k) = mlen m2 (Ref.new k) := st.len _
        unfold mlen at h1
        rw [ent_eq heK, ent_eq hke, hklv] at h1
        simpa using h1
      have hlenP : j < curE.node.levels.length := by
        have h1 : mlen mj (pf j) = mlen m2 (pf j) := st.len _
        unfold mlen at h1
        rw [ent_eq hcurE] at h1
        rw [h1]
        exact hpflen j hjle
      have heKpos : eK.position = -(k + 1 : Int) := by
        have h1 := (st.flds (Ref.new k)).1
        rw [ent_eq heK, ent_eq hke] at h1
        rw [h1, hkpos]
      refine ⟨?_, ?_, ?_, ?_, ?_, ?_, ?_, ?_⟩
      · rw [hmj1, setRef_base, hm', setRef_base, st.base]
      · rw [hmj1, setRef_inserts_length, hm', setRef_inserts_length, st.ilen]
      · intro r
        rw [hdom1, hdom', st.dom]
      · intro r h1 h2
        rw [hgo r h1 (h2 j (by omega)).symm]
        exact st.frame r h1 (fun i hi => h2 i (by omega))
      · intro r
        by_cases hk : r = Ref.new k
        · subst hk
          have : ent mj1 (Ref.new k) = e2 := ent_eq hgk
          rw [this, he2]
          have h0 : ent mj (Ref.new k) = eK := ent_eq heK
          have := st.flds (Ref.new k)
          rw [h0] at this
          exact this
        · by_cases hp : r = pf j
          · subst hp
            have : ent mj1 (pf j) = curE' := ent_eq hgp
            rw [this, hcurE']
            have h0 : ent mj (pf j) = curE := ent_eq hcurE
            have := st.flds (pf j)
            rw [h0] at this
            exact this
          · have : ent mj1 r = ent mj r := by unfold ent; rw [hgo r hk hp]
            rw [this]
            exact st.flds r
      · intro r
        by_cases hk : r = Ref.new k
        · subst hk
          have h1 : ent mj1 (Ref.new k) = e2 := ent_eq hgk
          have h0 : ent mj (Ref.new k) = eK := ent_eq heK
          have h2 := st.len (Ref.new k)
          unfold mlen at *
          rw [h1, he2] at *
          simp only [List.length_set]
          rw [← h0, h2]
        · by_cases hp : r = pf j
          · subst hp
            have h1 : ent mj1 (pf j) = curE' := ent_eq hgp
            have h0 : ent mj (pf j) = curE := ent_eq hcurE
            have h2 := st.len (pf j)
            unfold mlen at *
            rw [h1, hcurE']
            simp only [List.length_set]
            rw [← h0, h2]
          · have h1 : ent mj1 r = ent mj r := by unfold ent; rw [hgo r hk hp]
            unfold mlen
            rw [h1]
            exact st.len r
      · intro r i' hrk
        by_cases hp : r = pf j
        · subst hp
          have h1 : ent mj1 (pf j) = curE' := ent_eq hgp
          have h0 : ent mj (pf j) = curE := ent_eq hcurE
          have hh : mslot mj1 (pf j) i'
              = (curE.node.levels.set j eK.position).getD i' 0 := by
            unfold mslot nodeNext
            rw [h1, hcurE']
          rw [hh, getD_set_int]
          by_cases hij : i' = j
          · subst hij
            rw [if_pos ⟨rfl, hlenP⟩, if_pos ⟨by omega, rfl⟩, heKpos]
          · rw [if_neg (fun hc => hij hc.1)]
            have hms : curE.node.levels.getD i' 0 = mslot mj (pf j) i' := by
              unfold mslot nodeNext
              rw [h0]
            rw [hms, st.slot (pf j) i' hrk]
            by_cases hcond : i' < j ∧ pf i' = pf j
            · rw [if_pos hcond, if_pos ⟨by omega, hcond.2⟩]
            · rw [if_neg hcond, if_neg (fun hc => hcond ⟨by omega, hc.2⟩)]
        · have h1 : mslot mj1 r i' = mslot mj r i' := by
            unfold mslot
            rw [show ent mj1 r = ent mj r by unfold ent; rw [hgo r hrk hp]]
          rw [h1, st.slot r i' hrk]
          by_cases hcond : i' < j ∧ pf i' = r
          · rw [if_pos hcond, if_pos ⟨by omega, hcond.2⟩]
          · rw [if_neg hcond]
            rw [if_neg]
            intro hc
            rcases Nat.lt_succ_iff_lt_or_eq.mp hc.1 with h | h
            · exact hcond ⟨h, hc.2⟩
            · subst h
              exact hp hc.2.symm
      · intro i'
        have h1 : ent mj1 (Ref.new k) = e2 := ent_eq hgk
        have h0 : ent mj (Ref.new k) = eK := ent_eq heK
        have hh : mslot mj1 (Ref.new k) i'
            = (eK.node.levels.set j (nodeNext curE.node j)).getD i' 0 := by
          unfold mslot nodeNext
          rw [h1, he2]
          rfl
        rw [hh, getD_set_int]
        by_cases hij : i' = j
        · subst hij
          rw [if_pos ⟨rfl, by omega⟩, if_pos (by omega)]
          have hms2 : nodeNext curE.node i' = mslot mj (pf i') i' := by
            unfold mslot nodeNext
            rw [ent_eq hcurE]
          rw [hms2, st.slot (pf i') i' (hpfk i' hjle)]
          rw [if_neg (fun hc => Nat.lt_irrefl i' hc.1)]
        · rw [if_neg (fun hc => hij hc.1)]
          have hms : eK.node.levels.getD i' 0 = mslot mj (Ref.new k) i' := by
            unfold mslot nodeNext
            rw [h0]
          rw [hms, st.slotK i']
          by_cases hcond : i' < j
          · rw [if_pos hcond, if_pos (by omega)]
          · rw [if_neg hcond, if_neg (by omega)]

theorem range_reverse_filter_le (level : Nat) :
    ∀ height, level < height →
      (List.range height).reverse.filter (fun i => decide (i ≤ level)) =
        (List.range (level + 1)).reverse := by
  intro height
  induction height with
  | zero => intro h; omega
  | succ h2 ih =>
    intro h
    rw [List.range_succ, List.reverse_append]
    show (h2 :: (List.range h2).reverse).filter _ = _
    by_cases hc : level < h2
    · rw [List.filter_cons_of_neg (by simpa using Nat.not_le.mpr hc)]
      exact ih hc
    · have he : h2 = level := by omega
      subst he
      rw [List.filter_cons_of_pos (by simp)]
      rw [List.filter_eq_self.mpr]
      · rw [List.range_succ, List.reverse_append]
        rfl
      · intro a ha
        have : a < h2 := by simpa using List.mem_reverse.mp ha
        simpa using Nat.le_of_lt this

theorem revRangeMap_len (pf : Nat → Ref) (level : Nat) :
    ((List.range (level + 1)).reverse.map pf).length = level + 1 := by
  simp

theorem revRangeMap_get (pf : Nat → Ref) (level i : Nat) (hi : i ≤ level) :
    ((List.range (level + 1)).reverse.map pf).get? (level - i) = some (pf i) := by
  rw [List.get?_map]
  have h1 : (List.range (level + 1)).reverse.get? (level - i) = some i := by
    rw [List.get?_reverse (by simp; omega)]
    simp only [List.length_range]
    rw [show level + 1 - 1 - (level - i) = i by omega]
    exact List.get?_range (by omega)
  rw [h1]
  rfl

theorem revRangeMap_last (pf : Nat → Ref) (level : Nat) :
    ((List.range (level + 1)).reverse.map pf).getLast? = some (pf 0) := by
  rw [List.getLast?_map, List.getLast?_reverse]
  rw [show (List.range (level + 1)).head? = some 0 from
    by rw [List.range_succ_eq_map]; rfl]
  rfl

theorem revRangeMap_mem (pf : Nat → Ref) (level : Nat) (r : Ref)
    (h : r ∈ (List.range (level + 1)).reverse.map pf) :
    ∃ i, i ≤ level ∧ r = pf i := by
  obtain ⟨i, hi, rfl⟩ := List.mem_map.mp h
  have : i < level + 1 := by simpa using List.mem_reverse.mp hi
  exact ⟨i, by omega, rfl⟩

theorem countNonzero_le (l : List Int) : countNonzero l ≤ l.length :=
  List.length_filter_le _ l

/-- The full descent of `indexObjectField`: from the header at the working
height, landing on the per-level predecessors of `v`. -/
theorem descent_full {hp apos : Nat} {m : Mem V} {C : List Ref}
    {D : Ref → List Ref} (hInv : Inv hp apos m C D) (v : V)
    (level height fuel : Nat)
    (hlev : level + 1 ≤ height)
    (hh0 : countNonzero m.head.node.levels ≤ height)
    (hhm : height ≤ maxHeight)
    (hfuel : C.length < fuel) :
    descendIns m v level fuel height Ref.hd [] =
      some ((List.range (level + 1)).reverse.map (predAt m C v)) := by
  have hvalid : ∀ r ∈ C, refValid m r := by
    intro r hr
    exact hInv.valid r (by unfold allRefs; exact List.mem_append_left _ hr)
  have hsub : subLv m C height = [] :=
    subLv_empty_of_count m C hInv.links hvalid hInv.lvPos hInv.headLen
      height hh0
  have hpred : predAt m C v height = Ref.hd := by
    unfold predAt seg
    rw [hsub]
    rfl
  have h1 := descendIns_spec m C v level fuel hInv.links hInv.sorted hvalid
    hfuel height hhm []
  rw [hpred] at h1
  rw [h1, List.nil_append, range_reverse_filter_le level height (by omega)]

theorem map_congr_of_ne {α : Type} (C : List Ref) (D : Ref → List α)
    (pr : Ref) (f : Ref → List α) (hpr : pr ∉ C) :
    C.map (fun r => if r = pr then f r else D r) = C.map D := by
  induction C with
  | nil => rfl
  | cons a as ih =>
    have ha : a ≠ pr := fun h => hpr (h ▸ List.mem_cons_self a as)
    simp only [List.map_cons, if_neg ha]
    rw [ih (fun h => hpr (List.mem_cons_of_mem a h))]

theorem join_update_perm (C : List Ref) (D : Ref → List Ref) (pr x : Ref)
    (hpr : pr ∈ C) (hnodup : C.Nodup) :
    (C.map (fun r => if r = pr then x :: D pr else D r)).join.Perm
      (x :: (C.map D).join) := by
  induction C with
  | nil => cases hpr
  | cons a as ih =>
    by_cases ha : a = pr
    · subst ha
      have has : a ∉ as := (List.nodup_cons.mp hnodup).1
      rw [List.map_cons, if_pos rfl,
        map_congr_of_ne as D a (fun _ => x :: D a) has]
      exact List.Perm.refl _
    · have hpr' : pr ∈ as := by
        cases List.mem_cons.mp hpr with
        | inl h => exact absurd h.symm ha
        | inr h => exact h
      rw [List.map_cons, if_neg ha, List.map_cons]
      show (D a ++ _).Perm _
      refine List.Perm.trans (List.Perm.append_left (D a)
        (ih hpr' (List.nodup_cons.mp hnodup).2)) ?_
      exact List.perm_middle

theorem allRefs_update_perm (C : List Ref) (D : Ref → List Ref) (pr x : Ref)
    (hpr : pr ∈ C) (hnodup : C.Nodup) :
    (allRefs C (fun r => if r = pr then x :: D pr else D r)).Perm
      (x :: allRefs C D) := by
  unfold allRefs
  refine List.Perm.trans (List.Perm.append_left C
    (join_update_perm C D pr x hpr hnodup)) ?_
  exact List.perm_middle

theorem contents_cons (m : Mem V) (a : Ref) (as : List Ref)
    (D : Ref → List Ref) :
    contents m (a :: as) D =
      ((mval m a, mptr m a) ::
        (D a).map (fun d => (mval m a, mptr m d))) ++ contents m as D := rfl

theorem contents_congr (m m' : Mem V) (C : List Ref) (D : Ref → List Ref)
    (h1 : ∀ r ∈ C, mval m' r = mval m r ∧ mptr m' r = mptr m r)
    (h2 : ∀ r ∈ C, ∀ d ∈ D r, mptr m' d = mptr m d) :
    contents m' C D = contents m C D := by
  induction C with
  | nil => rfl
  | cons a as ih =>
    rw [contents_cons, contents_cons]
    have ha := h1 a (List.mem_cons_self _ _)
    rw [ha.1, ha.2]
    congr 1
    · congr 1
      refine List.map_congr_left ?_
      intro d hd
      rw [h2 a (List.mem_cons_self _ _) d hd]
    · exact ih (fun r hr => h1 r (List.mem_cons_of_mem _ hr))
        (fun r hr => h2 r (List.mem_cons_of_mem _ hr))

theorem contents_dup_perm ( m' : Mem V) (C : List Ref) (D : Ref → List Ref)
    (pr x : Ref) (hpr : pr ∈ C) (hnodup : C.Nodup) :
    (contents m' C (fun r => if r = pr then x :: D pr else D r)).Perm
      ((mval m' pr, mptr m' x) :: contents m' C D) := by
  induction C with
  | nil => cases hpr
  | cons a as ih =>
    rw [contents_cons, contents_cons]
    by_cases ha : a = pr
    · subst ha
      have has : a ∉ as := (List.nodup_cons.mp hnodup).1
      rw [if_pos rfl]
      have hceq : contents m' as
          (fun r => if r = a then x :: D a else D r) = contents m' as D := by
        unfold contents
        refine List.flatMap_congr ?_
        intro r hr
        have hne : r ≠ a := fun h => has (h ▸ hr)
        simp only [if_neg hne]
      rw [hceq, List.map_cons]
      show ((mval m' a, mptr m' a) :: (mval m' a, mptr m' x) :: _ ++ _).Perm _
      refine List.Perm.trans (List.Perm.append_right _
        (List.Perm.swap _ _ _)) ?_
      exact List.Perm.refl _
    · have hpr' : pr ∈ as := by
        cases List.mem_cons.mp hpr with
        | inl h => exact absurd h.symm ha
        | inr h => exact h
      rw [if_neg ha]
      refine List.Perm.trans (List.Perm.append_left _
        (ih hpr' (List.nodup_cons.mp hnodup).2)) ?_
      exact List.perm_middle

theorem indexObjectField_eq_dup (m : Mem V) (of : ObjField V) (lvl fuel : Nat)
    (ups : List Ref) (prev : Ref) (prevE : IdxEntry V)
    (hdes : descendIns m of.value
        (min lvl (min (countNonzero m.head.node.levels) (maxHeight - 1)))
        fuel
        (max (countNonzero m.head.node.levels)
          (min lvl (min (countNonzero m.head.node.levels) (maxHeight - 1)) + 1))
        Ref.hd [] = some ups)
    (hlast : ups.getLast? = some prev)
    (hprev : getRef m prev = some prevE)
    (hvv : prevE.node.value = of.value) :
    indexObjectField m of lvl fuel = some
      (setRef { m with inserts := m.inserts ++
          [⟨-(m.inserts.length + 1 : Int), of.position, prevE.link,
            ⟨[], of.value⟩⟩] } prev
        { prevE with link := -(m.inserts.length + 1 : Int) },
       [prev]) := by
  unfold indexObjectField
  simp only []
  rw [hdes]
  simp only []
  rw [hlast]
  simp only []
  rw [hprev]
  simp only []
  rw [if_pos hvv]

theorem indexObjectField_eq_splice (m : Mem V) (of : ObjField V)
    (lvl fuel : Nat) (ups : List Ref) (prev : Ref) (prevE : IdxEntry V)
    (m3 : Mem V)
    (hdes : descendIns m of.value
        (min lvl (min (countNonzero m.head.node.levels) (maxHeight - 1)))
        fuel
        (max (countNonzero m.head.node.levels)
          (min lvl (min (countNonzero m.head.node.levels) (maxHeight - 1)) + 1))
        Ref.hd [] = some ups)
    (hlast : ups.getLast? = some prev)
    (hprev : getRef m prev = some prevE)
    (hvv : prevE.node.value ≠ of.value)
    (hfold : (List.range
        (min lvl (min (countNonzero m.head.node.levels) (maxHeight - 1)) + 1)).foldlM
        (spliceStep ups (Ref.new m.inserts.length))
        { m with inserts := m.inserts ++
          [⟨-(m.inserts.length + 1 : Int), of.position, 0,
            ⟨List.replicate
              (min lvl (min (countNonzero m.head.node.levels) (maxHeight - 1)) + 1)
              0, of.value⟩⟩] } = some m3) :
    indexObjectField m of lvl fuel = some (m3, ups) := by
  unfold indexObjectField
  simp only []
  rw [hdes]
  simp only []
  rw [hlast]
  simp only []
  rw [hprev]
  simp only []
  rw [if_neg hvv]
  rw [hfold]

theorem mods_setRef_cases (m : Mem V) (r : Ref) (e : IdxEntry V) (p : Nat) :
    (setRef m r e).mods p = m.mods p ∨
      (r = Ref.disk p ∧ (setRef m r e).mods p = some e) := by
  cases r with
  | hd => exact Or.inl rfl
  | new i => exact Or.inl rfl
  | disk q =>
    by_cases hq : p = q
    · subst hq
      exact Or.inr ⟨rfl, by simp [setRef]⟩
    · exact Or.inl (by simp [setRef, hq])

theorem inserts_setRef_cases (m : Mem V) (r : Ref) (e : IdxEntry V) :
    (setRef m r e).inserts = m.inserts ∨
      ∃ j, r = Ref.new j ∧ (setRef m r e).inserts = m.inserts.set j e := by
  cases r with
  | hd => exact Or.inl rfl
  | disk q => exact Or.inl rfl
  | new i => exact Or.inr ⟨i, rfl, rfl⟩

theorem getRef_disk_position {hp apos : Nat} {m : Mem V} {C : List Ref}
    {D : Ref → List Ref} (hInv : Inv hp apos m C D)
    (p : Nat) (e : IdxEntry V) (h : getRef m (Ref.disk p) = some e) :
    e.position = (p : Int) := by
  simp only [getRef] at h
  cases hm : m.mods p with
  | some x =>
    rw [hm] at h
    simp only [Option.elim] at h
    cases h
    exact hInv.posMods p e hm
  | none =>
    rw [hm] at h
    simp only [Option.elim] at h
    exact hInv.posBase p e h

theorem Inv_nodupC {hp apos : Nat} {m : Mem V} {C : List Ref}
    {D : Ref → List Ref} (hInv : Inv hp apos m C D) : C.Nodup :=
  (List.nodup_append.mp hInv.nodupAll).1

theorem Inv_disjoint {hp apos : Nat} {m : Mem V} {C : List Ref}
    {D : Ref → List Ref} (hInv : Inv hp apos m C D) :
    ∀ r ∈ C, ∀ x ∈ C, ∀ d ∈ D x, d ≠ r := by
  intro r hr x hx d hd he
  have hdj : ∀ a ∈ C, a ∉ (C.map D).join :=
    fun a ha hj => (List.nodup_append.mp hInv.nodupAll).2.2 ha hj
  exact hdj r hr (he ▸ List.mem_join.mpr
    ⟨D x, List.mem_map_of_mem D hx, hd⟩)

theorem Inv_dvalid {hp apos : Nat} {m : Mem V} {C : List Ref}
    {D : Ref → List Ref} (hInv : Inv hp apos m C D) :
    ∀ x ∈ C, ∀ d ∈ D x, refValid m d := by
  intro x hx d hd
  refine hInv.valid d ?_
  unfold allRefs
  exact List.mem_append_right _ (List.mem_join.mpr
    ⟨D x, List.mem_map_of_mem D hx, hd⟩)

theorem Inv_cvalid {hp apos : Nat} {m : Mem V} {C : List Ref}
    {D : Ref → List Ref} (hInv : Inv hp apos m C D) :
    ∀ r ∈ C, refValid m r := by
  intro r hr
  exact hInv.valid r (List.mem_append_left _ hr)

theorem refValid_push (m : Mem V) (e : IdxEntry V) (r : Ref)
    (h : refValid m r) :
    refValid { m with inserts := m.inserts ++ [e] } r := by
  cases r with
  | hd => cases h
  | disk p => exact ⟨h.1, h.2⟩
  | new i =>
    simp only [refValid] at h ⊢
    simp only [List.length_append, List.length_cons, List.length_nil]
    omega

/-- `indexObjectField` in the duplicate branch: the batch value equals an
existing chain entry's value, so the new entry is pushed as a duplicate and
chained from that entry's `link`; the skip list shape is untouched. -/
theorem indexObjectField_dup
    {hp apos : Nat} {m : Mem V} {C : List Ref} {D : Ref → List Ref}
    (hInv : Inv hp apos m C D)
    (of : ObjField V) (lvl fuel : Nat)
    (hfuel : C.length < fuel)
    (pr : Ref) (hpr : pr ∈ C) (hprv : mval m pr = of.value) :
    ∃ m3,
      indexObjectField m of lvl fuel = some (m3, [pr]) ∧
      m3.inserts.length = m.inserts.length + 1 ∧
      (∀ r, r ≠ pr → r ≠ Ref.new m.inserts.length →
        getRef m3 r = getRef m r) ∧
      getRef m3 (Ref.new m.inserts.length) = some
        ⟨-(m.inserts.length + 1 : Int), of.position, mlink m pr,
          ⟨[], of.value⟩⟩ ∧
      (ent m3 pr).position = (ent m pr).position ∧
      m3.head.node.levels = m.head.node.levels ∧
      (∃ prevE, getRef m pr = some prevE ∧
        getRef m3 pr = some
          { prevE with link := -(m.inserts.length + 1 : Int) }) ∧
      m3.base = m.base ∧
      Inv hp apos m3 C
        (fun r => if r = pr then Ref.new m.inserts.length :: D pr
          else D r) ∧
      (contents m3 C
          (fun r => if r = pr then Ref.new m.inserts.length :: D pr
            else D r)).Perm
        ((of.value, of.position) :: contents m C D) := by
  classical
  set k := m.inserts.length with hk
  set v := of.value with hv
  -- working level and height
  set height0 := countNonzero m.head.node.levels with hh0
  set level := min lvl (min height0 (maxHeight - 1)) with hlevdef
  set height := max height0 (level + 1) with hhtdef
  have hh032 : height0 ≤ maxHeight := by
    rw [hh0, ← hInv.headLen]
    exact countNonzero_le _
  have hhm : height ≤ maxHeight := by
    have h1 : level ≤ 31 := le_trans (min_le_right _ _) (min_le_right _ _)
    have h2 : height0 ≤ 32 := hh032
    show height ≤ 32
    exact max_le h2 (by omega)
  -- the descent
  have hdes := descent_full hInv v level height fuel
    (le_max_right _ _) (le_max_left _ _) hhm hfuel
  -- the landing predecessor is pr
  have hvalidC := Inv_cvalid hInv
  have hpred0 : predAt m C v 0 = pr :=
    pred0_of_mem m C v pr hInv.sorted (fun r hr => (hInv.lvPos r hr).1)
      hpr hprv
  have hlast : ((List.range (level + 1)).reverse.map (predAt m C v)).getLast?
      = some pr := by
    rw [revRangeMap_last, hpred0]
  have hprval : refValid m pr := hvalidC pr hpr
  obtain ⟨prevE, hprevE⟩ := Option.isSome_iff_exists.mp
    (refValid_isSome m pr hprval)
  have hvv : prevE.node.value = v := by
    rw [← hprv]
    unfold mval
    rw [ent_eq hprevE]
  have hlink : prevE.link = mlink m pr := by
    unfold mlink
    rw [ent_eq hprevE]
  -- the run
  set entry : IdxEntry V :=
    ⟨-(k + 1 : Int), of.position, mlink m pr, ⟨[], v⟩⟩ with hentry
  set m2 : Mem V := { m with inserts := m.inserts ++ [entry] } with hm2
  set m3 : Mem V := setRef m2 pr { prevE with link := -(k + 1 : Int) }
    with hm3
  have hrun : indexObjectField m of lvl fuel = some (m3, [pr]) := by
    have := indexObjectField_eq_dup m of lvl fuel
      ((List.range (level + 1)).reverse.map (predAt m C v)) pr prevE
      hdes hlast hprevE hvv
    rw [this, hm3, hm2, hentry, hlink]
  -- basic facts
  have hprhd : pr ≠ Ref.hd := by
    intro h
    rw [h] at hprval
    cases hprval
  have hprnk : pr ≠ Ref.new k := by
    intro h
    rw [h] at hprval
    simp only [refValid, hk] at hprval
    omega
  have hilen2 : m2.inserts.length = k + 1 := by
    rw [hm2]
    simp [hk]
  have hilen3 : m3.inserts.length = k + 1 := by
    rw [hm3, setRef_inserts_length, hilen2]
  have hprv2 : refValid m2 pr := by
    rw [hm2]
    exact refValid_push m entry pr hprval
  have hg3pr : getRef m3 pr = some { prevE with link := -(k + 1 : Int) } := by
    rw [hm3]
    exact getRef_setRef_same m2 pr _ (Or.inr hprv2)
  have hg2 : ∀ r, r ≠ Ref.new k → getRef m2 r = getRef m r := by
    intro r hr
    rw [hm2, show ({ m with inserts := m.inserts ++ [entry] } : Mem V)
      = { m with inserts := m.inserts ++ [entry] } from rfl]
    rw [getRef_push m entry r, if_neg (by rw [← hk]; exact hr)]
  have hg2k : getRef m2 (Ref.new k) = some entry := by
    rw [hm2, getRef_push m entry (Ref.new k), if_pos (by rw [hk])]
  have hframe : ∀ r, r ≠ pr → r ≠ Ref.new k → getRef m3 r = getRef m r := by
    intro r h1 h2
    rw [hm3, getRef_setRef_other _ _ _ _ h1, hg2 r h2]
  have hg3k : getRef m3 (Ref.new k) = some entry := by
    rw [hm3, getRef_setRef_other _ _ _ _ (fun h => hprnk h.symm), hg2k]
  have hhead3 : m3.head = m.head := by
    have := hframe Ref.hd (fun h => hprhd h.symm) (by simp)
    simp only [getRef] at this
    exact Option.some.inj this
  have hbase3 : m3.base = m.base := by
    rw [hm3, setRef_base, hm2]
  -- node-preservation on all old refs
  have hnode3 : ∀ r, r ≠ Ref.new k → (ent m3 r).node = (ent m r).node := by
    intro r h2
    by_cases h1 : r = pr
    · subst h1
      rw [ent_eq hg3pr, ent_eq hprevE]
    · rw [show ent m3 r = ent m r by unfold ent; rw [hframe r h1 h2]]
  have hpos3 : ∀ r, r ≠ Ref.new k →
      (ent m3 r).position = (ent m r).position := by
    intro r h2
    by_cases h1 : r = pr
    · subst h1
      rw [ent_eq hg3pr, ent_eq hprevE]
    · rw [show ent m3 r = ent m r by unfold ent; rw [hframe r h1 h2]]
  have hptr3 : ∀ r, r ≠ Ref.new k →
      (ent m3 r).pointer = (ent m r).pointer := by
    intro r h2
    by_cases h1 : r = pr
    · subst h1
      rw [ent_eq hg3pr, ent_eq hprevE]
    · rw [show ent m3 r = ent m r by unfold ent; rw [hframe r h1 h2]]
  have hCnk : ∀ r ∈ C, r ≠ Ref.new k := by
    intro r hr h
    have := hvalidC r hr
    rw [h] at this
    simp only [refValid, hk] at this
    omega
  have hDnk : ∀ x ∈ C, ∀ d ∈ D x, d ≠ Ref.new k := by
    intro x hx d hd h
    have := Inv_dvalid hInv x hx d hd
    rw [h] at this
    simp only [refValid, hk] at this
    omega
  have hmval3 : ∀ r ∈ C, mval m3 r = mval m r := by
    intro r hr
    unfold mval
    rw [hnode3 r (hCnk r hr)]
  have hmlen3 : ∀ r ∈ C, mlen m3 r = mlen m r := by
    intro r hr
    unfold mlen
    rw [hnode3 r (hCnk r hr)]
  have hmslot3 : ∀ r ∈ C, ∀ i, mslot m3 r i = mslot m r i := by
    intro r hr i
    unfold mslot
    rw [hnode3 r (hCnk r hr)]
  have hsome3 : ∀ r, r ≠ Ref.new k →
      (getRef m3 r).isSome = (getRef m r).isSome := by
    intro r h2
    by_cases h1 : r = pr
    · subst h1
      rw [hg3pr, hprevE]
      rfl
    · rw [hframe r h1 h2]
  have hvalid3 : ∀ r, refValid m r → refValid m3 r := by
    intro r h
    cases r with
    | hd => cases h
    | disk p => exact ⟨h.1, by rw [hsome3 _ (by simp)]; exact h.2⟩
    | new i =>
      simp only [refValid] at h ⊢
      omega
  have hsub3 : ∀ i, subLv m3 C i = subLv m C i := by
    intro i
    unfold subLv
    refine List.filter_congr ?_
    intro r hr
    rw [hmlen3 r hr]
  set D' := fun r => if r = pr then Ref.new k :: D pr else D r with hD'
  have hperm : (allRefs C D').Perm (Ref.new k :: allRefs C D) :=
    allRefs_update_perm C D pr (Ref.new k) hpr (Inv_nodupC hInv)
  have hmemD' : ∀ r, r ∈ allRefs C D' ↔
      (r = Ref.new k ∨ r ∈ allRefs C D) := by
    intro r
    rw [hperm.mem_iff, List.mem_cons]
  have hnkfresh : Ref.new k ∉ allRefs C D := by
    intro h
    have := hInv.valid _ h
    simp only [refValid, hk] at this
    omega
  refine ⟨m3, hrun, hilen3, hframe, by rw [hg3k], hpos3 pr hprnk,
    by rw [hhead3], ⟨prevE, hprevE, hg3pr⟩, hbase3, ?_, ?_⟩
  · -- the invariant
    refine ⟨?_, ?_, hInv.hpPos, hInv.hpLtApos, ?_, ?_, ?_, ?_, ?_, ?_, ?_,
      ?_, ?_, ?_, ?_, ?_, ?_⟩
    · rw [hhead3]; exact hInv.headLen
    · rw [hhead3]; exact hInv.headPos
    · rw [hbase3]; exact hInv.baseHp
    · -- valid
      intro r hr
      rcases ( hmemD' r).mp hr with h | h
      · subst h
        simp only [refValid]
        omega
      · exact hvalid3 r (hInv.valid r h)
    · -- nodup
      refine hperm.nodup_iff.mpr ?_
      exact List.nodup_cons.mpr ⟨hnkfresh, hInv.nodupAll⟩
    · -- sorted
      have : C.map (mval m3) = C.map (mval m) :=
        List.map_congr_left hmval3
      rw [this]
      exact hInv.sorted
    · -- lvPos
      intro r hr
      rw [hmlen3 r hr]
      exact hInv.lvPos r hr
    · -- links
      intro i hi
      rw [hsub3 i, show nodeNext m3.head.node i = nodeNext m.head.node i
        by rw [hhead3]]
      refine Links_frame (hInv.links i hi) ?_
      intro r hr
      exact hmslot3 r ((subLv_sublist m C i).mem hr) i
    · -- dups
      intro r hr
      by_cases hrp : r = pr
      · subst hrp
        rw [show D' r = Ref.new k :: D r from if_pos rfl]
        have hml3 : mlink m3 r = -(k + 1 : Int) := by
          unfold mlink
          rw [ent_eq hg3pr]
        rw [hml3, show -(k + 1 : Int) = refInt (Ref.new k) from by
          simp [refInt]]
        refine DChain.cons (by rw [hg3k]; rfl) (by rw [ent_eq hg3k]) ?_
        have hmlk : mlink m3 (Ref.new k) = mlink m r := by
          unfold mlink
          rw [ent_eq hg3k, hentry]
          rfl
        rw [hmlk]
        refine DChain_frame (hInv.dups r hr) ?_
        intro d hd
        exact hframe d (Inv_disjoint hInv r hr r hr d hd)
          (hDnk r hr d hd)
      · rw [show D' r = D r from if_neg hrp]
        have hml : mlink m3 r = mlink m r := by
          unfold mlink
          rw [show ent m3 r = ent m r by
            unfold ent; rw [hframe r hrp (hCnk r hr)]]
        rw [hml]
        refine DChain_frame (hInv.dups r hr) ?_
        intro d hd
        exact hframe d (Inv_disjoint hInv pr hpr r hr d hd)
          (hDnk r hr d hd)
    · -- posBase
      intro p e h
      rw [hbase3] at h
      exact hInv.posBase p e h
    · -- posMods
      intro p e h
      have hmods2 : m2.mods = m.mods := rfl
      rcases mods_setRef_cases m2 pr _ p with hc | ⟨hdisk, hc⟩
      · rw [hm3] at h
        rw [hc, hmods2] at h
        exact hInv.posMods p e h
      · rw [hm3] at h
        rw [hc] at h
        cases h
        show prevE.position = (p : Int)
        have := getRef_disk_position hInv p prevE (by rw [← hdisk]; exact hprevE)
        exact this
    · -- posNew
      intro i e h
      have hpush : ∀ i2 e2, (m.inserts ++ [entry]).get? i2 = some e2 →
          e2.position = -(i2 + 1 : Int) := by
        intro i2 e2 h2
        by_cases hik : i2 < k
        · rw [show (m.inserts ++ [entry]).get? i2 = m.inserts.get? i2 from
            List.get?_append hik] at h2
          exact hInv.posNew i2 e2 h2
        · have hlt : i2 < m.inserts.length + 1 := by
            obtain ⟨hw, _⟩ := List.get?_eq_some.mp h2
            simpa using hw
          have hik2 : i2 = k := by omega
          have hsome : (m.inserts ++ [entry]).get? i2 = some entry := by
            rw [hik2, hk]
            exact List.get?_concat_length _ _
          rw [hsome] at h2
          cases h2
          show -(k + 1 : Int) = -((i2 : Int) + 1)
          rw [hik2]
      rcases inserts_setRef_cases m2 pr _ with hc | ⟨j, hdisk, hc⟩
      · rw [hm3] at h
        rw [hc] at h
        rw [hm2] at h
        exact hpush i e h
      · rw [hm3] at h
        rw [hc] at h
        have hjk : j < m2.inserts.length := by
          have : refValid m2 pr := hprv2
          rw [hdisk] at this
          simpa [refValid] using this
        by_cases hij : i = j
        · subst hij
          rw [List.get?_set_eq] at h
          have hold : m2.inserts.get? i = some prevE := by
            have : getRef m2 pr = some prevE := by
              rw [hg2 pr hprnk]; exact hprevE
            rw [hdisk] at this
            exact this
          rw [hold] at h
          have h3 : some { prevE with link := -(k + 1 : Int) } = some e := h
          cases h3
          show prevE.position = _
          have hold2 : (m.inserts ++ [entry]).get? i = some prevE := by
            rw [hm2] at hold
            exact hold
          exact hpush i prevE hold2
        · rw [List.get?_set_ne _ _ (fun h2 => hij h2.symm)] at h
          rw [hm2] at h
          exact hpush i e h
    · -- modsSub
      intro p hsome
      rw [hbase3]
      rcases mods_setRef_cases m2 pr _ p with hc | ⟨hdisk, hc⟩
      · rw [hm3] at hsome
        rw [hc] at hsome
        exact hInv.modsSub p hsome
      · have hgd : getRef m (Ref.disk p) = some prevE := by
          rw [← hdisk]; exact hprevE
        simp only [getRef] at hgd
        cases hm : m.mods p with
        | some x =>
          exact hInv.modsSub p (by rw [hm]; rfl)
        | none =>
          rw [hm] at hgd
          simp only [Option.elim] at hgd
          rw [hgd]
          rfl
    · -- baseFresh
      intro p hap
      rw [hbase3]
      exact hInv.baseFresh p hap
    · -- newUsed
      intro i hi
      rw [hilen3] at hi
      by_cases hik : i < k
      · have := hInv.newUsed i (by rw [← hk]; exact hik)
        exact ( hmemD' _).mpr (Or.inr this)
      · have : i = k := by omega
        subst this
        refine ( hmemD' _).mpr (Or.inl rfl)
  · -- contents
    have h1 := contents_dup_perm m3 C D pr (Ref.new k) hpr (Inv_nodupC hInv)
    have h2 : contents m3 C D = contents m C D := by
      refine contents_congr m m3 C D ?_ ?_
      · intro r hr
        refine ⟨hmval3 r hr, ?_⟩
        unfold mptr
        rw [hptr3 r (hCnk r hr)]
      · intro r hr d hd
        unfold mptr
        rw [show ent m3 d = ent m d from by
          unfold ent
          rw [hframe d (Inv_disjoint hInv pr hpr r hr d hd) (hDnk r hr d hd)]]
    have h3 : mval m3 pr = v := by
      rw [hmval3 pr hpr, hprv]
    have h4 : mptr m3 (Ref.new k) = of.position := by
      unfold mptr
      rw [ent_eq hg3k]
    rw [ hD']
    refine List.Perm.trans h1 ?_
    rw [h2, h3, h4]

theorem filter_comm_seg (m : Mem V) (v : V) (C : List Ref) (i : Nat) :
    seg m v (subLv m C i) =
      (seg m v C).filter (fun r => decide (i < mlen m r)) := by
  unfold seg subLv
  rw [List.filter_filter, List.filter_filter]
  congr 1
  funext r
  rw [Bool.and_comm]

theorem contents_append (m : Mem V) (A B : List Ref) (D : Ref → List Ref) :
    contents m (A ++ B) D = contents m A D ++ contents m B D := by
  unfold contents
  exact List.flatMap_append A B _

/-- `indexObjectField` in the splice branch: the value is new to the chain
(and differs from the header's metadata value), so a leveled entry is
created and spliced in after the per-level predecessors. -/
theorem indexObjectField_splice
    {hp apos : Nat} {m : Mem V} {C : List Ref} {D : Ref → List Ref}
    (hInv : Inv hp apos m C D)
    (of : ObjField V) (lvl fuel : Nat)
    (hfuel : C.length < fuel)
    (hv : of.value ≠ m.head.node.value)
    (hnot : of.value ∉ C.map (mval m)) :
    ∃ m3 level,
      level = min lvl (min (countNonzero m.head.node.levels)
        (maxHeight - 1)) ∧
      indexObjectField m of lvl fuel = some
        (m3, (List.range (level + 1)).reverse.map (predAt m C of.value)) ∧
      m3.inserts.length = m.inserts.length + 1 ∧
      (∀ r, r ≠ Ref.new m.inserts.length →
        (getRef m3 r).isSome = (getRef m r).isSome ∧
        (ent m3 r).position = (ent m r).position ∧
        (ent m3 r).pointer = (ent m r).pointer ∧
        (ent m3 r).link = (ent m r).link ∧
        (ent m3 r).node.value = (ent m r).node.value) ∧
      (∀ r, r ≠ Ref.new m.inserts.length →
        (∀ i, i ≤ level → predAt m C of.value i ≠ r) →
        getRef m3 r = getRef m r) ∧
      (∀ r ∈ (List.range (level + 1)).reverse.map (predAt m C of.value),
        r = Ref.hd ∨ r ∈ C) ∧
      (getRef m3 (Ref.new m.inserts.length)).isSome ∧
      (ent m3 (Ref.new m.inserts.length)).position
        = -(m.inserts.length + 1 : Int) ∧
      (ent m3 (Ref.new m.inserts.length)).pointer = of.position ∧
      (ent m3 (Ref.new m.inserts.length)).link = 0 ∧
      (ent m3 (Ref.new m.inserts.length)).node.value = of.value ∧
      (ent m3 (Ref.new m.inserts.length)).node.levels.length = level + 1 ∧
      (∀ p ∈ (ent m3 (Ref.new m.inserts.length)).node.levels, p < 0 →
        p.natAbs - 1 < m.inserts.length) ∧
      m3.base = m.base ∧
      Inv hp apos m3
        (seg m of.value C ++ Ref.new m.inserts.length ::
          C.dropWhile (fun r => decide (mval m r ≤ of.value)))
        (fun r => if r = Ref.new m.inserts.length then [] else D r) ∧
      (contents m3
          (seg m of.value C ++ Ref.new m.inserts.length ::
            C.dropWhile (fun r => decide (mval m r ≤ of.value)))
          (fun r => if r = Ref.new m.inserts.length then [] else D r)).Perm
        ((of.value, of.position) :: contents m C D) := by
  classical
  set k := m.inserts.length with hk
  set v := of.value with hvdef
  set height0 := countNonzero m.head.node.levels with hh0
  set level := min lvl (min height0 (maxHeight - 1)) with hlevdef
  set height := max height0 (level + 1) with hhtdef
  set pf := predAt m C v with hpfdef
  have hh032 : height0 ≤ maxHeight := by
    rw [hh0, ← hInv.headLen]
    exact countNonzero_le _
  have hlev31 : level ≤ 31 :=
    le_trans (min_le_right _ _) (min_le_right _ _)
  have hhm : height ≤ maxHeight := by
    show height ≤ 32
    exact max_le hh032 (by omega)
  have hvalidC := Inv_cvalid hInv
  have hnodC := Inv_nodupC hInv
  have hdes := descent_full hInv v level height fuel
    (le_max_right _ _) (le_max_left _ _) hhm hfuel
  set ups := (List.range (level + 1)).reverse.map pf with hupsdef
  have hlast : ups.getLast? = some (pf 0) := revRangeMap_last pf level
  -- the landing predecessor
  have hpf_cases : ∀ i, pf i = Ref.hd ∨ pf i ∈ C := by
    intro i
    rw [hpfdef]
    cases hseg : seg m v (subLv m C i) with
    | nil =>
      left
      unfold predAt
      rw [hseg]
      rfl
    | cons a as =>
      right
      have := predAt_mem_of_ne m C v i (by rw [hseg]; simp)
      exact (subLv_sublist m C i).mem
        (List.mem_of_mem_filter this)
  have hCnk : ∀ r ∈ C, r ≠ Ref.new k := by
    intro r hr h
    have := hvalidC r hr
    rw [h] at this
    simp only [refValid, hk] at this
    omega
  have hDnk : ∀ x ∈ C, ∀ d ∈ D x, d ≠ Ref.new k := by
    intro x hx d hd h
    have := Inv_dvalid hInv x hx d hd
    rw [h] at this
    simp only [refValid, hk] at this
    omega
  have hpfk : ∀ i, pf i ≠ Ref.new k := by
    intro i
    cases hpf_cases i with
    | inl h => rw [h]; simp
    | inr h => exact hCnk _ h
  have hpfsome : ∀ i, (getRef m (pf i)).isSome := by
    intro i
    cases hpf_cases i with
    | inl h => rw [h]; rfl
    | inr h => exact refValid_isSome m _ (hvalidC _ h)
  obtain ⟨prevE, hprevE⟩ := Option.isSome_iff_exists.mp (hpfsome 0)
  have hvv : prevE.node.value ≠ v := by
    cases hpf_cases 0 with
    | inl h =>
      rw [h] at hprevE
      have : prevE = m.head := by
        rw [getRef_hd] at hprevE
        exact (Option.some.inj hprevE).symm
      rw [this]
      exact fun h2 => hv h2.symm
    | inr h =>
      intro h2
      refine hnot ?_
      refine List.mem_map.mpr ⟨pf 0, h, ?_⟩
      unfold mval
      rw [ent_eq hprevE]
      exact h2
  -- push the new entry
  set entry : IdxEntry V :=
    ⟨-(k + 1 : Int), of.position, 0, ⟨List.replicate (level + 1) 0, v⟩⟩
    with hentry
  set m2 : Mem V := { m with inserts := m.inserts ++ [entry] } with hm2
  have hg2 : ∀ r, r ≠ Ref.new k → getRef m2 r = getRef m r := by
    intro r hr
    rw [hm2, getRef_push m entry r, if_neg (by rw [← hk]; exact hr)]
  have hg2k : getRef m2 (Ref.new k) = some entry := by
    rw [hm2, getRef_push m entry (Ref.new k), if_pos (by rw [hk])]
  have hent2 : ∀ r, r ≠ Ref.new k → ent m2 r = ent m r := by
    intro r hr
    unfold ent
    rw [hg2 r hr]
  have hilen2 : m2.inserts.length = k + 1 := by
    rw [hm2]
    simp [hk]
  have hkvalid2 : refValid m2 (Ref.new k) := by
    simp only [refValid, hilen2]
    omega
  have hpfv2 : ∀ i, i ≤ level → pf i = Ref.hd ∨ refValid m2 (pf i) := by
    intro i _
    cases hpf_cases i with
    | inl h => exact Or.inl h
    | inr h =>
      right
      rw [hm2]
      exact refValid_push m entry _ (hvalidC _ h)
  have hpflen2 : ∀ i, i ≤ level → i < mlen m2 (pf i) := by
    intro i hi
    have hm2len : mlen m2 (pf i) = mlen m (pf i) := by
      unfold mlen
      rw [hent2 _ (hpfk i)]
    rw [hm2len]
    cases hpf_cases i with
    | inl h =>
      rw [h]
      show i < (ent m Ref.hd).node.levels.length
      rw [show ent m Ref.hd = m.head from rfl, hInv.headLen]
      show i < 32
      omega
    | inr h =>
      -- pf i is the last of a nonempty level-i segment
      rw [hpfdef]
      by_cases hseg : seg m v (subLv m C i) = []
      · exfalso
        have : pf i = Ref.hd := by
          rw [hpfdef]
          unfold predAt
          rw [hseg]
          rfl
        rw [this] at h
        exact absurd (hvalidC _ h) (by intro hc; cases hc)
      · have hmem := predAt_mem_of_ne m C v i hseg
        have hsub := List.mem_of_mem_filter hmem
        have := List.of_mem_filter hsub
        simpa using this
  -- run the splice loop
  obtain ⟨m3, hfold, st⟩ := spliceLoop_spec m2 ups k level pf entry
    (by rw [hupsdef]; exact revRangeMap_len pf level)
    (by intro i hi; rw [hupsdef]; exact revRangeMap_get pf level i hi)
    hg2k (by rw [hentry]) (by rw [hentry]) hkvalid2 hpfv2
    (fun i _ => hpfk i) hpflen2 (level + 1) (le_refl _)
  have hrun : indexObjectField m of lvl fuel = some (m3, ups) := by
    refine indexObjectField_eq_splice m of lvl fuel ups (pf 0) prevE m3
      ?_ hlast hprevE hvv ?_
    · exact hdes
    · exact hfold
  -- basic transported facts
  have hilen3 : m3.inserts.length = k + 1 := by
    rw [st.ilen, hilen2]
  have hfld3 : ∀ r, r ≠ Ref.new k →
      (getRef m3 r).isSome = (getRef m r).isSome ∧
      (ent m3 r).position = (ent m r).position ∧
      (ent m3 r).pointer = (ent m r).pointer ∧
      (ent m3 r).link = (ent m r).link ∧
      (ent m3 r).node.value = (ent m r).node.value := by
    intro r hr
    have h2 := hg2 r hr
    have he2 : ent m2 r = ent m r := hent2 r hr
    refine ⟨by rw [st.dom, h2], ?_, ?_, ?_, ?_⟩
    · rw [(st.flds r).1, he2]
    · rw [(st.flds r).2.1, he2]
    · rw [(st.flds r).2.2.1, he2]
    · rw [(st.flds r).2.2.2, he2]
  have hframe3 : ∀ r, r ≠ Ref.new k → (∀ i, i ≤ level → pf i ≠ r) →
      getRef m3 r = getRef m r := by
    intro r h1 h2
    rw [st.frame r h1 (fun i hi => h2 i (by omega)), hg2 r h1]
  have hlen3 : ∀ r, r ≠ Ref.new k → mlen m3 r = mlen m r := by
    intro r hr
    rw [st.len]
    unfold mlen
    rw [hent2 r hr]
  have hslot3 : ∀ r, r ≠ Ref.new k → ∀ i',
      mslot m3 r i' = if i' ≤ level ∧ pf i' = r then -(k + 1 : Int)
        else mslot m r i' := by
    intro r hr i'
    rw [st.slot r i' hr]
    have : mslot m2 r i' = mslot m r i' := by
      unfold mslot
      rw [hent2 r hr]
    by_cases hc : i' < level + 1 ∧ pf i' = r
    · rw [if_pos hc, if_pos ⟨by omega, hc.2⟩]
    · rw [if_neg hc, if_neg (fun h => hc ⟨by omega, h.2⟩), this]
  have hslotK : ∀ i', mslot m3 (Ref.new k) i' =
      if i' ≤ level then mslot m (pf i') i' else 0 := by
    intro i'
    rw [st.slotK i']
    by_cases hc : i' < level + 1
    · rw [if_pos hc, if_pos (by omega)]
      unfold mslot
      rw [hent2 _ (hpfk i')]
    · rw [if_neg hc, if_neg (by omega)]
  have hkE : ent m2 (Ref.new k) = entry := ent_eq hg2k
  have hposK : (ent m3 (Ref.new k)).position = -(k + 1 : Int) := by
    rw [(st.flds _).1, hkE, hentry]
  have hptrK : (ent m3 (Ref.new k)).pointer = of.position := by
    rw [(st.flds _).2.1, hkE, hentry]
  have hlinkK : (ent m3 (Ref.new k)).link = 0 := by
    rw [(st.flds _).2.2.1, hkE, hentry]
  have hvalK : (ent m3 (Ref.new k)).node.value = v := by
    rw [(st.flds _).2.2.2, hkE, hentry]
  have hmlenK : mlen m3 (Ref.new k) = level + 1 := by
    rw [st.len]
    unfold mlen
    rw [hkE, hentry]
    simp
  have hdomK : (getRef m3 (Ref.new k)).isSome := by
    rw [st.dom, hg2k]
    rfl
  have hbase3 : m3.base = m.base := by
    rw [st.base, hm2]
  -- the chain split
  set segC := seg m v C with hsegCdef
  set restC := C.dropWhile (fun r => decide (mval m r ≤ v)) with hrestCdef
  have hsegtw : segC = C.takeWhile (fun r => decide (mval m r ≤ v)) := by
    rw [hsegCdef]
    unfold seg
    exact sorted_filter_eq_takeWhile (mval m) v C hInv.sorted
  have hCsplit : C = segC ++ restC := by
    rw [hsegtw, hrestCdef, List.takeWhile_append_dropWhile]
  have hsegsub : ∀ r ∈ segC, r ∈ C := by
    intro r hr
    rw [hCsplit]
    exact List.mem_append_left _ hr
  have hrestsub : ∀ r ∈ restC, r ∈ C := by
    intro r hr
    rw [hCsplit]
    exact List.mem_append_right _ hr
  have hdisj : ∀ x ∈ segC, ∀ y ∈ restC, x ≠ y := by
    have hnd : (segC ++ restC).Nodup := by
      rw [← hCsplit]
      exact hnodC
    intro x hx y hy he
    exact (List.disjoint_of_nodup_append hnd) hx (he ▸ hy)
  have hsegv : ∀ r ∈ segC, mval m r < v := by
    intro r hr
    have h1 : mval m r ≤ v := by
      have := List.of_mem_filter (hsegCdef ▸ hr)
      simpa using this
    refine lt_of_le_of_ne h1 ?_
    intro he
    exact hnot (he ▸ List.mem_map_of_mem (mval m) (hsegsub r hr))
  have hrestv : ∀ r ∈ restC, v < mval m r := by
    intro r hr
    by_contra hle
    push_neg at hle
    have : r ∈ segC := by
      rw [hsegCdef]
      unfold seg
      exact List.mem_filter.mpr ⟨hrestsub r hr, by simpa using hle⟩
    exact hdisj r this r hr rfl
  set C' := segC ++ Ref.new k :: restC with hC'def
  set D' := fun r => if r = Ref.new k then ([] : List Ref) else D r
    with hD'def
  have hmvalC : ∀ r ∈ C, mval m3 r = mval m r := by
    intro r hr
    unfold mval
    rw [(hfld3 r (hCnk r hr)).2.2.2.2]
  have hmlenC : ∀ r ∈ C, mlen m3 r = mlen m r :=
    fun r hr => hlen3 r (hCnk r hr)
  have hmvalK3 : mval m3 (Ref.new k) = v := hvalK
  -- level lists of the new chain
  have hsubC'le : ∀ i, i ≤ level →
      subLv m3 C' i = segC.filter (fun r => decide (i < mlen m r)) ++
        Ref.new k :: restC.filter (fun r => decide (i < mlen m r)) := by
    intro i hil
    unfold subLv
    rw [ hC'def, List.filter_append]
    congr 1
    · refine List.filter_congr ?_
      intro r hr
      rw [hmlenC r (hsegsub r hr)]
    · rw [List.filter_cons_of_pos]
      · congr 1
        refine List.filter_congr ?_
        intro r hr
        rw [hmlenC r (hrestsub r hr)]
      · simp only [decide_eq_true_eq]
        rw [hmlenK]
        omega
  have hsubm : ∀ i, subLv m C i =
      segC.filter (fun r => decide (i < mlen m r)) ++
        restC.filter (fun r => decide (i < mlen m r)) := by
    intro i
    unfold subLv
    rw [hCsplit, List.filter_append]
  have hsubC'gt : ∀ i, level < i → subLv m3 C' i = subLv m C i := by
    intro i hil
    have h1 : subLv m3 C' i = C'.filter (fun r => decide (i < mlen m3 r)) :=
      rfl
    rw [h1, hC'def, List.filter_append, List.filter_cons_of_neg, hsubm i]
    · congr 1
      · exact List.filter_congr (fun r hr => by rw [hmlenC r (hsegsub r hr)])
      · exact List.filter_congr (fun r hr => by rw [hmlenC r (hrestsub r hr)])
    · simp only [decide_eq_true_eq]
      rw [hmlenK]
      omega
  have hsegfi : ∀ i, seg m v (subLv m C i) =
      segC.filter (fun r => decide (i < mlen m r)) := by
    intro i
    rw [filter_comm_seg, hsegCdef]
  -- permutation of the reference universe
  have hD'seg : ∀ r ∈ segC, D' r = D r := by
    intro r hr
    rw [ hD'def]
    exact if_neg (hCnk r (hsegsub r hr))
  have hD'rest : ∀ r ∈ restC, D' r = D r := by
    intro r hr
    rw [ hD'def]
    exact if_neg (hCnk r (hrestsub r hr))
  have hjoinApp : ∀ (l1 l2 : List (List Ref)),
      (l1 ++ l2).join = l1.join ++ l2.join :=
    fun l1 l2 => List.flatten_append l1 l2
  have hjoin : ( C'.map D').join = (C.map D).join := by
    rw [ hC'def, List.map_append, List.map_cons,
      List.map_congr_left hD'seg, List.map_congr_left hD'rest,
      show D' (Ref.new k) = [] from if_pos rfl]
    rw [hjoinApp, show (([] : List Ref) :: List.map D restC).join
      = (List.map D restC).join from rfl]
    conv_rhs => rw [hCsplit, List.map_append, hjoinApp]
  have hC'perm : C'.Perm (Ref.new k :: C) := by
    rw [ hC'def]
    conv_rhs => rw [hCsplit]
    exact List.perm_middle
  have hpermAll : (allRefs C' D').Perm (Ref.new k :: allRefs C D) := by
    unfold allRefs
    rw [hjoin]
    exact hC'perm.append_right _
  have hmemAll : ∀ r, r ∈ allRefs C' D' ↔
      (r = Ref.new k ∨ r ∈ allRefs C D) := by
    intro r
    rw [hpermAll.mem_iff, List.mem_cons]
  have hnkfresh : Ref.new k ∉ allRefs C D := by
    intro h
    have := hInv.valid _ h
    simp only [refValid, hk] at this
    omega
  have hvalid3 : ∀ r, refValid m r → refValid m3 r := by
    intro r h
    cases r with
    | hd => cases h
    | disk p => exact ⟨h.1, by rw [(hfld3 _ (by simp)).1]; exact h.2⟩
    | new i =>
      simp only [refValid] at h ⊢
      omega
  -- links of the new chain
  have hlinks3 : ∀ i, i < maxHeight →
      Links m3 i (nodeNext m3.head.node i) (subLv m3 C' i) := by
    intro i hi
    have hheadslot : nodeNext m3.head.node i = mslot m3 Ref.hd i := rfl
    by_cases hil : i ≤ level
    · have hsub3 := hsubC'le i hil
      have hpfi : pf i = (segC.filter
          (fun r => decide (i < mlen m r))).getLastD Ref.hd := by
        rw [hpfdef]
        unfold predAt
        rw [hsegfi i]
      rcases List.eq_nil_or_concat' (segC.filter
          (fun r => decide (i < mlen m r))) with hnil | ⟨A, pr, hconc⟩
      · -- the new entry becomes the first element of level i
        have hpfhd : pf i = Ref.hd := by
          rw [hpfi, hnil]
          rfl
        have holdsub : subLv m C i = restC.filter
            (fun r => decide (i < mlen m r)) := by
          rw [hsubm i, hnil, List.nil_append]
        have hold := hInv.links i hi
        rw [holdsub] at hold
        rw [hsub3, hnil, List.nil_append]
        have hhd3 : mslot m3 Ref.hd i = -(k + 1 : Int) := by
          rw [hslot3 Ref.hd (by simp) i, if_pos ⟨hil, hpfhd⟩]
        have hrefk : refInt (Ref.new k) = -(k + 1 : Int) := by
          simp [refInt]
        rw [hheadslot, hhd3, ← hrefk]
        refine Links_prepend hold ?_ ?_
        · intro x hx
          have hxC : x ∈ C := hrestsub x (List.mem_of_mem_filter hx)
          rw [hslot3 x (hCnk x hxC) i, if_neg ?_]
          intro hc
          have : Ref.hd = x := hpfhd ▸ hc.2
          have hv2 := hvalidC x hxC
          rw [← this] at hv2
          cases hv2
        · rw [hslotK i, if_pos hil, hpfhd]
          rfl
      · -- splice right after pr
        have hpfpr : pf i = pr := by
          rw [hpfi, hconc, List.getLastD_eq_getLast?, List.getLast?_concat]
          rfl
        have hprseg : pr ∈ segC := by
          have : pr ∈ segC.filter (fun r => decide (i < mlen m r)) := by
            rw [hconc]
            simp
          exact List.mem_of_mem_filter this
        have hprC : pr ∈ C := hsegsub pr hprseg
        have holdsub : subLv m C i = A ++ pr :: restC.filter
            (fun r => decide (i < mlen m r)) := by
          rw [hsubm i, hconc, List.append_assoc, List.singleton_append]
        have hold := hInv.links i hi
        rw [holdsub] at hold
        rw [hsub3, hconc, List.append_assoc, List.singleton_append]
        have hprhd : pr ≠ Ref.hd := by
          intro h
          have := hvalidC pr hprC
          rw [h] at this
          cases this
        have hhd3 : mslot m3 Ref.hd i = mslot m Ref.hd i := by
          rw [hslot3 Ref.hd (by simp) i, if_neg ?_]
          intro hc
          exact hprhd (by rw [← hpfpr, hc.2])
        rw [hheadslot, hhd3]
        have hnodupAp : (A ++ [pr]).Nodup := by
          rw [← hconc]
          have hsub2 : (segC.filter
              (fun r => decide (i < mlen m r))).Sublist C :=
            (List.filter_sublist segC).trans (seg_sublist m v C)
          exact List.Nodup.sublist hsub2 hnodC
        have hprA : pr ∉ A := by
          intro hmem
          exact (List.disjoint_of_nodup_append hnodupAp) hmem (by simp)
        refine Links_splice hold ?_ ?_ ?_ ?_
        · intro x hx
          have hxseg : x ∈ segC := by
            have : x ∈ segC.filter (fun r => decide (i < mlen m r)) := by
              rw [hconc]
              exact List.mem_append_left _ hx
            exact List.mem_of_mem_filter this
          have hxC : x ∈ C := hsegsub x hxseg
          rw [hslot3 x (hCnk x hxC) i, if_neg ?_]
          intro hc
          have : pr = x := by rw [← hpfpr, hc.2]
          exact hprA (this ▸ hx)
        · intro x hx
          have hxrest : x ∈ restC := List.mem_of_mem_filter hx
          have hxC : x ∈ C := hrestsub x hxrest
          rw [hslot3 x (hCnk x hxC) i, if_neg ?_]
          intro hc
          have : pr = x := by rw [← hpfpr, hc.2]
          exact (hdisj pr hprseg x hxrest) this
        · rw [hslot3 pr (hCnk pr hprC) i, if_pos ⟨hil, hpfpr⟩]
          simp [refInt]
        · rw [hslotK i, if_pos hil, hpfpr]
    · -- level untouched by the splice
      rw [ hsubC'gt i (by omega)]
      have hhd3 : mslot m3 Ref.hd i = mslot m Ref.hd i := by
        rw [hslot3 Ref.hd (by simp) i, if_neg (fun hc => hil hc.1)]
      rw [hheadslot, hhd3]
      refine Links_frame (hInv.links i hi) ?_
      intro r hr
      have hrC : r ∈ C := (subLv_sublist m C i).mem hr
      rw [hslot3 r (hCnk r hrC) i, if_neg (fun hc => hil hc.1)]
  -- sortedness of the new chain
  have hsorted3 : ( C'.map (mval m3)).Chain' (· < ·) := by
    have hmapC' : C'.map (mval m3) =
        segC.map (mval m) ++ v :: restC.map (mval m) := by
      rw [ hC'def, List.map_append, List.map_cons]
      congr 1
      · exact List.map_congr_left (fun r hr => hmvalC r (hsegsub r hr))
      · congr 1
        exact List.map_congr_left (fun r hr => hmvalC r (hrestsub r hr))
    rw [List.chain'_iff_pairwise, hmapC', List.pairwise_append]
    have hpwC := List.chain'_iff_pairwise.mp hInv.sorted
    rw [hCsplit, List.map_append] at hpwC
    obtain ⟨pwA, pwB, hAB⟩ := List.pairwise_append.mp hpwC
    refine ⟨pwA, ?_, ?_⟩
    · refine List.pairwise_cons.mpr ⟨?_, pwB⟩
      intro y hy
      obtain ⟨r, hr, rfl⟩ := List.mem_map.mp hy
      exact hrestv r hr
    · intro x hx y hy
      obtain ⟨r, hr, rfl⟩ := List.mem_map.mp hx
      rcases List.mem_cons.mp hy with h | h
      · rw [h]
        exact hsegv r hr
      · exact hAB _ hx _ h
  -- duplicate chains
  have hdups3 : ∀ r ∈ C', DChain m3 (mlink m3 r) ( D' r) := by
    intro r hr
    rcases List.mem_append.mp ( hC'def ▸ hr) with hseg | hrest
    · have hrC : r ∈ C := hsegsub r hseg
      rw [ hD'seg r hseg]
      have hml : mlink m3 r = mlink m r := by
        unfold mlink
        rw [(hfld3 r (hCnk r hrC)).2.2.2.1]
      rw [hml]
      refine DChain_frame (hInv.dups r hrC) ?_
      intro d hd
      refine hframe3 d (hDnk r hrC d hd) ?_
      intro i _ he
      cases hpf_cases i with
      | inl h =>
        rw [he] at h
        have := Inv_dvalid hInv r hrC d hd
        rw [h] at this
        cases this
      | inr h =>
        rw [he] at h
        exact (Inv_disjoint hInv d h r hrC d hd) rfl
    · rcases List.mem_cons.mp hrest with hnk | hrest2
      · subst hnk
        rw [show D' (Ref.new k) = [] from if_pos rfl]
        rw [show mlink m3 (Ref.new k) = 0 from hlinkK]
        exact DChain.nil
      · have hrC : r ∈ C := hrestsub r hrest2
        rw [ hD'rest r hrest2]
        have hml : mlink m3 r = mlink m r := by
          unfold mlink
          rw [(hfld3 r (hCnk r hrC)).2.2.2.1]
        rw [hml]
        refine DChain_frame (hInv.dups r hrC) ?_
        intro d hd
        refine hframe3 d (hDnk r hrC d hd) ?_
        intro i _ he
        cases hpf_cases i with
        | inl h =>
          rw [he] at h
          have := Inv_dvalid hInv r hrC d hd
          rw [h] at this
          cases this
        | inr h =>
          rw [he] at h
          exact (Inv_disjoint hInv d h r hrC d hd) rfl
  -- contents of the new chain
  have hmvalseg : ∀ r ∈ segC, mval m3 r = mval m r ∧ mptr m3 r = mptr m r := by
    intro r hr
    have hrC := hsegsub r hr
    refine ⟨hmvalC r hrC, ?_⟩
    unfold mptr
    rw [(hfld3 r (hCnk r hrC)).2.2.1]
  have hmvalrest : ∀ r ∈ restC,
      mval m3 r = mval m r ∧ mptr m3 r = mptr m r := by
    intro r hr
    have hrC := hrestsub r hr
    refine ⟨hmvalC r hrC, ?_⟩
    unfold mptr
    rw [(hfld3 r (hCnk r hrC)).2.2.1]
  have hdptr : ∀ x ∈ C, ∀ d ∈ D x, mptr m3 d = mptr m d := by
    intro x hx d hd
    unfold mptr
    rw [(hfld3 d (hDnk x hx d hd)).2.2.1]
  have hcontseg : contents m3 segC D' = contents m segC D := by
    have h1 : contents m3 segC D' = contents m3 segC D := by
      unfold contents
      refine List.flatMap_congr ?_
      intro r hr
      simp only [ hD'seg r hr]
    rw [h1]
    exact contents_congr m m3 segC D hmvalseg
      (fun r hr d hd => hdptr r (hsegsub r hr) d hd)
  have hcontrest : contents m3 restC D' = contents m restC D := by
    have h1 : contents m3 restC D' = contents m3 restC D := by
      unfold contents
      refine List.flatMap_congr ?_
      intro r hr
      simp only [ hD'rest r hr]
    rw [h1]
    exact contents_congr m m3 restC D hmvalrest
      (fun r hr d hd => hdptr r (hrestsub r hr) d hd)
  have hmptrK : mptr m3 (Ref.new k) = of.position := by
    unfold mptr
    rw [hptrK]
  have hcontperm : (contents m3 C' D').Perm
      ((v, of.position) :: contents m C D) := by
    rw [ hC'def, contents_append, contents_cons,
      show D' (Ref.new k) = [] from if_pos rfl, List.map_nil,
      hmvalK3, hmptrK, hcontseg, hcontrest]
    rw [show ((v, of.position) :: ([] : List (V × Nat)))
      ++ contents m restC D = (v, of.position) :: contents m restC D from rfl]
    refine List.Perm.trans List.perm_middle ?_
    rw [← contents_append, ← hCsplit]
  -- assemble
  refine ⟨m3, level, by rw [hlevdef, hh0], hrun, hilen3, hfld3, hframe3,
    ?_, hdomK, hposK, hptrK, hlinkK, hvalK, ?_, ?_, hbase3, ?_, hcontperm⟩
  · intro r hr
    obtain ⟨i, hi, rfl⟩ := revRangeMap_mem (predAt m C of.value) level r hr
    exact hpf_cases i
  · exact hmlenK
  · -- every negative slot of the new entry targets an old pending insert
    intro p hp hneg
    obtain ⟨⟨i', hi'len⟩, hgetp⟩ := List.mem_iff_get.mp hp
    have hilev : i' < level + 1 := by
      rw [← hmlenK]
      exact hi'len
    have hps : mslot m3 (Ref.new k) i' = p := by
      unfold mslot nodeNext
      rw [List.getD_eq_getElem?_getD, List.getElem?_eq_getElem hi'len,
        Option.getD_some]
      exact hgetp
    rw [hslotK i', if_pos (by omega : i' ≤ level)] at hps
    have hor : mslot m (pf i') i' = 0 ∨
        ∃ r', r' ∈ subLv m C i' ∧ mslot m (pf i') i' = refInt r' := by
      cases hseg : seg m v (subLv m C i') with
      | nil =>
        have hpfhd : pf i' = Ref.hd := by
          rw [hpfdef]
          unfold predAt
          rw [hseg]
          rfl
        rw [hpfhd, mslot_hd]
        have hlk := hInv.links i' (by show i' < 32; omega)
        cases hsl : subLv m C i' with
        | nil =>
          left
          rw [hsl] at hlk
          exact Links_nil_inv hlk
        | cons b bs =>
          right
          rw [hsl] at hlk
          exact ⟨b, List.mem_cons_self _ _, (Links_cons_inv hlk).1⟩
      | cons b bs =>
        have hmem : pf i' ∈ subLv m C i' := by
          rw [hpfdef]
          exact List.mem_of_mem_filter
            (predAt_mem_of_ne m C v i' (by rw [hseg]; simp))
        have hlk := hInv.links i' (by show i' < 32; omega)
        exact Links_slot_bound hlk (pf i') hmem
    rcases hor with h0 | ⟨r', hr', he⟩
    · rw [h0] at hps
      omega
    · rw [he] at hps
      have hvr' : refValid m r' :=
        hvalidC r' (List.mem_of_mem_filter hr')
      cases r' with
      | hd =>
        rw [show refInt Ref.hd = 0 from rfl] at hps
        omega
      | disk q =>
        rw [show refInt (Ref.disk q) = (q : Int) from rfl] at hps
        simp only [refValid] at hvr'
        omega
      | new j =>
        rw [show refInt (Ref.new j) = -(j + 1 : Int) from rfl] at hps
        simp only [refValid] at hvr'
        have hcast : (-(j + 1 : Int)).natAbs = j + 1 := by
          rw [show (j + 1 : Int) = ((j + 1 : Nat) : Int) from by push_cast; ring,
            Int.natAbs_neg, Int.natAbs_ofNat]
        rw [← hps, hcast]
        omega
  · -- the invariant
    refine ⟨?_, ?_, hInv.hpPos, hInv.hpLtApos, ?_, ?_, ?_, hsorted3, ?_,
      hlinks3, hdups3, ?_, ?_, ?_, ?_, ?_, ?_⟩
    · -- headLen
      have h1 := hlen3 Ref.hd (by simp)
      unfold mlen at h1
      rw [show ent m3 Ref.hd = m3.head from rfl,
        show ent m Ref.hd = m.head from rfl] at h1
      rw [h1, hInv.headLen]
    · -- headPos
      have h1 := (hfld3 Ref.hd (by simp)).2.1
      rw [show ent m3 Ref.hd = m3.head from rfl,
        show ent m Ref.hd = m.head from rfl] at h1
      rw [h1, hInv.headPos]
    · -- baseHp
      rw [hbase3]
      exact hInv.baseHp
    · -- valid
      intro r hr
      rcases (hmemAll r).mp hr with h | h
      · subst h
        simp only [refValid, hilen3]
        omega
      · exact hvalid3 r (hInv.valid r h)
    · -- nodup
      refine hpermAll.nodup_iff.mpr ?_
      exact List.nodup_cons.mpr ⟨hnkfresh, hInv.nodupAll⟩
    · -- lvPos
      intro r hr
      rcases List.mem_append.mp ( hC'def ▸ hr) with hseg | hrest
      · have hrC : r ∈ C := hsegsub r hseg
        rw [hmlenC r hrC]
        exact hInv.lvPos r hrC
      · rcases List.mem_cons.mp hrest with hnk | hrest2
        · subst hnk
          rw [hmlenK]
          constructor
          · omega
          · show level + 1 ≤ 32
            omega
        · have hrC : r ∈ C := hrestsub r hrest2
          rw [hmlenC r hrC]
          exact hInv.lvPos r hrC
    · -- posBase
      intro p e h
      rw [hbase3] at h
      exact hInv.posBase p e h
    · -- posMods
      intro p e h
      have hg : getRef m3 (Ref.disk p) = some e := by
        simp only [getRef]
        rw [h]
        rfl
      have hsome : (getRef m (Ref.disk p)).isSome := by
        rw [← (hfld3 (Ref.disk p) (by simp)).1, hg]
        rfl
      obtain ⟨e0, he0⟩ := Option.isSome_iff_exists.mp hsome
      have hpos : e.position = e0.position := by
        have h2 := (hfld3 (Ref.disk p) (by simp)).2.1
        rw [ent_eq hg, ent_eq he0] at h2
        exact h2
      rw [hpos]
      exact getRef_disk_position hInv p e0 he0
    · -- posNew
      intro i e h
      have hg : getRef m3 (Ref.new i) = some e := h
      by_cases hik : i = k
      · subst hik
        have := hposK
        rw [ent_eq hg] at this
        rw [this]
      · have hsome : (getRef m (Ref.new i)).isSome := by
          rw [← (hfld3 (Ref.new i) (by simp [hik])).1, hg]
          rfl
        obtain ⟨e0, he0⟩ := Option.isSome_iff_exists.mp hsome
        have hpos : e.position = e0.position := by
          have h2 := (hfld3 (Ref.new i) (by simp [hik])).2.1
          rw [ent_eq hg, ent_eq he0] at h2
          exact h2
        rw [hpos]
        exact hInv.posNew i e0 he0
    · -- modsSub
      intro p hsome
      rw [hbase3]
      obtain ⟨x, hx⟩ := Option.isSome_iff_exists.mp hsome
      have hg3 : (getRef m3 (Ref.disk p)).isSome := by
        simp only [getRef]
        rw [hx]
        rfl
      have hgm : (getRef m (Ref.disk p)).isSome := by
        rw [← (hfld3 (Ref.disk p) (by simp)).1]
        exact hg3
      simp only [getRef] at hgm
      cases hm : m.mods p with
      | some y => exact hInv.modsSub p (by rw [hm]; rfl)
      | none =>
        rw [hm] at hgm
        exact hgm
    · -- baseFresh
      intro p hap
      rw [hbase3]
      exact hInv.baseFresh p hap
    · -- newUsed
      intro i hi
      rw [hilen3] at hi
      by_cases hik : i < k
      · exact (hmemAll _).mpr (Or.inr (hInv.newUsed i (by rw [← hk]; exact hik)))
      · have : i = k := by omega
        subst this
        exact (hmemAll _).mpr (Or.inl rfl)

end SpliceLoop

/-! ## The write phase: run structure of the `inserts` array

The descending batch leaves `inserts` as a sequence of maximal equal-value
runs ("blocks"): either a fresh leveled entry followed by its duplicates, or
a run of duplicates chained to an existing stored entry. -/

section WriteBlocks

variable {V : Type} [LinearOrder V] [Inhabited V]

/-- One equal-value run of the `inserts` array. -/
structure Block where
  start : Nat
  len : Nat
  owner : Ref
  isFresh : Bool
deriving Repr, DecidableEq

/-- The order in which the write loop pushes a block's entries: duplicates
first, then the fresh primary (a pre-existing owner is not rewritten). -/
def blockIdxs (B : Block) : List Nat :=
  if B.isFresh then List.range' (B.start + 1) (B.len - 1) ++ [B.start]
  else List.range' B.start B.len

/-- Well-formed run decomposition of `inserts` from index `idx` on. -/
def BlocksWF (m : Mem V) (C : List Ref) (D : Ref → List Ref) :
    Nat → List Block → Prop
  | idx, [] => idx = m.inserts.length
  | idx, B :: rest =>
      B.start = idx ∧ 0 < B.len ∧ B.start + B.len ≤ m.inserts.length ∧
      B.owner ∈ C ∧
      (∀ j, B.start ≤ j → j < B.start + B.len →
        mval m (Ref.new j) = mval m B.owner) ∧
      (∀ j, B.start ≤ j → j < B.start + B.len →
        (B.isFresh = true ∧ j = B.start) ∨
          (ent m (Ref.new j)).node.levels = []) ∧
      (if B.isFresh then
        B.owner = Ref.new B.start ∧
        D B.owner =
          (List.range' (B.start + 1) (B.len - 1)).reverse.map Ref.new
       else
        (∃ p, B.owner = Ref.disk p) ∧
        (∃ olds, D B.owner =
          (List.range' B.start B.len).reverse.map Ref.new ++ olds ∧
          ∀ d ∈ olds, ∃ q, d = Ref.disk q)) ∧
      (∀ B2 ∈ rest, mval m B2.owner < mval m B.owner) ∧
      BlocksWF m C D (B.start + B.len) rest

theorem BlocksWF_nil_inv {m : Mem V} {C : List Ref} {D : Ref → List Ref}
    {idx : Nat} (h : BlocksWF m C D idx []) : idx = m.inserts.length := h

theorem BlocksWF_cons_inv {m : Mem V} {C : List Ref} {D : Ref → List Ref}
    {idx : Nat} {B : Block} {rest : List Block}
    (h : BlocksWF m C D idx (B :: rest)) :
    B.start = idx ∧ 0 < B.len ∧ B.start + B.len ≤ m.inserts.length ∧
      B.owner ∈ C ∧
      (∀ j, B.start ≤ j → j < B.start + B.len →
        mval m (Ref.new j) = mval m B.owner) ∧
      (∀ j, B.start ≤ j → j < B.start + B.len →
        (B.isFresh = true ∧ j = B.start) ∨
          (ent m (Ref.new j)).node.levels = []) ∧
      (if B.isFresh then
        B.owner = Ref.new B.start ∧
        D B.owner =
          (List.range' (B.start + 1) (B.len - 1)).reverse.map Ref.new
       else
        (∃ p, B.owner = Ref.disk p) ∧
        (∃ olds, D B.owner =
          (List.range' B.start B.len).reverse.map Ref.new ++ olds ∧
          ∀ d ∈ olds, ∃ q, d = Ref.disk q)) ∧
      (∀ B2 ∈ rest, mval m B2.owner < mval m B.owner) ∧
      BlocksWF m C D (B.start + B.len) rest := h

/-- Every index from `idx` on is covered by a block. -/
theorem BlocksWF_cover {m : Mem V} {C : List Ref} {D : Ref → List Ref} :
    ∀ {blocks : List Block} {idx : Nat}, BlocksWF m C D idx blocks →
      ∀ j, idx ≤ j → j < m.inserts.length →
        ∃ B ∈ blocks, B.start ≤ j ∧ j < B.start + B.len := by
  intro blocks
  induction blocks with
  | nil =>
    intro idx h j h1 h2
    rw [BlocksWF_nil_inv h] at h1
    omega
  | cons B rest ih =>
    intro idx h j h1 h2
    obtain ⟨hstart, hlen, hle, _, _, _, _, _, hrest⟩ := BlocksWF_cons_inv h
    by_cases hj : j < B.start + B.len
    · exact ⟨B, List.mem_cons_self _ _, by omega, hj⟩
    · obtain ⟨B2, hB2, hg⟩ := ih hrest j (by omega) h2
      exact ⟨B2, List.mem_cons_of_mem _ hB2, hg⟩

/-- Blocks sit beyond the running index. -/
theorem BlocksWF_bounds {m : Mem V} {C : List Ref} {D : Ref → List Ref} :
    ∀ {blocks : List Block} {idx : Nat}, BlocksWF m C D idx blocks →
      ∀ B ∈ blocks, idx ≤ B.start ∧ 0 < B.len ∧
        B.start + B.len ≤ m.inserts.length := by
  intro blocks
  induction blocks with
  | nil => intro idx _ B hB; cases hB
  | cons B0 rest ih =>
    intro idx h B hB
    obtain ⟨hstart, hlen, hle, _, _, _, _, _, hrest⟩ := BlocksWF_cons_inv h
    rcases List.mem_cons.mp hB with rfl | hB2
    · exact ⟨by omega, hlen, hle⟩
    · have := ih hrest B hB2
      exact ⟨by omega, this.2.1, this.2.2⟩

/-- The entry produced by `process` (lines 1295-1308): real position
assigned, negative level slots replaced by the referenced entries' current
positions. -/
def procE (arr : List (IdxEntry V)) (ip : Nat) (e : IdxEntry V) :
    IdxEntry V :=
  { e with position := ((ip + joinerLen : Nat) : Int),
           node := { e.node with levels := e.node.levels.map (fun p =>
             if p < 0 then
               match arr.get? (p.natAbs - 1) with
               | some nx => nx.position
               | none => p
             else p) } }

theorem processEntry_eq (rawLen : IdxEntry V → Nat) (ws : WriteSt V)
    (j : Nat) (e : IdxEntry V) (he : ws.arr.get? j = some e) :
    processEntry rawLen ws j =
      ⟨ws.arr.set j (procE ws.arr ws.insertPos e),
       ws.insertPos + joinerLen + rawLen (procE ws.arr ws.insertPos e),
       ws.pendingIdx ++ [j]⟩ := by
  unfold processEntry procE
  rw [he]

theorem procE_dup (arr : List (IdxEntry V)) (ip : Nat) (e : IdxEntry V)
    (hlv : e.node.levels = []) :
    procE arr ip e = { e with position := ((ip + joinerLen : Nat) : Int) } := by
  unfold procE
  have h2 : e.node.levels.map (fun p =>
      if p < 0 then
        match arr.get? (p.natAbs - 1) with
        | some nx => nx.position
        | none => p
      else p) = e.node.levels := by
    rw [hlv]
    rfl
  rw [h2]

theorem set_get_self {α : Type} (l : List α) (j : Nat) (e : α)
    (h : l.get? j = some e) : l.set j e = l := by
  apply List.ext_get?
  intro n
  by_cases hn : n = j
  · subst hn
    rw [List.get?_set_eq, h]
    rfl
  · rw [List.get?_set_ne _ _ (fun h2 => hn h2.symm)]

theorem consumeDupes_spec (rawLen : IdxEntry V → Nat)
    (hraw : ∀ e, 0 < rawLen e) (value : V) :
    ∀ (cnt : Nat) (j jend : Nat) (prev : Option Nat) (ws : WriteSt V),
    j ≤ jend → jend ≤ ws.arr.length → cnt = ws.arr.length - j →
    (∀ j2, j ≤ j2 → j2 < jend → ∃ e, ws.arr.get? j2 = some e ∧
      e.node.value = value ∧ e.node.levels = []) →
    (jend < ws.arr.length → ∃ e, ws.arr.get? jend = some e ∧
      e.node.value ≠ value) →
    (∀ pj, prev = some pj → pj < j ∧ (ws.arr.get? pj).isSome) →
    ∃ ws',
      consumeDupes rawLen value cnt j prev ws =
        ( ws', jend, if j = jend then prev else some (jend - 1)) ∧
      ws'.arr.length = ws.arr.length ∧
      (∀ j2, j2 < j ∨ jend ≤ j2 → ws'.arr.get? j2 = ws.arr.get? j2) ∧
      (∀ j2, j ≤ j2 → j2 < jend → ∃ e0 e, ws.arr.get? j2 = some e0 ∧
        ws'.arr.get? j2 = some e ∧
        e.pointer = e0.pointer ∧ e.node = e0.node ∧
        ((ws.insertPos + joinerLen : Nat) : Int) ≤ e.position ∧
        e.position < ( ws'.insertPos : Int) ∧
        (j2 = j →
          (prev = none ∧ e.link = e0.link) ∨
          (∃ pj pe, prev = some pj ∧ ws.arr.get? pj = some pe ∧
            e.link = pe.position)) ∧
        (j < j2 → ∀ pe', ws'.arr.get? (j2 - 1) = some pe' →
          e.link = pe'.position) ∧
        (∀ j3, j ≤ j3 → j3 < j2 → ∀ e3, ws'.arr.get? j3 = some e3 →
          e3.position < e.position)) ∧
      ws.insertPos ≤ ws'.insertPos ∧
      (j = jend → ws' = ws) ∧
      ws'.pendingIdx = ws.pendingIdx ++ List.range' j (jend - j) := by
  intro cnt
  induction cnt with
  | zero =>
    intro j jend prev ws hj hjend hcnt hdup hstop hprev
    have hje : j = jend := by omega
    subst hje
    refine ⟨ws, ?_, rfl, fun _ _ => rfl, ?_, le_refl _, fun _ => rfl, ?_⟩
    · rw [if_pos rfl]
      rfl
    · intro j2 h1 h2
      omega
    · rw [show j - j = 0 from by omega, List.range'_zero, List.append_nil]
  | succ n ih =>
    intro j jend prev ws hj hjend hcnt hdup hstop hprev
    by_cases hje : j = jend
    · subst hje
      refine ⟨ws, ?_, rfl, fun _ _ => rfl, ?_, le_refl _, fun _ => rfl, ?_⟩
      · rw [if_pos rfl]
        unfold consumeDupes
        by_cases hlen : j < ws.arr.length
        · obtain ⟨e, he, hne⟩ := hstop hlen
          rw [he]
          simp only []
          rw [if_neg hne]
        · rw [List.get?_eq_none.mpr (by omega)]
      · intro j2 h1 h2
        omega
      · rw [show j - j = 0 from by omega, List.range'_zero, List.append_nil]
    · have hjlt : j < jend := by omega
      obtain ⟨e, he, hev, helv⟩ := hdup j (le_refl _) hjlt
      have hjarr : j < ws.arr.length := by
        have := List.get?_eq_some.mp he
        exact this.1
      -- the link-written entry
      have hws2 : ∃ e', (match prev with
          | some pj =>
            match ws.arr.get? pj with
            | some pe => { ws with arr := ws.arr.set j { e with link := pe.position } }
            | none => ws
          | none => ws) =
            { ws with arr := ws.arr.set j e' } ∧
          e'.node = e.node ∧ e'.pointer = e.pointer ∧ e'.position = e.position ∧
          ((prev = none ∧ e'.link = e.link) ∨
            (∃ pj pe, prev = some pj ∧ ws.arr.get? pj = some pe ∧
              e'.link = pe.position)) := by
        cases prev with
        | none =>
          refine ⟨e, ?_, rfl, rfl, rfl, Or.inl ⟨rfl, rfl⟩⟩
          simp only []
          rw [set_get_self ws.arr j e he]
        | some pj =>
          obtain ⟨hpjlt, hpjsome⟩ := hprev pj rfl
          obtain ⟨pe, hpe⟩ := Option.isSome_iff_exists.mp hpjsome
          refine ⟨{ e with link := pe.position }, ?_, rfl, rfl, rfl,
            Or.inr ⟨pj, pe, rfl, hpe, rfl⟩⟩
          simp only []
          rw [hpe]
      obtain ⟨e', hws2eq, he'node, he'ptr, he'pos, he'link⟩ := hws2
      set e2 : IdxEntry V :=
        { e' with position := ((ws.insertPos + joinerLen : Nat) : Int) }
        with he2def
      have he'lv : e'.node.levels = [] := by rw [ he'node, helv]
      have hget2 : (ws.arr.set j e').get? j = some e' := by
        rw [List.get?_set_eq, he]
        rfl
      have hstep : consumeDupes rawLen value (n + 1) j prev ws =
          consumeDupes rawLen value n (j + 1) (some j)
            ⟨ws.arr.set j e2, ws.insertPos + joinerLen + rawLen e2,
             ws.pendingIdx ++ [j]⟩ := by
        conv_lhs => rw [consumeDupes]
        rw [he]
        simp only []
        rw [if_pos hev, hws2eq]
        have hpe : processEntry rawLen { ws with arr := ws.arr.set j e' } j =
            ⟨ws.arr.set j e2, ws.insertPos + joinerLen + rawLen e2,
             ws.pendingIdx ++ [j]⟩ := by
          rw [processEntry_eq rawLen _ j e' hget2]
          have hproc : procE (ws.arr.set j e') ws.insertPos e' = e2 := by
            rw [procE_dup _ _ _ he'lv, he2def]
          rw [hproc, List.set_set]
        rw [hpe]
      set ws3 : WriteSt V :=
        ⟨ws.arr.set j e2, ws.insertPos + joinerLen + rawLen e2,
         ws.pendingIdx ++ [j]⟩ with hws3def
      have hlen3 : ws3.arr.length = ws.arr.length := by
        rw [hws3def]
        exact List.length_set _ _ _
      have hg3j : ws3.arr.get? j = some e2 := by
        rw [hws3def]
        show (ws.arr.set j e2).get? j = some e2
        rw [List.get?_set_eq, he]
        rfl
      have hg3o : ∀ j2, j2 ≠ j → ws3.arr.get? j2 = ws.arr.get? j2 := by
        intro j2 hne
        rw [hws3def]
        exact List.get?_set_ne _ _ (fun h2 => hne h2.symm)
      have hn3 : n = ws3.arr.length - (j + 1) := by
        rw [hlen3, ← Nat.sub_sub, ← hcnt, Nat.add_sub_cancel]
      obtain ⟨ws', hcd, hlen', hframe', hmain', hip', _, hpend'⟩ :=
        ih (j + 1) jend (some j) ws3 hjlt (by rw [hlen3]; exact hjend) hn3
          (by
            intro j2 h1 h2
            rw [hg3o j2 (by omega)]
            exact hdup j2 (by omega) h2)
          (by
            intro h2
            rw [hg3o jend (by omega)]
            exact hstop (by omega))
          (by
            intro pj hpj
            cases hpj
            exact ⟨by omega, by rw [hg3j]; rfl⟩)
      have hg'j : ws'.arr.get? j = some e2 := by
        rw [ hframe' j (Or.inl (by omega)), hg3j]
      have hip3 : ws.insertPos < ws3.insertPos := by
        rw [hws3def]
        show ws.insertPos < ws.insertPos + joinerLen + rawLen e2
        have := hraw e2
        unfold joinerLen
        omega
      refine ⟨ws', ?_, ?_, ?_, ?_, ?_, ?_, ?_⟩
      · rw [hstep, hcd, if_neg hje]
        by_cases hj1 : j + 1 = jend
        · rw [if_pos hj1, show j = jend - 1 from by omega]
        · rw [if_neg hj1]
      · rw [ hlen', hlen3]
      · intro j2 hcase
        have h1 : ws'.arr.get? j2 = ws3.arr.get? j2 := by
          refine hframe' j2 ?_
          rcases hcase with h | h
          · exact Or.inl (by omega)
          · exact Or.inr h
        rw [h1, hg3o j2 (by omega)]
      · intro j2 h1 h2
        by_cases hj2 : j2 = j
        · subst hj2
          refine ⟨e, e2, he, hg'j, ?_, ?_, ?_, ?_, ?_, ?_, ?_⟩
          · rw [he2def]
            show e'.pointer = e.pointer
            exact he'ptr
          · rw [he2def]
            show e'.node = e.node
            exact he'node
          · rw [he2def]
          · rw [he2def]
            show ((ws.insertPos + joinerLen : Nat) : Int) < _
            have h3 : ws.insertPos + joinerLen + rawLen e2 ≤ ws'.insertPos :=
              hip'
            have h4 := hraw e2
            omega
          · intro _
            rcases he'link with ⟨hn, hl⟩ | ⟨pj, pe, hp, hpe, hl⟩
            · exact Or.inl ⟨hn, by rw [he2def]; exact hl⟩
            · exact Or.inr ⟨pj, pe, hp, hpe, by rw [he2def]; exact hl⟩
          · intro hc
            omega
          · intro j3 h3 h4
            omega
        · have hj2gt : j + 1 ≤ j2 := by omega
          obtain ⟨e0, ef, he0, hef, hfp, hfn, hfpos1, hfpos2, hflink1,
            hflink2, hford⟩ := hmain' j2 hj2gt h2
          rw [hg3o j2 hj2] at he0
          refine ⟨e0, ef, he0, hef, hfp, hfn, ?_, hfpos2, ?_, ?_, ?_⟩
          · have h3 : ((ws.insertPos + joinerLen + rawLen e2 + joinerLen : Nat)
                : Int) ≤ ef.position := hfpos1
            have h4 := hraw e2
            push_cast at h3 ⊢
            omega
          · intro hc
            omega
          · intro _ pe' hpe'
            by_cases hj21 : j2 = j + 1
            · subst hj21
              rw [show j + 1 - 1 = j from by omega] at hpe'
              rw [ hg'j] at hpe'
              cases hpe'
              rcases hflink1 rfl with ⟨hn, _⟩ | ⟨pj, pe, hp, hpe, hl⟩
              · cases hn
              · cases hp
                rw [hg3j] at hpe
                cases hpe
                exact hl
            · exact hflink2 (by omega) pe' hpe'
          · intro j3 h3 h4 e3 he3
            by_cases hj3 : j3 = j
            · subst hj3
              rw [ hg'j] at he3
              cases he3
              have h5 : ((ws.insertPos + joinerLen + rawLen e2 + joinerLen
                : Nat) : Int) ≤ ef.position := hfpos1
              have h6 := hraw e2
              rw [he2def]
              show ((ws.insertPos + joinerLen : Nat) : Int) < ef.position
              push_cast at h5 ⊢
              omega
            · exact hford j3 (by omega) h4 e3 he3
      · have h3 : ws.insertPos + joinerLen + rawLen e2 ≤ ws'.insertPos := hip'
        omega
      · intro hc
        exact absurd hc hje
      · rw [ hpend', hws3def]
        show (ws.pendingIdx ++ [j]) ++ List.range' (j + 1) (jend - (j + 1))
          = ws.pendingIdx ++ List.range' j (jend - j)
        rw [List.append_assoc]
        congr 1
        rw [show jend - j = (jend - (j + 1)) + 1 from by omega,
          List.range'_succ]
        rfl

/-- The serialized `link` values of one block's entries: chained duplicates
carry the previously written duplicate's real position, the first kept
entry keeps its in-memory link, and a fresh primary is rewritten to the
last written duplicate's position. -/
def blockLinks (m : Mem V) ( ws' : WriteSt V) (B : Block) : Prop :=
  (if B.isFresh then
    (B.len = 1 → ∀ e0 e, m.inserts.get? B.start = some e0 →
      ws'.arr.get? B.start = some e → e.link = e0.link) ∧
    (1 < B.len → ∀ e elast, ws'.arr.get? B.start = some e →
      ws'.arr.get? (B.start + B.len - 1) = some elast →
      e.link = elast.position) ∧
    (1 < B.len → ∀ e0 e, m.inserts.get? (B.start + 1) = some e0 →
      ws'.arr.get? (B.start + 1) = some e → e.link = e0.link) ∧
    (∀ j, B.start + 2 ≤ j → j < B.start + B.len →
      ∀ e ep, ws'.arr.get? j = some e → ws'.arr.get? (j - 1) = some ep →
        e.link = ep.position)
  else
    (∀ e0 e, m.inserts.get? B.start = some e0 →
      ws'.arr.get? B.start = some e → e.link = e0.link) ∧
    (∀ j, B.start + 1 ≤ j → j < B.start + B.len →
      ∀ e ep, ws'.arr.get? j = some e → ws'.arr.get? (j - 1) = some ep →
        e.link = ep.position))

/-- Positions strictly increase along a write order. -/
def posLT ( ws' : WriteSt V) (j1 j2 : Nat) : Prop :=
  ∀ e1 e2, ws'.arr.get? j1 = some e1 → ws'.arr.get? j2 = some e2 →
    e1.position < e2.position

theorem blockIdxs_mem_bounds (B : Block) (j : Nat) (h : j ∈ blockIdxs B)
    (hlen : 0 < B.len) : B.start ≤ j ∧ j < B.start + B.len := by
  unfold blockIdxs at h
  by_cases hF : B.isFresh
  · rw [if_pos hF] at h
    rcases List.mem_append.mp h with h2 | h2
    · rw [List.mem_range'_1] at h2
      omega
    · have : j = B.start := by simpa using h2
      omega
  · rw [if_neg hF] at h
    rw [List.mem_range'_1] at h
    omega

theorem blockLinks_frame (m : Mem V) (ws1 ws2 : WriteSt V) (B : Block)
    (h : ∀ j, B.start ≤ j → j < B.start + B.len →
      ws2.arr.get? j = ws1.arr.get? j)
    (hlen : 0 < B.len)
    (hb : blockLinks m ws1 B) : blockLinks m ws2 B := by
  unfold blockLinks at *
  by_cases hF : B.isFresh
  · rw [if_pos hF] at hb ⊢
    obtain ⟨h1, h2, h3, h4⟩ := hb
    refine ⟨?_, ?_, ?_, ?_⟩
    · intro hl e0 e he0 he
      rw [h B.start (le_refl _) (by omega)] at he
      exact h1 hl e0 e he0 he
    · intro hl e elast he helast
      rw [h B.start (le_refl _) (by omega)] at he
      rw [h _ (by omega) (by omega)] at helast
      exact h2 hl e elast he helast
    · intro hl e0 e he0 he
      rw [h _ (by omega) (by omega)] at he
      exact h3 hl e0 e he0 he
    · intro j hj1 hj2 e ep he hep
      rw [h j (by omega) hj2] at he
      rw [h (j - 1) (by omega) (by omega)] at hep
      exact h4 j hj1 hj2 e ep he hep
  · rw [if_neg hF] at hb ⊢
    obtain ⟨h1, h2⟩ := hb
    refine ⟨?_, ?_⟩
    · intro e0 e he0 he
      rw [h B.start (le_refl _) (by omega)] at he
      exact h1 e0 e he0 he
    · intro j hj1 hj2 e ep he hep
      rw [h j (by omega) hj2] at he
      rw [h (j - 1) (by omega) (by omega)] at hep
      exact h2 j hj1 hj2 e ep he hep

theorem writeLoopGo_step_dup (rawLen : IdxEntry V → Nat) (f i : Nat)
    (ws : WriteSt V) (entry : IdxEntry V)
    (he : ws.arr.get? i = some entry)
    (hlv : entry.node.levels = [])
    (ws2 : WriteSt V) (j2 : Nat) (prev2 : Option Nat)
    (hcd : consumeDupes rawLen entry.node.value
      ((processEntry rawLen ws i).arr.length - (i + 1)) (i + 1) (some i)
      (processEntry rawLen ws i) = (ws2, j2, prev2)) :
    writeLoopGo rawLen (f + 1) i ws = writeLoopGo rawLen f j2 ws2 := by
  conv_lhs => unfold writeLoopGo
  rw [he]
  simp only [if_pos hlv]
  simp only [hcd]

theorem writeLoopGo_step_fresh_none (rawLen : IdxEntry V → Nat) (f i : Nat)
    (ws : WriteSt V) (entry : IdxEntry V)
    (he : ws.arr.get? i = some entry)
    (hlv : ¬ entry.node.levels = [])
    (ws2 : WriteSt V) (j2 : Nat)
    (hcd : consumeDupes rawLen entry.node.value
      (ws.arr.length - (i + 1)) (i + 1) none ws = (ws2, j2, none)) :
    writeLoopGo rawLen (f + 1) i ws =
      writeLoopGo rawLen f j2 (processEntry rawLen ws2 i) := by
  conv_lhs => unfold writeLoopGo
  rw [he]
  simp only [if_neg hlv]
  simp only [hcd]

theorem writeLoopGo_step_fresh_some (rawLen : IdxEntry V → Nat) (f i : Nat)
    (ws : WriteSt V) (entry : IdxEntry V)
    (he : ws.arr.get? i = some entry)
    (hlv : ¬ entry.node.levels = [])
    (ws2 : WriteSt V) (j2 pj : Nat) (e pe : IdxEntry V)
    (hcd : consumeDupes rawLen entry.node.value
      (ws.arr.length - (i + 1)) (i + 1) none ws = (ws2, j2, some pj))
    (hge : ws2.arr.get? i = some e) (hgp : ws2.arr.get? pj = some pe) :
    writeLoopGo rawLen (f + 1) i ws =
      writeLoopGo rawLen f j2 (processEntry rawLen
        { ws2 with arr := ws2.arr.set i { e with link := pe.position } } i) := by
  conv_lhs => unfold writeLoopGo
  rw [he]
  simp only [if_neg hlv]
  simp only [hcd]
  rw [hge, hgp]

theorem writeLoopGo_spec (rawLen : IdxEntry V → Nat)
    (hraw : ∀ e, 0 < rawLen e) (m : Mem V) (C : List Ref)
    (D : Ref → List Ref) :
    ∀ (blocks : List Block) (fuel idx : Nat) (ws : WriteSt V),
    BlocksWF m C D idx blocks →
    blocks.length ≤ fuel →
    ws.arr.length = m.inserts.length →
    (∀ j, idx ≤ j → j < m.inserts.length →
      ws.arr.get? j = m.inserts.get? j) →
    (∀ B ∈ blocks, B.isFresh = true →
      (ent m (Ref.new B.start)).node.levels ≠ []) →
    (∀ B ∈ blocks, B.isFresh = true →
      ∀ p ∈ (ent m (Ref.new B.start)).node.levels, p < 0 →
        p.natAbs - 1 < B.start) →
    ∃ ws',
      writeLoopGo rawLen fuel idx ws = ws' ∧
      ws'.arr.length = m.inserts.length ∧
      (∀ j, j < idx ∨ m.inserts.length ≤ j →
        ws'.arr.get? j = ws.arr.get? j) ∧
      ws.insertPos ≤ ws'.insertPos ∧
      (∀ j, idx ≤ j → j < m.inserts.length → ∃ e0 e,
        m.inserts.get? j = some e0 ∧ ws'.arr.get? j = some e ∧
        e.pointer = e0.pointer ∧ e.node.value = e0.node.value ∧
        ((ws.insertPos + joinerLen : Nat) : Int) ≤ e.position ∧
        e.position < ( ws'.insertPos : Int) ∧
        e.node.levels = e0.node.levels.map (fun p => if p < 0 then
          (match ws'.arr.get? (p.natAbs - 1) with
            | some nx => nx.position
            | none => p)
          else p)) ∧
      (∀ B ∈ blocks, blockLinks m ws' B) ∧
      (blocks.bind blockIdxs).Pairwise (posLT ws') ∧
      ws'.pendingIdx = ws.pendingIdx ++ blocks.bind blockIdxs := by
  intro blocks
  induction blocks with
  | nil =>
    intro fuel idx ws hwf hfuel hlen huntouched hfresh hslots
    have hidx : idx = m.inserts.length := BlocksWF_nil_inv hwf
    have hend : writeLoopGo rawLen fuel idx ws = ws := by
      cases fuel with
      | zero => rfl
      | succ f =>
        unfold writeLoopGo
        rw [List.get?_eq_none.mpr (by omega)]
    refine ⟨ws, hend, hlen, fun _ _ => rfl, le_refl _, ?_, ?_, ?_, ?_⟩
    · intro j h1 h2
      omega
    · intro B hB
      cases hB
    · simp
    · simp
  | cons B rest ih =>
    intro fuel idx ws hwf hfuel hlen huntouched hfresh hslots
    obtain ⟨hstart, hlenB, hle, hownC, hvals, hdups, hshape, hvrest,
      hwfrest⟩ := BlocksWF_cons_inv hwf
    subst hstart
    obtain ⟨f, rfl⟩ : ∃ f, fuel = f + 1 := ⟨fuel - 1, by
      have := hfuel
      simp only [List.length_cons] at this
      omega⟩
    have hstartlt : B.start < m.inserts.length := by omega
    obtain ⟨e0, he0⟩ : ∃ e0, m.inserts.get? B.start = some e0 := by
      rw [List.get?_eq_get (by omega)]
      exact ⟨_, rfl⟩
    have hws0 : ws.arr.get? B.start = some e0 := by
      rw [huntouched _ (le_refl _) hstartlt]
      exact he0
    have hent0 : ent m (Ref.new B.start) = e0 := ent_eq he0
    set n := m.inserts.length with hn
    set jend := B.start + B.len with hjend
    -- the equal-value successors
    have hdupentries : ∀ j2, B.start + 1 ≤ j2 → j2 < jend →
        ∃ e, ws.arr.get? j2 = some e ∧ e.node.value = e0.node.value ∧
          e.node.levels = [] := by
      intro j2 h1 h2
      obtain ⟨e2, he2⟩ : ∃ e2, m.inserts.get? j2 = some e2 := by
        rw [List.get?_eq_get (by omega)]
        exact ⟨_, rfl⟩
      refine ⟨e2, by rw [huntouched _ (by omega) (by omega)]; exact he2,
        ?_, ?_⟩
      · have hv1 := hvals j2 (by omega) (by omega)
        have hv2 := hvals B.start (le_refl _) (by omega)
        have : mval m (Ref.new j2) = mval m (Ref.new B.start) := by
          rw [hv1, hv2]
        unfold mval at this
        rw [hent0, ent_eq (show getRef m (Ref.new j2) = some e2 from he2)]
          at this
        exact this
      · have := hdups j2 (by omega) (by omega)
        rcases this with ⟨_, hj⟩ | hlv
        · omega
        · rw [ent_eq (show getRef m (Ref.new j2) = some e2 from he2)] at hlv
          exact hlv
    have hstopfact : jend < ws.arr.length →
        ∃ e, ws.arr.get? jend = some e ∧ e.node.value ≠ e0.node.value := by
      intro hjl
      rw [hlen] at hjl
      cases rest with
      | nil =>
        have := BlocksWF_nil_inv hwfrest
        omega
      | cons B2 rest2 =>
        obtain ⟨hstart2, hlen2, hle2, hown2, hvals2, _, _, _, _⟩ :=
          BlocksWF_cons_inv hwfrest
        obtain ⟨e2, he2⟩ : ∃ e2, m.inserts.get? jend = some e2 := by
          rw [List.get?_eq_get (by omega)]
          exact ⟨_, rfl⟩
        refine ⟨e2, by rw [huntouched _ (by omega) (by omega)]; exact he2, ?_⟩
        have hv2 := hvals2 jend (by omega) (by omega)
        have hvless := hvrest B2 (List.mem_cons_self _ _)
        have hv0 := hvals B.start (le_refl _) (by omega)
        intro heq
        have h1 : mval m (Ref.new jend) = e2.node.value := by
          unfold mval
          rw [ent_eq (show getRef m (Ref.new jend) = some e2 from he2)]
        have h2 : mval m (Ref.new B.start) = e0.node.value := by
          unfold mval
          rw [hent0]
        have h3 : mval m B2.owner = mval m B.owner := by
          rw [← hv2, ← hv0, h1, h2, heq]
        rw [h3] at hvless
        exact absurd hvless (lt_irrefl _)
    have hstep : ∃ ws4,
        (writeLoopGo rawLen (f + 1) B.start ws =
          writeLoopGo rawLen f jend ws4) ∧
        ws4.arr.length = m.inserts.length ∧
        (∀ j, j < B.start ∨ m.inserts.length ≤ j →
          ws4.arr.get? j = ws.arr.get? j) ∧
        (∀ j, jend ≤ j → j < m.inserts.length →
          ws4.arr.get? j = m.inserts.get? j) ∧
        ws.insertPos ≤ ws4.insertPos ∧
        (∀ j, B.start ≤ j → j < jend → ∃ e0x e,
          m.inserts.get? j = some e0x ∧ ws4.arr.get? j = some e ∧
          e.pointer = e0x.pointer ∧ e.node.value = e0x.node.value ∧
          ((ws.insertPos + joinerLen : Nat) : Int) ≤ e.position ∧
          e.position < (ws4.insertPos : Int) ∧
          e.node.levels = e0x.node.levels.map (fun p => if p < 0 then
            (match ws4.arr.get? (p.natAbs - 1) with
              | some nx => nx.position
              | none => p)
            else p)) ∧
        blockLinks m ws4 B ∧
        (blockIdxs B).Pairwise (posLT ws4) ∧
        ws4.pendingIdx = ws.pendingIdx ++ blockIdxs B := by
      by_cases hF : B.isFresh = true
      · -- fresh block: consume the duplicates, then write the primary
        have hshape' := hshape
        rw [if_pos hF] at hshape'
        obtain ⟨howner, hDB⟩ := hshape'
        have hlv0 : ¬ e0.node.levels = [] := by
          have := hfresh B (List.mem_cons_self _ _) hF
          rw [hent0] at this
          exact this
        have hslot0 : ∀ p ∈ e0.node.levels, p < 0 →
            p.natAbs - 1 < B.start := by
          intro p hp hneg
          have := hslots B (List.mem_cons_self _ _) hF p
            (by rw [hent0]; exact hp) hneg
          exact this
        obtain ⟨ws2, hcd, hlen2, hframe2, hmain2, hip2, hid2, hpend2⟩ :=
          consumeDupes_spec rawLen hraw e0.node.value
            (ws.arr.length - (B.start + 1)) (B.start + 1) jend none ws
            (by omega) (by omega) rfl hdupentries hstopfact
            (by intro pj hpj; cases hpj)
        have hg2start : ws2.arr.get? B.start = some e0 := by
          rw [hframe2 B.start (Or.inl (by omega))]
          exact hws0
        by_cases hone : B.len = 1
        · -- no duplicates
          have hjeq : B.start + 1 = jend := by omega
          have hws2eq : ws2 = ws := hid2 hjeq
          have hcd2 : consumeDupes rawLen e0.node.value
              (ws.arr.length - (B.start + 1)) (B.start + 1) none ws =
              (ws2, jend, none) := by
            rw [hcd, if_pos hjeq]
          have hbody := writeLoopGo_step_fresh_none rawLen f B.start ws e0
            hws0 hlv0 ws2 jend hcd2
          set eP : IdxEntry V := procE ws2.arr ws2.insertPos e0 with hePdef
          have hproc : processEntry rawLen ws2 B.start =
              ⟨ws2.arr.set B.start eP, ws2.insertPos + joinerLen + rawLen eP,
               ws2.pendingIdx ++ [B.start]⟩ :=
            processEntry_eq rawLen ws2 B.start e0 hg2start
          rw [hproc] at hbody
          refine ⟨_, hbody, ?_, ?_, ?_, ?_, ?_, ?_, ?_, ?_⟩
          · show (ws2.arr.set B.start eP).length = _
            rw [List.length_set, hlen2, hlen]
          · intro j hj
            show (ws2.arr.set B.start eP).get? j = _
            rcases hj with h | h
            · rw [List.get?_set_ne _ _ (by omega),
                hframe2 j (Or.inl (by omega))]
            · rw [List.get?_set_ne _ _ (by omega),
                hframe2 j (Or.inr (by omega))]
          · intro j h1 h2
            show (ws2.arr.set B.start eP).get? j = _
            rw [List.get?_set_ne _ _ (by omega),
              hframe2 j (Or.inr (by omega)), huntouched j (by omega) h2]
          · show ws.insertPos ≤ ws2.insertPos + joinerLen + rawLen eP
            rw [hws2eq]
            unfold joinerLen
            omega
          · intro j h1 h2
            have hj : j = B.start := by omega
            subst hj
            refine ⟨e0, eP, he0, ?_, ?_, ?_, ?_, ?_, ?_⟩
            · show (ws2.arr.set B.start eP).get? B.start = some eP
              rw [List.get?_set_eq, hg2start]
              rfl
            · rw [hePdef]
              rfl
            · rw [hePdef]
              rfl
            · rw [hePdef]
              show ((ws.insertPos + joinerLen : Nat) : Int) ≤
                ((ws2.insertPos + joinerLen : Nat) : Int)
              rw [hws2eq]
            · rw [hePdef]
              show ((ws2.insertPos + joinerLen : Nat) : Int) <
                ((ws2.insertPos + joinerLen + rawLen eP : Nat) : Int)
              have := hraw eP
              push_cast
              omega
            · rw [hePdef]
              show e0.node.levels.map _ = _
              refine List.map_congr_left ?_
              intro p hp
              by_cases hneg : p < 0
              · rw [if_pos hneg, if_pos hneg]
                have ht : p.natAbs - 1 < B.start := hslot0 p hp hneg
                have : (ws2.arr.set B.start eP).get? (p.natAbs - 1) =
                    ws2.arr.get? (p.natAbs - 1) :=
                  List.get?_set_ne _ _ (by omega)
                rw [this]
              · rw [if_neg hneg, if_neg hneg]
          · unfold blockLinks
            rw [if_pos hF]
            refine ⟨?_, ?_, ?_, ?_⟩
            · intro _ e0x e he0x he
              rw [he0] at he0x
              cases he0x
              have hgeP : (ws2.arr.set B.start eP).get? B.start = some eP := by
                rw [List.get?_set_eq, hg2start]
                rfl
              rw [hgeP] at he
              cases he
              rfl
            · intro hl
              omega
            · intro hl
              omega
            · intro j hj1 hj2
              omega
          · unfold blockIdxs
            rw [if_pos hF, hone]
            simp [posLT]
          · show ws2.pendingIdx ++ [B.start] = _
            unfold blockIdxs
            rw [if_pos hF, hone, hpend2]
            rw [show jend - (B.start + 1) = 0 from by omega,
              List.range'_zero, List.append_nil, List.nil_append]
        · -- at least one duplicate
          have hjlt : B.start + 1 < jend := by omega
          have hcd2 : consumeDupes rawLen e0.node.value
              (ws.arr.length - (B.start + 1)) (B.start + 1) none ws =
              (ws2, jend, some (jend - 1)) := by
            rw [hcd, if_neg (by omega)]
          obtain ⟨elast0, elast, hwslast, hgelast, _, _, _, _, _, _, _⟩ :=
            hmain2 (jend - 1) (by omega) (by omega)
          set eL : IdxEntry V := { e0 with link := elast.position }
            with heLdef
          set ws3 : WriteSt V := { ws2 with arr := ws2.arr.set B.start eL }
            with hws3def
          have hbody := writeLoopGo_step_fresh_some rawLen f B.start ws e0
            hws0 hlv0 ws2 jend (jend - 1) e0 elast hcd2 hg2start hgelast
          have hg3start : ws3.arr.get? B.start = some eL := by
            show (ws2.arr.set B.start eL).get? B.start = some eL
            rw [List.get?_set_eq, hg2start]
            rfl
          set eP : IdxEntry V := procE ws3.arr ws3.insertPos eL with hePdef
          have hproc : processEntry rawLen ws3 B.start =
              ⟨ws3.arr.set B.start eP, ws3.insertPos + joinerLen + rawLen eP,
               ws3.pendingIdx ++ [B.start]⟩ :=
            processEntry_eq rawLen ws3 B.start eL hg3start
          rw [hproc] at hbody
          have hip3 : ws3.insertPos = ws2.insertPos := rfl
          have hpend3 : ws3.pendingIdx = ws2.pendingIdx := rfl
          have hw4ne : ∀ j, ¬ j = B.start →
              (ws3.arr.set B.start eP).get? j = ws2.arr.get? j := by
            intro j hj
            show ((ws2.arr.set B.start eL).set B.start eP).get? j = _
            rw [List.set_set, List.get?_set_ne _ _ (by omega)]
          have hw4eq : (ws3.arr.set B.start eP).get? B.start = some eP := by
            show ((ws2.arr.set B.start eL).set B.start eP).get? B.start = _
            rw [List.set_set, List.get?_set_eq, hg2start]
            rfl
          have hePpos : eP.position =
              ((ws2.insertPos + joinerLen : Nat) : Int) := rfl
          have hePlink : eP.link = elast.position := rfl
          refine ⟨_, hbody, ?_, ?_, ?_, ?_, ?_, ?_, ?_, ?_⟩
          · show (ws3.arr.set B.start eP).length = _
            rw [List.length_set]
            show (ws2.arr.set B.start eL).length = _
            rw [List.length_set, hlen2, hlen]
          · intro j hj
            rcases hj with h | h
            · rw [hw4ne j (by omega), hframe2 j (Or.inl (by omega))]
            · rw [hw4ne j (by omega), hframe2 j (Or.inr (by omega))]
          · intro j h1 h2
            rw [hw4ne j (by omega), hframe2 j (Or.inr (by omega)),
              huntouched j (by omega) h2]
          · show ws.insertPos ≤ ws3.insertPos + joinerLen + rawLen eP
            rw [hip3]
            unfold joinerLen
            omega
          · intro j h1 h2
            by_cases hjs : j = B.start
            · subst hjs
              refine ⟨e0, eP, he0, hw4eq, rfl, rfl, ?_, ?_, ?_⟩
              · rw [hePpos]
                push_cast
                omega
              · show eP.position <
                  ((ws3.insertPos + joinerLen + rawLen eP : Nat) : Int)
                rw [hePpos, hip3]
                have := hraw eP
                push_cast
                omega
              · show (e0.node.levels.map _) = _
                refine List.map_congr_left ?_
                intro p hp
                by_cases hneg : p < 0
                · rw [if_pos hneg, if_pos hneg]
                  have ht : p.natAbs - 1 < B.start := hslot0 p hp hneg
                  have h5 : ws3.arr.get? (p.natAbs - 1) =
                      ws2.arr.get? (p.natAbs - 1) := by
                    show (ws2.arr.set B.start eL).get? _ = _
                    rw [List.get?_set_ne _ _ (by omega)]
                  have h6 : (ws3.arr.set B.start eP).get? (p.natAbs - 1) =
                      ws2.arr.get? (p.natAbs - 1) := hw4ne _ (by omega)
                  rw [h5, h6]
                · rw [if_neg hneg, if_neg hneg]
            · obtain ⟨d0, d, hwsd, hws2d, hptr, hnode, hlo, hhi, _, _, _⟩ :=
                hmain2 j (Nat.lt_of_le_of_ne h1 (fun h => hjs h.symm)) h2
              obtain ⟨d0', hwsd', _, hlvnil⟩ :=
                hdupentries j (Nat.lt_of_le_of_ne h1 (fun h => hjs h.symm)) h2
              rw [hwsd] at hwsd'
              cases hwsd'
              refine ⟨d0, d, ?_, ?_, hptr, by rw [hnode], hlo, ?_, ?_⟩
              · rw [← huntouched j h1 (lt_of_lt_of_le h2 hle)]
                exact hwsd
              · rw [hw4ne j hjs]
                exact hws2d
              · show d.position <
                  ((ws3.insertPos + joinerLen + rawLen eP : Nat) : Int)
                rw [hip3]
                refine lt_of_lt_of_le hhi ?_
                rw [Nat.add_assoc]
                exact_mod_cast Nat.le_add_right ws2.insertPos
                  (joinerLen + rawLen eP)
              · rw [hnode, hlvnil]
                rfl
          · unfold blockLinks
            rw [if_pos hF]
            refine ⟨?_, ?_, ?_, ?_⟩
            · intro h1
              exact absurd h1 hone
            · intro _ e elast' hge helast'
              rw [hw4eq] at hge
              cases hge
              have h7 : (ws3.arr.set B.start eP).get? (B.start + B.len - 1) =
                  ws2.arr.get? (jend - 1) := by
                rw [show B.start + B.len - 1 = jend - 1 from by omega]
                exact hw4ne _ (by omega)
              rw [h7, hgelast] at helast'
              cases helast'
              exact hePlink
            · intro _ e0x e he0x he
              obtain ⟨d0, d, hwsd, hws2d, _, _, _, _, hfirst, _, _⟩ :=
                hmain2 (B.start + 1) (le_refl _) (by omega)
              rw [huntouched _ (by omega) (by omega), he0x] at hwsd
              cases hwsd
              rw [hw4ne _ (by omega), hws2d] at he
              cases he
              rcases hfirst rfl with ⟨_, hl⟩ | ⟨pj, pe, hpj, _⟩
              · exact hl
              · exact Option.noConfusion hpj
            · intro j hj1 hj2 e ep he hep
              obtain ⟨d0, d, hwsd, hws2d, _, _, _, _, _, hchain, _⟩ :=
                hmain2 j (by omega) (by omega)
              rw [hw4ne j (by omega), hws2d] at he
              cases he
              rw [hw4ne (j - 1) (by omega)] at hep
              exact hchain (by omega) ep hep
          · unfold blockIdxs
            rw [if_pos hF]
            rw [List.pairwise_append]
            refine ⟨?_, ?_, ?_⟩
            · refine List.Pairwise.imp_of_mem ?_
                (List.pairwise_lt_range' (B.start + 1) (B.len - 1))
              intro j1 j2 hm1 hm2 hlt e1 e2 he1 he2
              rw [List.mem_range'_1] at hm1 hm2
              rw [hw4ne j1 (by omega)] at he1
              rw [hw4ne j2 (by omega)] at he2
              obtain ⟨d0, d, hwsd, hws2d, _, _, _, _, _, _, hord⟩ :=
                hmain2 j2 (by omega) (by omega)
              rw [hws2d] at he2
              cases he2
              exact hord j1 (by omega) hlt e1 he1
            · simp [posLT]
            · intro j1 hm1 j2 hm2 e1 e2 he1 he2
              rw [List.mem_singleton] at hm2
              subst hm2
              rw [List.mem_range'_1] at hm1
              rw [hw4ne j1 (by omega)] at he1
              obtain ⟨d0, d, hwsd, hws2d, _, _, _, hhi, _, _, _⟩ :=
                hmain2 j1 (by omega) (by omega)
              rw [hws2d] at he1
              cases he1
              rw [hw4eq] at he2
              cases he2
              rw [hePpos]
              refine lt_of_lt_of_le hhi ?_
              exact_mod_cast Nat.le_add_right ws2.insertPos joinerLen
          · show ws3.pendingIdx ++ [B.start] = _
            rw [hpend3, hpend2]
            unfold blockIdxs
            rw [if_pos hF]
            rw [show jend - (B.start + 1) = B.len - 1 from by omega,
              List.append_assoc]
      · -- pre-existing owner: the whole block is written as a dup chain
        have hlvnil0 : e0.node.levels = [] := by
          have := hdups B.start (le_refl _) (by omega)
          rcases this with ⟨hFr, _⟩ | hnil
          · exact absurd hFr hF
          · rw [hent0] at hnil
            exact hnil
        obtain ⟨L, hL⟩ : ∃ L, B.len = L + 1 := ⟨B.len - 1, by omega⟩
        have hbi : blockIdxs B = B.start :: List.range' (B.start + 1) L := by
          unfold blockIdxs
          rw [if_neg hF, hL, List.range'_succ]
        set eD : IdxEntry V :=
          { e0 with position := ((ws.insertPos + joinerLen : Nat) : Int) }
          with heDdef
        set ws1 : WriteSt V :=
          ⟨ws.arr.set B.start eD, ws.insertPos + joinerLen + rawLen eD,
           ws.pendingIdx ++ [B.start]⟩ with hws1def
        have hproc : processEntry rawLen ws B.start = ws1 := by
          rw [processEntry_eq rawLen ws B.start e0 hws0]
          rw [procE_dup ws.arr ws.insertPos e0 hlvnil0]
        have hg1start : ws1.arr.get? B.start = some eD := by
          show (ws.arr.set B.start eD).get? B.start = some eD
          rw [List.get?_set_eq, hws0]
          rfl
        have hlen1 : ws1.arr.length = ws.arr.length := by
          show (ws.arr.set B.start eD).length = _
          rw [List.length_set]
        have hframe1 : ∀ j, ¬ j = B.start →
            ws1.arr.get? j = ws.arr.get? j := by
          intro j hj
          show (ws.arr.set B.start eD).get? j = _
          rw [List.get?_set_ne _ _ (by omega)]
        have hiplt : ws.insertPos ≤ ws1.insertPos := by
          show ws.insertPos ≤ ws.insertPos + joinerLen + rawLen eD
          rw [Nat.add_assoc]
          exact Nat.le_add_right _ _
        obtain ⟨ws2, hcd, hlen2, hframe2, hmain2, hip2, hid2, hpend2⟩ :=
          consumeDupes_spec rawLen hraw e0.node.value
            (ws1.arr.length - (B.start + 1)) (B.start + 1) jend
            (some B.start) ws1
            (by omega) (by rw [hlen1]; omega) rfl
            (by
              intro j2 h1 h2
              obtain ⟨e', he', hv', hl'⟩ := hdupentries j2 h1 h2
              exact ⟨e', by rw [hframe1 j2 (by omega)]; exact he', hv', hl'⟩)
            (by
              intro hjl
              rw [hlen1] at hjl
              obtain ⟨e', he', hne⟩ := hstopfact hjl
              exact ⟨e', by rw [hframe1 jend (by omega)]; exact he', hne⟩)
            (by
              intro pj hpj
              cases hpj
              exact ⟨by omega, by rw [hg1start]; rfl⟩)
        have hbody := writeLoopGo_step_dup rawLen f B.start ws e0 hws0
          hlvnil0 ws2 jend
          (if B.start + 1 = jend then some B.start else some (jend - 1))
          (by rw [hproc]; exact hcd)
        have hgB : ws2.arr.get? B.start = some eD := by
          rw [hframe2 B.start (Or.inl (by omega))]
          exact hg1start
        refine ⟨ws2, hbody, ?_, ?_, ?_, le_trans hiplt hip2, ?_, ?_, ?_, ?_⟩
        · rw [hlen2, hlen1, hlen]
        · intro j hj
          rcases hj with h | h
          · rw [hframe2 j (Or.inl (by omega)), hframe1 j (by omega)]
          · rw [hframe2 j (Or.inr (by omega)), hframe1 j (by omega)]
        · intro j h1 h2
          rw [hframe2 j (Or.inr h1), hframe1 j (by omega),
            huntouched j (by omega) h2]
        · intro j h1 h2
          by_cases hjs : j = B.start
          · subst hjs
            refine ⟨e0, eD, he0, hgB, rfl, rfl, le_refl _, ?_, ?_⟩
            · show ((ws.insertPos + joinerLen : Nat) : Int) < _
              have h8 : ws.insertPos + joinerLen < ws1.insertPos := by
                show ws.insertPos + joinerLen <
                  ws.insertPos + joinerLen + rawLen eD
                exact Nat.lt_add_of_pos_right (hraw eD)
              exact_mod_cast lt_of_lt_of_le h8 hip2
            · show e0.node.levels = _
              rw [hlvnil0]
              rfl
          · obtain ⟨d0, d, hws1d, hws2d, hptr, hnode, hlo, hhi, _, _, _⟩ :=
              hmain2 j (Nat.lt_of_le_of_ne h1 (fun h => hjs h.symm)) h2
            obtain ⟨d0', hwsd', _, hlvnil⟩ :=
              hdupentries j (Nat.lt_of_le_of_ne h1 (fun h => hjs h.symm)) h2
            rw [hframe1 j hjs] at hws1d
            rw [hws1d] at hwsd'
            cases hwsd'
            refine ⟨d0, d, ?_, hws2d, hptr, by rw [hnode], ?_, hhi, ?_⟩
            · rw [← huntouched j h1 (lt_of_lt_of_le h2 hle)]
              exact hws1d
            · refine le_trans ?_ hlo
              exact_mod_cast Nat.add_le_add_right hiplt joinerLen
            · rw [hnode, hlvnil]
              rfl
        · unfold blockLinks
          rw [if_neg hF]
          refine ⟨?_, ?_⟩
          · intro e0x e he0x he
            rw [he0] at he0x
            cases he0x
            rw [hgB] at he
            cases he
            rfl
          · intro j hj1 hj2 e ep he hep
            obtain ⟨d0, d, hws1d, hws2d, _, _, _, _, hfirst, hchain, _⟩ :=
              hmain2 j (by omega) (by omega)
            rw [hws2d] at he
            cases he
            by_cases hj1' : j = B.start + 1
            · subst hj1'
              rcases hfirst rfl with ⟨hnone, _⟩ | ⟨pj, pe, hpj, hpe, hl⟩
              · exact Option.noConfusion hnone
              · cases hpj
                rw [hg1start] at hpe
                cases hpe
                have hep2 : ws2.arr.get? B.start = some ep := hep
                rw [hgB] at hep2
                cases hep2
                exact hl
            · exact hchain (by omega) ep hep
        · rw [hbi]
          refine List.pairwise_cons.mpr ⟨?_, ?_⟩
          · intro j1 hm1 e1 e2 he1 he2
            rw [List.mem_range'_1] at hm1
            rw [hgB] at he1
            cases he1
            obtain ⟨d0, d, hws1d, hws2d, _, _, hlo, _, _, _, _⟩ :=
              hmain2 j1 (by omega) (by omega)
            rw [hws2d] at he2
            cases he2
            have h9 : ws.insertPos < ws1.insertPos := by
              show ws.insertPos < ws.insertPos + joinerLen + rawLen eD
              have h10 := hraw eD
              unfold joinerLen
              omega
            refine lt_of_lt_of_le ?_ hlo
            show ((ws.insertPos + joinerLen : Nat) : Int) <
              ((ws1.insertPos + joinerLen : Nat) : Int)
            exact_mod_cast Nat.add_lt_add_right h9 joinerLen
          · refine List.Pairwise.imp_of_mem ?_
              (List.pairwise_lt_range' (B.start + 1) L)
            intro j1 j2 hm1 hm2 hlt e1 e2 he1 he2
            rw [List.mem_range'_1] at hm1 hm2
            obtain ⟨d0, d, hws1d, hws2d, _, _, _, _, _, _, hord⟩ :=
              hmain2 j2 (by omega) (by omega)
            rw [hws2d] at he2
            cases he2
            exact hord j1 (by omega) hlt e1 he1
        · rw [hpend2]
          show (ws.pendingIdx ++ [B.start]) ++ _ = _
          rw [show jend - (B.start + 1) = L from by omega,
            List.append_assoc, hbi]
          rfl
    obtain ⟨ws4, hb1, hb2, hb3, hb4, hb5, hb6, hb7, hb8, hb9⟩ := hstep
    have hfuelrest : rest.length ≤ f := by
      simp only [List.length_cons] at hfuel
      omega
    obtain ⟨ws', hw1, hw2, hw3, hw4, hw5, hw6, hw7, hw8⟩ :=
      ih f jend ws4 hwfrest hfuelrest hb2 hb4
        (fun B2 hB2 => hfresh B2 (List.mem_cons_of_mem _ hB2))
        (fun B2 hB2 => hslots B2 (List.mem_cons_of_mem _ hB2))
    have hframe' : ∀ j, j < jend → ws'.arr.get? j = ws4.arr.get? j := by
      intro j hj
      exact hw3 j (Or.inl hj)
    refine ⟨ws', by rw [hb1, hw1], hw2, ?_, le_trans hb5 hw4, ?_, ?_, ?_, ?_⟩
    · intro j hj
      rcases hj with h | h
      · rw [hw3 j (Or.inl (by omega)), hb3 j (Or.inl h)]
      · rw [hw3 j (Or.inr h), hb3 j (Or.inr h)]
    · intro j h1 h2
      by_cases hjb : j < jend
      · obtain ⟨e0x, e, he0x, he, hp, hv, hpos1, hpos2, hlvE⟩ :=
          hb6 j h1 hjb
        refine ⟨e0x, e, he0x, by rw [ hframe' j hjb]; exact he, hp, hv,
          hpos1, lt_of_lt_of_le hpos2 (by exact_mod_cast hw4), ?_⟩
        rw [hlvE]
        refine List.map_congr_left ?_
        intro p hp2
        by_cases hneg : p < 0
        · rw [if_pos hneg, if_pos hneg]
          have hcases := hdups j h1 hjb
          rcases hcases with ⟨hFr, hjs⟩ | hnil
          · subst hjs
            have ht : p.natAbs - 1 < B.start := by
              refine hslots B (List.mem_cons_self _ _) hFr p ?_ hneg
              rw [ent_eq (show getRef m (Ref.new B.start) = some e0x
                from he0x)]
              exact hp2
            rw [ hframe' _ (by omega)]
          · exfalso
            rw [ent_eq (show getRef m (Ref.new j) = some e0x from he0x)]
              at hnil
            rw [hnil] at hp2
            simp at hp2
        · rw [if_neg hneg, if_neg hneg]
      · obtain ⟨e0x, e, he0x, he, hp, hv, hpos1, hpos2, hlvE⟩ :=
          hw5 j (by omega) h2
        refine ⟨e0x, e, he0x, he, hp, hv, ?_, hpos2, hlvE⟩
        have h6 : ((ws4.insertPos + joinerLen : Nat) : Int) ≤ e.position :=
          hpos1
        have h5 := hb5
        push_cast at h6 ⊢
        omega
    · intro B2 hB2
      rcases List.mem_cons.mp hB2 with rfl | hB2r
      · refine blockLinks_frame m ws4 ws' B2 ?_ hlenB hb7
        intro j hj1 hj2
        exact hframe' j (by omega)
      · exact hw6 B2 hB2r
    · rw [show (B :: rest).bind blockIdxs
        = blockIdxs B ++ rest.bind blockIdxs from rfl]
      rw [List.pairwise_append]
      refine ⟨?_, hw7, ?_⟩
      · refine List.Pairwise.imp_of_mem ?_ hb8
        intro j1 j2 hm1 hm2 hlt
        intro e1 e2 he1 he2
        have hj1b := blockIdxs_mem_bounds B j1 hm1 hlenB
        have hj2b := blockIdxs_mem_bounds B j2 hm2 hlenB
        rw [ hframe' j1 (by omega)] at he1
        rw [ hframe' j2 (by omega)] at he2
        exact hlt e1 e2 he1 he2
      · intro j1 hm1 j2 hm2
        intro e1 e2 he1 he2
        have hj1b := blockIdxs_mem_bounds B j1 hm1 hlenB
        have hj2b : jend ≤ j2 ∧ j2 < m.inserts.length := by
          obtain ⟨B2, hB2, hjB2⟩ := List.mem_bind.mp hm2
          have hbb := BlocksWF_bounds hwfrest B2 hB2
          have := blockIdxs_mem_bounds B2 j2 hjB2 hbb.2.1
          omega
        obtain ⟨e0x, e1x, he0x, he1x, _, _, _, hpos2, _⟩ :=
          hb6 j1 hj1b.1 hj1b.2
        rw [ hframe' j1 (by omega)] at he1
        rw [he1x] at he1
        cases he1
        obtain ⟨e0y, e2y, he0y, he2y, _, _, hpos1y, _, _⟩ :=
          hw5 j2 (by omega) hj2b.2
        rw [he2y] at he2
        cases he2
        push_cast at hpos1y hpos2 ⊢
        omega
    · rw [hw8, hb9, List.append_assoc]
      rfl

end WriteBlocks

/-! ## The traversal phase: processing a sorted batch run by run -/

section PhaseLemmas

variable {V : Type} [LinearOrder V] [Inhabited V]

theorem insertPhase_cons (fuel : Nat) (of : ObjField V) (lvl : Nat)
    (rest : List (ObjField V × Nat)) (m : Mem V) (ups : List Ref) :
    insertPhase fuel ((of, lvl) :: rest) m ups =
      match indexObjectField m of lvl fuel with
      | none => none
      | some (m2, entries) =>
        insertPhase fuel rest m2 (entries.foldl (fun acc r =>
          match getRef m2 r with
          | some e => if 0 < e.position ∧ r ∉ acc then acc ++ [r] else acc
          | none => acc) ups) := rfl

theorem insertPhase_append (fuel : Nat) (A B : List (ObjField V × Nat)) :
    ∀ (m : Mem V) (ups : List Ref),
    insertPhase fuel (A ++ B) m ups =
      match insertPhase fuel A m ups with
      | none => none
      | some (m2, ups2) => insertPhase fuel B m2 ups2 := by
  induction A with
  | nil => intro m ups; rfl
  | cons x rest ih =>
    intro m ups
    obtain ⟨of, lvl⟩ := x
    rw [List.cons_append, insertPhase_cons, insertPhase_cons]
    cases indexObjectField m of lvl fuel with
    | none => rfl
    | some p =>
      obtain ⟨m2, entries⟩ := p
      exact ih m2 _

/-- The `updates.set` fold of `insertPhase`: the accumulator grows by
appending, keeps no duplicates, and collects exactly the positive-position
entries among those offered. -/
theorem upsFold_spec (m2 : Mem V) (entries : List Ref) :
    ∀ (ups : List Ref),
    (∃ extra, entries.foldl (fun acc r =>
        match getRef m2 r with
        | some e => if 0 < e.position ∧ r ∉ acc then acc ++ [r] else acc
        | none => acc) ups = ups ++ extra ∧ ∀ r ∈ extra,
      r ∈ entries ∧ ∃ e, getRef m2 r = some e ∧ 0 < e.position) ∧
    (ups.Nodup → (entries.foldl (fun acc r =>
        match getRef m2 r with
        | some e => if 0 < e.position ∧ r ∉ acc then acc ++ [r] else acc
        | none => acc) ups).Nodup) ∧
    (∀ r, r ∈ entries.foldl (fun acc r =>
        match getRef m2 r with
        | some e => if 0 < e.position ∧ r ∉ acc then acc ++ [r] else acc
        | none => acc) ups →
      r ∈ ups ∨ (r ∈ entries ∧ ∃ e, getRef m2 r = some e ∧ 0 < e.position)) ∧
    (∀ r ∈ entries, ∀ e, getRef m2 r = some e → 0 < e.position →
      r ∈ entries.foldl (fun acc r =>
        match getRef m2 r with
        | some e => if 0 < e.position ∧ r ∉ acc then acc ++ [r] else acc
        | none => acc) ups) := by
  induction entries with
  | nil =>
    intro ups
    refine ⟨⟨[], (List.append_nil _).symm, fun r hr => absurd hr
      (List.not_mem_nil r)⟩, fun h => h, ?_, ?_⟩
    · intro r hr
      exact Or.inl hr
    · intro r hr
      cases hr
  | cons a as ih =>
    intro ups
    rw [List.foldl_cons]
    set acc1 := (match getRef m2 a with
      | some e => if 0 < e.position ∧ a ∉ ups then ups ++ [a] else ups
      | none => ups) with hacc1
    have hsplit : (∃ e, getRef m2 a = some e ∧ 0 < e.position ∧ a ∉ ups ∧
        acc1 = ups ++ [a]) ∨
        (acc1 = ups ∧ (∀ e, getRef m2 a = some e → 0 < e.position →
          a ∈ ups)) := by
      rw [hacc1]
      cases hg : getRef m2 a with
      | none =>
        right
        refine ⟨rfl, ?_⟩
        intro e he hpe
        exact Option.noConfusion he
      | some e =>
        by_cases hc : 0 < e.position ∧ a ∉ ups
        · left
          refine ⟨e, rfl, hc.1, hc.2, ?_⟩
          show (if 0 < e.position ∧ a ∉ ups then ups ++ [a] else ups)
            = ups ++ [a]
          rw [if_pos hc]
        · right
          refine ⟨?_, ?_⟩
          · show (if 0 < e.position ∧ a ∉ ups then ups ++ [a] else ups)
              = ups
            rw [if_neg hc]
          · intro e' he' hpe'
            cases he'
            by_contra hna
            exact hc ⟨hpe', hna⟩
    obtain ⟨hex, hnd, hmem, hcom⟩ := ih acc1
    rcases hsplit with ⟨e, hg, hpe, hna, heq⟩ | ⟨heq, himp⟩
    · refine ⟨?_, ?_, ?_, ?_⟩
      · obtain ⟨extra, hx, hprop⟩ := hex
        refine ⟨[a] ++ extra, by rw [hx, heq, List.append_assoc], ?_⟩
        intro r hr
        rcases List.mem_append.mp hr with h2 | h2
        · rw [List.mem_singleton] at h2
          subst h2
          exact ⟨List.mem_cons_self _ _, e, hg, hpe⟩
        · obtain ⟨hm, e2, hg2, hp2⟩ := hprop r h2
          exact ⟨List.mem_cons_of_mem _ hm, e2, hg2, hp2⟩
      · intro hnd0
        refine hnd ?_
        rw [heq]
        refine List.Nodup.append hnd0 (List.nodup_singleton a) ?_
        intro x hx hx2
        rw [List.mem_singleton] at hx2
        subst hx2
        exact hna hx
      · intro r hr
        rcases hmem r hr with h | ⟨h1, h2⟩
        · rw [heq, List.mem_append] at h
          rcases h with h | h
          · exact Or.inl h
          · rw [List.mem_singleton] at h
            subst h
            exact Or.inr ⟨List.mem_cons_self _ _, e, hg, hpe⟩
        · exact Or.inr ⟨List.mem_cons_of_mem _ h1, h2⟩
      · intro r hr e' he' hpe'
        rcases List.mem_cons.mp hr with h | h
        · subst h
          obtain ⟨extra, hx, _⟩ := hex
          rw [hx, heq]
          exact List.mem_append_left _ (List.mem_append_right _
            (List.mem_singleton_self _))
        · exact hcom r h e' he' hpe'
    · refine ⟨?_, ?_, ?_, ?_⟩
      · obtain ⟨extra, hx, hprop⟩ := hex
        refine ⟨extra, by rw [hx, heq], ?_⟩
        intro r hr
        obtain ⟨hm, e2, hg2, hp2⟩ := hprop r hr
        exact ⟨List.mem_cons_of_mem _ hm, e2, hg2, hp2⟩
      · intro hnd0
        refine hnd ?_
        rw [heq]
        exact hnd0
      · intro r hr
        rcases hmem r hr with h | ⟨h1, h2⟩
        · rw [heq] at h
          exact Or.inl h
        · exact Or.inr ⟨List.mem_cons_of_mem _ h1, h2⟩
      · intro r hr e' he' hpe'
        rcases List.mem_cons.mp hr with h | h
        · subst h
          obtain ⟨extra, hx, _⟩ := hex
          rw [hx, heq]
          exact List.mem_append_left _ (himp e' he' hpe')
        · exact hcom r h e' he' hpe'

/-- Processing a run of same-value objects when the value already has a
chain entry `pr`: each object becomes a duplicate pushed onto `pr`'s chain.
The new entries occupy `inserts[k..k+len)`, each with empty levels and the
run's value; the first keeps `pr`'s old link and the rest chain backwards;
`pr` ends linked to the last new entry. -/
theorem insertRunDup_spec {hp apos : Nat} (fuel : Nat) (v : V) (pr : Ref)
    (C : List Ref) :
    ∀ (items : List (ObjField V × Nat)) (m : Mem V)
      (D : Ref → List Ref) (ups : List Ref),
    Inv hp apos m C D →
    (∀ it ∈ items, it.1.value = v) →
    C.length < fuel →
    pr ∈ C → mval m pr = v →
    ∃ m' ups',
      insertPhase fuel items m ups = some ( m', ups') ∧
      m'.inserts.length = m.inserts.length + items.length ∧
      m'.head = m.head ∧
      m'.base = m.base ∧
      (∀ r, r ≠ pr → (∀ j, m.inserts.length ≤ j → r ≠ Ref.new j) →
        getRef m' r = getRef m r) ∧
      (∀ t of lvl, items.get? t = some (of, lvl) →
        getRef m' (Ref.new (m.inserts.length + t)) = some
          ⟨-(m.inserts.length + t + 1 : Int), of.position,
           (if t = 0 then mlink m pr
            else -(m.inserts.length + t : Int)),
           ⟨[], v⟩⟩) ∧
      (∃ prE, getRef m pr = some prE ∧
        getRef m' pr = some { prE with link :=
          (if items.length = 0 then prE.link
           else -(m.inserts.length + items.length : Int)) }) ∧
      Inv hp apos m' C (fun r => if r = pr then
        (List.range' m.inserts.length items.length).reverse.map Ref.new
          ++ D pr else D r) ∧
      (contents m' C (fun r => if r = pr then
          (List.range' m.inserts.length items.length).reverse.map Ref.new
            ++ D pr else D r)).Perm
        (items.map (fun it => (v, it.1.position)) ++ contents m C D) ∧
      (∃ extra, ups' = ups ++ extra ∧ ∀ r ∈ extra,
        r = pr ∧ 0 < (ent m pr).position) ∧
      (ups.Nodup → ups'.Nodup) ∧
      (∀ e, getRef m pr = some e → 0 < e.position → items.length ≠ 0 →
        pr ∈ ups') := by
  intro items
  induction items with
  | nil =>
    intro m D ups hInv hvals hfuel hpr hprv
    have hD' : (fun r => if r = pr then
        (List.range' m.inserts.length ([] : List (ObjField V × Nat)).length).reverse.map Ref.new
          ++ D pr else D r) = D := by
      funext r
      by_cases h : r = pr
      · subst h
        simp [List.range'_zero]
      · rw [if_neg h]
    obtain ⟨prE, hprE⟩ := Option.isSome_iff_exists.mp
      (refValid_isSome m pr (Inv_cvalid hInv pr hpr))
    refine ⟨m, ups, rfl, rfl, rfl, rfl, fun _ _ _ => rfl, ?_, ?_, ?_, ?_,
      ?_, fun h => h, ?_⟩
    · intro t of lvl h
      cases h
    · exact ⟨prE, hprE, hprE⟩
    · rw [ hD']
      exact hInv
    · rw [ hD']
      exact List.Perm.refl _
    · exact ⟨[], (List.append_nil _).symm, fun r hr => absurd hr
        (List.not_mem_nil r)⟩
    · intro e _ _ h
      exact absurd rfl h
  | cons it rest ih =>
    intro m D ups hInv hvals hfuel hpr hprv
    obtain ⟨of, lvl⟩ := it
    have hv0 : of.value = v := hvals (of, lvl) (List.mem_cons_self _ _)
    set k := m.inserts.length with hk
    obtain ⟨m3, hrun, hlen3, hframe3, hgk3, hpos3, hhlv3,
        ⟨prevE, hprevE, hg3pr⟩, hbase3, hInv3, hperm3⟩ :=
      indexObjectField_dup hInv of lvl fuel hfuel pr hpr
        (by rw [hprv, hv0])
    have hprval : refValid m pr := Inv_cvalid hInv pr hpr
    have hprhd : pr ≠ Ref.hd := by
      intro h
      rw [h] at hprval
      cases hprval
    have hprnew : ∀ j, k ≤ j → pr ≠ Ref.new j := by
      intro j hj h
      rw [h] at hprval
      simp only [refValid] at hprval
      omega
    have hhead3 : m3.head = m.head := by
      have := hframe3 Ref.hd (fun h => hprhd h.symm)
        (fun h => Ref.noConfusion h)
      simp only [getRef] at this
      exact Option.some.inj this
    have hval3 : mval m3 pr = v := by
      unfold mval
      rw [ent_eq hg3pr]
      show prevE.node.value = v
      rw [← hprv]
      unfold mval
      rw [ent_eq hprevE]
    set D3 : Ref → List Ref := fun r => if r = pr then
      Ref.new k :: D pr else D r with hD3
    set ups1 : List Ref := if 0 < prevE.position ∧ pr ∉ ups then
      ups ++ [pr] else ups with hups1
    have hfold : ([pr] : List Ref).foldl (fun acc r =>
        match getRef m3 r with
        | some e => if 0 < e.position ∧ r ∉ acc then acc ++ [r] else acc
        | none => acc) ups = ups1 := by
      rw [List.foldl_cons, List.foldl_nil, hg3pr]
    have hups1sub : ∃ extra1, ups1 = ups ++ extra1 ∧ ∀ r ∈ extra1,
        r = pr ∧ 0 < prevE.position := by
      rw [hups1]
      by_cases h : 0 < prevE.position ∧ pr ∉ ups
      · rw [if_pos h]
        exact ⟨[pr], rfl, fun r hr => ⟨List.mem_singleton.mp hr, h.1⟩⟩
      · rw [if_neg h]
        exact ⟨[], (List.append_nil _).symm, fun r hr => absurd hr
          (List.not_mem_nil r)⟩
    have hups1nd : ups.Nodup → ups1.Nodup := by
      intro hnd
      rw [hups1]
      by_cases h : 0 < prevE.position ∧ pr ∉ ups
      · rw [if_pos h]
        refine List.Nodup.append hnd (List.nodup_singleton pr) ?_
        intro x hx hx2
        rw [List.mem_singleton] at hx2
        subst hx2
        exact h.2 hx
      · rw [if_neg h]
        exact hnd
    obtain ⟨m', ups', hrun', hlen', hhead', hbase', hframe', hnew', hprE',
        hInv', hperm', hupsub', hupnd', hupin'⟩ :=
      ih m3 D3 ups1 hInv3 (fun it2 h2 => hvals it2 (List.mem_cons_of_mem _ h2))
        hfuel hpr hval3
    obtain ⟨prE3, hprE3a, hprE3b⟩ := hprE'
    have hprE3eq : prE3 = { prevE with link := -(k + 1 : Int) } := by
      rw [hg3pr] at hprE3a
      exact (Option.some.inj hprE3a).symm
    have hDeq : (fun r => if r = pr then
        (List.range' m3.inserts.length rest.length).reverse.map Ref.new
          ++ D3 pr else D3 r) = (fun r => if r = pr then
        (List.range' m.inserts.length
          ((of, lvl) :: rest).length).reverse.map Ref.new
          ++ D pr else D r) := by
      funext r
      show (if r = pr then
          (List.range' m3.inserts.length rest.length).reverse.map Ref.new
            ++ D3 pr else D3 r) = (if r = pr then
          (List.range' m.inserts.length
            ((of, lvl) :: rest).length).reverse.map Ref.new
            ++ D pr else D r)
      by_cases h : r = pr
      · rw [if_pos h, if_pos h]
        simp only [hD3]
        rw [hlen3]
        simp only [List.length_cons]
        rw [List.range'_succ, List.reverse_cons, List.map_append,
          List.append_assoc]
        rfl
      · rw [if_neg h, if_neg h]
        simp only [hD3]
        rw [if_neg h]
    refine ⟨m', ups', ?_, ?_, ?_, ?_, ?_, ?_, ?_, ?_, ?_, ?_, ?_, ?_⟩
    · rw [insertPhase_cons, hrun]
      show insertPhase fuel rest m3 _ = some ( m', ups')
      rw [hfold]
      exact hrun'
    · rw [ hlen', hlen3]
      simp only [List.length_cons]
      omega
    · rw [ hhead', hhead3]
    · rw [ hbase', hbase3]
    · intro r h1 h2
      rw [ hframe' r h1 (fun j hj => h2 j (by rw [hlen3] at hj; omega)),
        hframe3 r h1 (h2 k (le_refl _))]
    · intro t of2 lvl2 hget
      cases t with
      | zero =>
        have h5 : ((of, lvl) : ObjField V × Nat) = (of2, lvl2) := by
          rw [List.get?_cons_zero] at hget
          exact Option.some.inj hget
        cases h5
        have h6 := hframe' (Ref.new k) (fun h => hprnew k (le_refl _) h.symm)
          (fun j hj h => by
            have := Ref.noConfusion h (fun hjk => hjk)
            rw [hlen3] at hj
            omega)
        rw [show m.inserts.length + 0 = k from rfl, h6, hgk3, hv0]
        rfl
      | succ s =>
        have hget2 : rest.get? s = some (of2, lvl2) := hget
        have h7 := hnew' s of2 lvl2 hget2
        rw [hlen3] at h7
        rw [show m.inserts.length + (s + 1) = m.inserts.length + 1 + s
          from by omega, h7]
        show some _ = some _
        congr 1
        simp only [IdxEntry.mk.injEq, SkipNode.mk.injEq, and_true, true_and]
        refine ⟨by push_cast; ring, ?_⟩
        cases s with
        | zero =>
          rw [if_pos rfl, if_neg (by omega)]
          unfold mlink
          rw [ent_eq hg3pr]
          show -(k + 1 : Int) = _
          push_cast
          ring
        | succ s2 =>
          rw [if_neg (by omega), if_neg (by omega)]
          push_cast
          ring
    · refine ⟨prevE, hprevE, ?_⟩
      rw [hprE3b, hprE3eq]
      simp only [List.length_cons]
      by_cases hr0 : rest.length = 0
      · rw [if_pos hr0, if_neg (by omega), hr0]
        rfl
      · rw [if_neg hr0, if_neg (by omega), hlen3]
        show some _ = some _
        congr 1
        simp only [IdxEntry.mk.injEq, and_true, true_and]
        push_cast
        ring
    · rw [← hDeq]
      exact hInv'
    · rw [← hDeq]
      refine ( hperm'.trans ?_)
      simp only [List.map_cons, List.length_cons]
      refine ((hperm3.append_left (List.map _ rest)).trans ?_)
      rw [hv0]
      exact List.perm_middle
    · obtain ⟨extra1, he1, hp1⟩ := hups1sub
      obtain ⟨extra2, he2, hp2⟩ := hupsub'
      refine ⟨extra1 ++ extra2, ?_, ?_⟩
      · rw [he2, he1, List.append_assoc]
      · intro r hr
        rcases List.mem_append.mp hr with h | h
        · refine ⟨(hp1 r h).1, ?_⟩
          rw [ent_eq hprevE]
          exact (hp1 r h).2
        · refine ⟨(hp2 r h).1, ?_⟩
          have h9 := (hp2 r h).2
          rw [ent_eq hg3pr] at h9
          rw [ent_eq hprevE]
          exact h9
    · intro hnd
      exact hupnd' (hups1nd hnd)
    · intro e hge hpe _
      rw [hprevE] at hge
      cases hge
      have hin1 : pr ∈ ups1 := by
        rw [hups1]
        by_cases h : pr ∈ ups
        · by_cases h2 : 0 < prevE.position ∧ pr ∉ ups
          · rw [if_pos h2]
            exact List.mem_append_left _ h
          · rw [if_neg h2]
            exact h
        · rw [if_pos ⟨hpe, h⟩]
          exact List.mem_append_right _ (List.mem_singleton_self _)
      obtain ⟨extra2, he2, _⟩ := hupsub'
      rw [he2]
      exact List.mem_append_left _ hin1

/-- A predecessor is the header or a chain element of value at most `v`. -/
theorem predAt_cases2 (m : Mem V) (C : List Ref) (v : V) (i : Nat) :
    predAt m C v i = Ref.hd ∨
      (predAt m C v i ∈ C ∧ mval m (predAt m C v i) ≤ v) := by
  cases hseg : seg m v (subLv m C i) with
  | nil =>
    left
    unfold predAt
    rw [hseg]
    rfl
  | cons b bs =>
    right
    have hmem : predAt m C v i ∈ seg m v (subLv m C i) :=
      predAt_mem_of_ne m C v i (by rw [hseg]; simp)
    refine ⟨(subLv_sublist m C i).mem (List.mem_of_mem_filter hmem), ?_⟩
    have := List.of_mem_filter hmem
    simpa using this

/-- A member of the collected predecessor list, for `i ≤ level`. -/
theorem revRangeMap_mem_intro (pf : Nat → Ref) (level i : Nat)
    (hi : i ≤ level) : pf i ∈ (List.range (level + 1)).reverse.map pf := by
  refine List.mem_map.mpr ⟨i, ?_, rfl⟩
  rw [List.mem_reverse, List.mem_range]
  omega

/-- Processing a run of same-value objects for a value not yet in the
chain: the first object is spliced in as a new leveled entry
`inserts[k]`, and the rest become its duplicates `inserts[k+1..]`. -/
theorem insertRunFresh_spec {hp apos : Nat} (fuel : Nat)
    (C : List Ref) (of : ObjField V) (lvl : Nat)
    (rest : List (ObjField V × Nat)) (m : Mem V) (D : Ref → List Ref)
    (ups : List Ref)
    (hInv : Inv hp apos m C D)
    (hvr : ∀ it ∈ rest, it.1.value = of.value)
    (hfuel : C.length + 1 < fuel)
    (hnot : of.value ∉ C.map (mval m))
    (hvh : of.value ≠ m.head.node.value) :
    ∃ m' ups' level,
      insertPhase fuel ((of, lvl) :: rest) m ups = some ( m', ups') ∧
      m'.inserts.length = m.inserts.length + (rest.length + 1) ∧
      m'.head.node.value = m.head.node.value ∧
      m'.base = m.base ∧
      Inv hp apos m'
        (seg m of.value C ++ Ref.new m.inserts.length ::
          C.dropWhile (fun r => decide (mval m r ≤ of.value)))
        (fun r => if r = Ref.new m.inserts.length then
          (List.range' (m.inserts.length + 1) rest.length).reverse.map
            Ref.new
          else D r) ∧
      (contents m'
          (seg m of.value C ++ Ref.new m.inserts.length ::
            C.dropWhile (fun r => decide (mval m r ≤ of.value)))
          (fun r => if r = Ref.new m.inserts.length then
            (List.range' (m.inserts.length + 1) rest.length).reverse.map
              Ref.new
            else D r)).Perm
        (((of, lvl) :: rest).map (fun it => (it.1.value, it.1.position))
          ++ contents m C D) ∧
      (∃ eK, getRef m' (Ref.new m.inserts.length) = some eK ∧
        eK.position = -(m.inserts.length + 1 : Int) ∧
        eK.pointer = of.position ∧
        eK.node.value = of.value ∧
        eK.node.levels.length = level + 1 ∧
        (∀ p ∈ eK.node.levels, p < 0 →
          p.natAbs - 1 < m.inserts.length) ∧
        eK.link = (if rest.length = 0 then 0
          else -(m.inserts.length + 1 + rest.length : Int))) ∧
      (∀ t of2 lvl2, rest.get? t = some (of2, lvl2) →
        getRef m' (Ref.new (m.inserts.length + 1 + t)) = some
          ⟨-(m.inserts.length + 1 + t + 1 : Int), of2.position,
           (if t = 0 then 0 else -(m.inserts.length + 1 + t : Int)),
           ⟨[], of.value⟩⟩) ∧
      (∀ r, r ≠ Ref.hd → (∀ j, m.inserts.length ≤ j → r ≠ Ref.new j) →
        ¬ mval m r ≤ of.value → getRef m' r = getRef m r) ∧
      (∀ r, (∀ j, m.inserts.length ≤ j → r ≠ Ref.new j) →
        (getRef m' r).isSome = (getRef m r).isSome ∧
        (ent m' r).position = (ent m r).position ∧
        (ent m' r).node.value = (ent m r).node.value) ∧
      (∃ extra, ups' = ups ++ extra ∧ ∀ r ∈ extra,
        (r = Ref.hd ∨ ∃ p, r = Ref.disk p) ∧ 0 < (ent m r).position) ∧
      (ups.Nodup → ups'.Nodup) ∧
      (∀ r, (r = Ref.hd ∨ ∃ p, r = Ref.disk p) → r ∉ ups' →
        getRef m' r = getRef m r) := by
  classical
  set k := m.inserts.length with hk
  obtain ⟨m1, level, hlev, hrun1, hlen1, hfld1, hframe1, hmemups, hsomeK,
      hposK, hptrK, hlinkK, hvalK, hlenK, hslotsK, hbase1, hInv1, hperm1⟩ :=
    indexObjectField_splice hInv of lvl fuel (by omega) hvh hnot
  set C1 : List Ref := seg m of.value C ++ Ref.new k ::
    C.dropWhile (fun r => decide (mval m r ≤ of.value)) with hC1
  set D1 : Ref → List Ref := fun r => if r = Ref.new k then [] else D r
    with hD1
  set pf : Nat → Ref := predAt m C of.value with hpf
  set upsL : List Ref := (List.range (level + 1)).reverse.map pf
    with hupsL
  have hC1len : C1.length = C.length + 1 := by
    rw [hC1]
    rw [List.length_append, List.length_cons]
    have hsegtake : seg m of.value C =
        C.takeWhile (fun r => decide (mval m r ≤ of.value)) :=
      sorted_filter_eq_takeWhile (mval m) of.value C hInv.sorted
    rw [hsegtake]
    have := congrArg List.length
      (List.takeWhile_append_dropWhile
        (p := fun r => decide (mval m r ≤ of.value)) (l := C))
    rw [List.length_append] at this
    omega
  have hmemk : Ref.new k ∈ C1 := by
    rw [hC1]
    exact List.mem_append_right _ (List.mem_cons_self _ _)
  have hvalk : mval m1 (Ref.new k) = of.value := hvalK
  set ups1 : List Ref := upsL.foldl (fun acc r =>
    match getRef m1 r with
    | some e => if 0 < e.position ∧ r ∉ acc then acc ++ [r] else acc
    | none => acc) ups with hups1
  obtain ⟨hex1, hnd1, hmem1, hcom1⟩ := upsFold_spec m1 upsL ups
  rw [← hups1] at hex1 hnd1 hmem1 hcom1
  obtain ⟨m', ups', hrun2, hlen2, hhead2, hbase2, hframe2, hnew2,
      ⟨prE, hprEa, hprEb⟩, hInv2, hperm2, hupsub2, hupnd2, hupin2⟩ :=
    insertRunDup_spec fuel of.value (Ref.new k) C1 rest m1 D1 ups1 hInv1
      hvr (by omega) hmemk hvalk
  have hprEfacts : prE = ent m1 (Ref.new k) := (ent_eq hprEa).symm
  have hDeq : (fun r => if r = Ref.new k then
      (List.range' m1.inserts.length rest.length).reverse.map Ref.new
        ++ D1 (Ref.new k) else D1 r) = (fun r => if r = Ref.new k then
      (List.range' (k + 1) rest.length).reverse.map Ref.new
      else D r) := by
    funext r
    show (if r = Ref.new k then
        (List.range' m1.inserts.length rest.length).reverse.map Ref.new
          ++ D1 (Ref.new k) else D1 r) = _
    by_cases h : r = Ref.new k
    · rw [if_pos h, if_pos h]
      simp only [hD1, if_true, List.append_nil]
      rw [hlen1]
    · rw [if_neg h, if_neg h]
      simp only [hD1]
      rw [if_neg h]
  refine ⟨m', ups', level, ?_, ?_, ?_, ?_, ?_, ?_, ?_, ?_, ?_, ?_, ?_,
    ?_, ?_⟩
  · rw [insertPhase_cons, hrun1]
    exact hrun2
  · rw [hlen2, hlen1]
    omega
  · rw [hhead2]
    have := (hfld1 Ref.hd (fun h => Ref.noConfusion h)).2.2.2.2
    simp only [ent, getRef] at this
    exact this
  · rw [hbase2, hbase1]
  · rw [← hDeq]
    exact hInv2
  · rw [← hDeq]
    refine hperm2.trans ?_
    refine (hperm1.append_left _).trans ?_
    simp only [List.map_cons]
    refine List.perm_middle.trans ?_
    refine List.Perm.cons _ (List.Perm.append_right _ ?_)
    refine List.Perm.of_eq ?_
    refine List.map_congr_left ?_
    intro it hit
    rw [hvr it hit]
  · refine ⟨{ prE with link :=
      (if rest.length = 0 then prE.link
       else -(m1.inserts.length + rest.length : Int)) }, hprEb,
      ?_, ?_, ?_, ?_, ?_, ?_⟩
    · show prE.position = _
      rw [hprEfacts]
      exact hposK
    · show prE.pointer = _
      rw [hprEfacts]
      exact hptrK
    · show prE.node.value = _
      rw [hprEfacts]
      exact hvalK
    · show prE.node.levels.length = _
      rw [hprEfacts]
      exact hlenK
    · intro p hp hneg
      refine hslotsK p ?_ hneg
      rw [← hprEfacts]
      exact hp
    · show (if rest.length = 0 then prE.link
        else -(m1.inserts.length + rest.length : Int)) = _
      by_cases h : rest.length = 0
      · rw [if_pos h, if_pos h, hprEfacts]
        exact hlinkK
      · rw [if_neg h, if_neg h, hlen1]
        push_cast
        ring
  · intro t of2 lvl2 hget
    have h7 := hnew2 t of2 lvl2 hget
    rw [hlen1] at h7
    rw [show (Ref.new (k + 1 + t)) = (Ref.new (m.inserts.length + 1 + t))
      from rfl, h7]
    show some _ = some _
    congr 1
    simp only [IdxEntry.mk.injEq, SkipNode.mk.injEq, and_true, true_and]
    constructor
    · push_cast
      ring
    · by_cases h : t = 0
      · rw [if_pos h, if_pos h]
        show mlink m1 (Ref.new k) = 0
        exact hlinkK
      · rw [if_neg h, if_neg h]
        push_cast
        ring
  · intro r h1 h2 h3
    have hr1 : getRef m' r = getRef m1 r :=
      hframe2 r (h2 k (le_refl _)) (fun j hj => h2 j (by omega))
    rw [hr1]
    refine hframe1 r (h2 k (le_refl _)) ?_
    intro i hi hpr
    rcases predAt_cases2 m C of.value i with hc | ⟨hc, hle⟩
    · rw [← hpf] at hc
      rw [hpr] at hc
      exact h1 hc
    · rw [← hpf] at hle
      rw [hpr] at hle
      exact h3 hle
  · intro r h2
    have hr1 : getRef m' r = getRef m1 r :=
      hframe2 r (h2 k (le_refl _)) (fun j hj => h2 j (by omega))
    have hf := hfld1 r (h2 k (le_refl _))
    refine ⟨?_, ?_, ?_⟩
    · rw [hr1]
      exact hf.1
    · show (ent m' r).position = _
      unfold ent
      rw [hr1]
      exact hf.2.1
    · show (ent m' r).node.value = _
      unfold ent
      rw [hr1]
      exact hf.2.2.2.2
  · obtain ⟨extraA, heA, hpA⟩ := hex1
    obtain ⟨extraB, heB, hpB⟩ := hupsub2
    refine ⟨extraA ++ extraB, by rw [heB, heA, List.append_assoc], ?_⟩
    intro r hr
    rcases List.mem_append.mp hr with h | h
    · obtain ⟨hinL, e, hge, hpe⟩ := hpA r h
      rcases revRangeMap_mem pf level r hinL with ⟨i, hi, hri⟩
      rcases predAt_cases2 m C of.value i with hc | ⟨hc, _⟩
      all_goals rw [← hpf] at hc
      · refine ⟨Or.inl (by rw [hri]; exact hc), ?_⟩
        rw [hri, hc]
        show 0 < m.head.position
        rw [hInv.headPos]
        exact_mod_cast hInv.hpPos
      · have hvld := Inv_cvalid hInv _ hc
        cases hrc : pf i with
        | hd =>
          rw [hrc] at hvld
          cases hvld
        | disk q =>
          refine ⟨Or.inr ⟨q, by rw [hri, hrc]⟩, ?_⟩
          rw [hri, hrc]
          rw [hrc] at hvld
          obtain ⟨e2, he2⟩ := Option.isSome_iff_exists.mp hvld.2
          rw [ent_eq he2, getRef_disk_position hInv q e2 he2]
          exact_mod_cast hvld.1
        | new j =>
          exfalso
          have hrj : r = Ref.new j := by rw [hri, hrc]
          rw [hrc] at hvld
          have hjk : j < k := hvld
          have hne : Ref.new j ≠ Ref.new k := by
            intro hcon
            have : j = k := Ref.noConfusion hcon (fun h => h)
            omega
          have hfr := (hfld1 (Ref.new j) hne).2.1
          rw [hrj] at hge
          rw [ent_eq hge] at hfr
          obtain ⟨e3, he3⟩ := Option.isSome_iff_exists.mp
            (refValid_isSome m (Ref.new j) (by
              rw [← hrc]
              exact Inv_cvalid hInv _ hc))
          have hpos := hInv.posNew j e3 he3
          rw [ent_eq he3, hpos] at hfr
          rw [hfr] at hpe
          omega
    · exfalso
      have h5 := hpB r h
      have h6 := h5.2
      rw [ent_eq hprEa] at h6
      rw [hprEfacts, hposK] at h6
      omega
  · intro hnd
    exact hupnd2 (hnd1 hnd)
  · intro r hdisk hnot'
    have hnotin1 : r ∉ ups1 := by
      intro hin
      obtain ⟨extraB, heB, _⟩ := hupsub2
      exact hnot' (by rw [heB]; exact List.mem_append_left _ hin)
    have hrnew : ∀ j, r ≠ Ref.new j := by
      intro j h
      rcases hdisk with h2 | ⟨p, h2⟩ <;> rw [h2] at h <;> cases h
    have hr1 : getRef m' r = getRef m1 r :=
      hframe2 r (hrnew k) (fun j _ => hrnew j)
    rw [hr1]
    refine hframe1 r (hrnew k) ?_
    intro i hi hpr
    -- a collected predecessor with positive position would be in ups1
    have hinL : r ∈ upsL := by
      rw [hupsL, ← hpr]
      exact revRangeMap_mem_intro pf level i hi
    rcases hdisk with h2 | ⟨p, h2⟩
    · subst h2
      refine hnotin1 (hcom1 Ref.hd hinL (ent m1 Ref.hd) ?_ ?_)
      · show some m1.head = some _
        rfl
      · have := (hfld1 Ref.hd (fun h => Ref.noConfusion h)).2.1
        show 0 < (ent m1 Ref.hd).position
        rw [this]
        show 0 < m.head.position
        rw [hInv.headPos]
        exact_mod_cast hInv.hpPos
    · subst h2
      rcases predAt_cases2 m C of.value i with hc | ⟨hc, _⟩
      all_goals rw [← hpf] at hc
      · rw [hpr] at hc
        cases hc
      · rw [hpr] at hc
        have hvld := Inv_cvalid hInv _ hc
        obtain ⟨e2, he2⟩ := Option.isSome_iff_exists.mp hvld.2
        have hs1 : (getRef m1 (Ref.disk p)).isSome := by
          rw [(hfld1 (Ref.disk p) (fun h => Ref.noConfusion h)).1]
          rw [he2]
          rfl
        obtain ⟨e3, he3⟩ := Option.isSome_iff_exists.mp hs1
        refine hnotin1 (hcom1 (Ref.disk p) hinL e3 he3 ?_)
        have := (hfld1 (Ref.disk p) (fun h => Ref.noConfusion h)).2.1
        rw [ent_eq he3, ent_eq he2] at this
        rw [this, getRef_disk_position hInv p e2 he2]
        exact_mod_cast hvld.1

theorem dropWhile_head_false {α : Type} (p : α → Bool) :
    ∀ (l : List α) (b : α) (bs : List α),
    l.dropWhile p = b :: bs → p b = false := by
  intro l
  induction l with
  | nil =>
    intro b bs h
    cases h
  | cons x xs ih =>
    intro b bs h
    rw [List.dropWhile_cons] at h
    by_cases px : p x = true
    · rw [if_pos px] at h
      exact ih b bs h
    · rw [if_neg px] at h
      cases h
      exact Bool.eq_false_iff.mpr px

/-- The traversal phase on a descending batch: the final memory satisfies
the invariant for an enlarged chain, the pending inserts decompose into
equal-value blocks, and the collected updates are exactly the touched
stored entries. -/
theorem insertPhase_blocks {hp apos : Nat} (fuel : Nat) :
    ∀ (N : Nat) (items : List (ObjField V × Nat)) (m : Mem V)
      (C : List Ref) (D : Ref → List Ref) (ups : List Ref),
    items.length ≤ N →
    Inv hp apos m C D →
    C.length + items.length < fuel →
    ((items.map (fun it => it.1.value)).Chain' (· ≥ ·)) →
    (∀ it ∈ items, it.1.value ≠ m.head.node.value) →
    (∀ r ∈ C, (∃ it ∈ items, mval m r = it.1.value) →
      (∃ p, r = Ref.disk p) ∧ (∀ d ∈ D r, ∃ q, d = Ref.disk q)) →
    ∃ m' ups' C' D' blocks,
      insertPhase fuel items m ups = some ( m', ups') ∧
      m'.inserts.length = m.inserts.length + items.length ∧
      m'.head.node.value = m.head.node.value ∧
      m'.base = m.base ∧
      Inv hp apos m' C' D' ∧
      (∀ r ∈ C, r ∈ C') ∧
      (contents m' C' D').Perm
        (items.map (fun it => (it.1.value, it.1.position))
          ++ contents m C D) ∧
      BlocksWF m' C' D' m.inserts.length blocks ∧
      (∀ B ∈ blocks, B.isFresh = true →
        (ent m' (Ref.new B.start)).node.levels ≠ [] ∧
        (∀ p ∈ (ent m' (Ref.new B.start)).node.levels, p < 0 →
          p.natAbs - 1 < B.start)) ∧
      (∀ B ∈ blocks, ∃ it ∈ items, mval m' B.owner = it.1.value) ∧
      (∀ r, r ≠ Ref.hd → (∀ j, m.inserts.length ≤ j → r ≠ Ref.new j) →
        (∀ it ∈ items, ¬ mval m r ≤ it.1.value) →
        getRef m' r = getRef m r) ∧
      (∀ r, (∀ j, m.inserts.length ≤ j → r ≠ Ref.new j) →
        (getRef m' r).isSome = (getRef m r).isSome ∧
        (ent m' r).position = (ent m r).position ∧
        (ent m' r).node.value = (ent m r).node.value) ∧
      (∀ r, (∀ j, m.inserts.length ≤ j → r ≠ Ref.new j) →
        (∀ it ∈ items, mval m r ≠ it.1.value) → D' r = D r) ∧
      (∃ extra, ups' = ups ++ extra ∧ ∀ r ∈ extra,
        (r = Ref.hd ∨ ∃ p, r = Ref.disk p) ∧ 0 < (ent m r).position) ∧
      (ups.Nodup → ups'.Nodup) ∧
      (∀ r, (r = Ref.hd ∨ ∃ p, r = Ref.disk p) → r ∉ ups' →
        getRef m' r = getRef m r) := by
  classical
  intro N
  induction N with
  | zero =>
    intro items m C D ups hN hInv hfuel hsorted hvh hdisk
    have : items = [] := List.length_eq_zero.mp (by omega)
    subst this
    refine ⟨m, ups, C, D, [], rfl, by simp, rfl, rfl, hInv,
      fun r hr => hr, List.Perm.refl _, rfl, ?_, ?_, fun _ _ _ _ => rfl,
      fun _ _ => ⟨rfl, rfl, rfl⟩, fun _ _ _ => rfl,
      ⟨[], (List.append_nil _).symm, fun r hr => absurd hr
        (List.not_mem_nil r)⟩, fun h => h, fun _ _ _ => rfl⟩
    · intro B hB
      cases hB
    · intro B hB
      cases hB
  | succ N ih =>
    intro items m C D ups hN hInv hfuel hsorted hvh hdisk
    cases items with
    | nil =>
      refine ⟨m, ups, C, D, [], rfl, by simp, rfl, rfl, hInv,
        fun r hr => hr, List.Perm.refl _, rfl, ?_, ?_, fun _ _ _ _ => rfl,
        fun _ _ => ⟨rfl, rfl, rfl⟩, fun _ _ _ => rfl,
        ⟨[], (List.append_nil _).symm, fun r hr => absurd hr
          (List.not_mem_nil r)⟩, fun h => h, fun _ _ _ => rfl⟩
      · intro B hB
        cases hB
      · intro B hB
        cases hB
    | cons it0 tail =>
      obtain ⟨of, lvl⟩ := it0
      set v := of.value with hv
      set run : List (ObjField V × Nat) :=
        tail.takeWhile (fun it => decide (it.1.value = v)) with hrun
      set rem : List (ObjField V × Nat) :=
        tail.dropWhile (fun it => decide (it.1.value = v)) with hrem
      have htail : tail = run ++ rem := by
        rw [hrun, hrem, List.takeWhile_append_dropWhile]
      have hrunvals : ∀ it ∈ run, it.1.value = v := by
        intro it hit
        rw [hrun] at hit
        have := List.mem_takeWhile_imp hit
        exact of_decide_eq_true this
      have hpw : ((of, lvl) :: tail).Pairwise
          (fun a b => a.1.value ≥ b.1.value) := by
        have h1 := List.chain'_iff_pairwise.mp hsorted
        have h2 := (List.pairwise_map).mp h1
        exact h2
      have htailv : ∀ it ∈ tail, it.1.value ≤ v := by
        intro it hit
        exact List.rel_of_pairwise_cons hpw hit
      have hremlt : ∀ it ∈ rem, it.1.value < v := by
        intro it hit
        cases hremc : rem with
        | nil =>
          rw [hremc] at hit
          cases hit
        | cons b bs =>
          have hbf : decide (b.1.value = v) = false :=
            dropWhile_head_false _ tail b bs (by rw [← hrem, ← hremc])
          have hbne : b.1.value ≠ v := of_decide_eq_false hbf
          have hble : b.1.value ≤ v := htailv b (by
            rw [htail, hremc]
            exact List.mem_append_right _ (List.mem_cons_self _ _))
          have hblt : b.1.value < v := lt_of_le_of_ne hble hbne
          rw [hremc] at hit
          rcases List.mem_cons.mp hit with h | h
          · rw [h]
            exact hblt
          · -- later members are at most b
            have hsub : (b :: bs).Sublist tail := by
              rw [← hremc, hrem]
              exact List.dropWhile_sublist _
            have hpw2 : (b :: bs).Pairwise
                (fun a c => a.1.value ≥ c.1.value) :=
              ((List.pairwise_cons.mp hpw).2).sublist hsub
            have := List.rel_of_pairwise_cons hpw2 h
            exact lt_of_le_of_lt this hblt
      have hremlen : rem.length ≤ N := by
        have h1 : rem.length ≤ tail.length :=
          (hrem ▸ List.dropWhile_sublist _).length_le
        have h2 : tail.length = ((of, lvl) :: tail).length - 1 := by
          simp
        omega
      have hremsorted : ((rem.map (fun it => it.1.value)).Chain'
          (· ≥ ·)) := by
        rw [List.chain'_iff_pairwise]
        refine List.pairwise_map.mpr ?_
        have hsub : rem.Sublist tail := hrem ▸ List.dropWhile_sublist _
        exact ((List.pairwise_cons.mp hpw).2).sublist hsub
      have hlenitems : ((of, lvl) :: tail).length
          = 1 + run.length + rem.length := by
        rw [List.length_cons, htail, List.length_append]
        omega
      have hsplitPhase : ∀ (mx : Mem V) (upsx : List Ref),
          insertPhase fuel ((of, lvl) :: tail) m ups =
            match insertPhase fuel ((of, lvl) :: run) m ups with
            | none => none
            | some (m2, ups2) => insertPhase fuel rem m2 ups2 := by
        intro _ _
        rw [show ((of, lvl) :: tail) = ((of, lvl) :: run) ++ rem from by
          rw [htail]; rfl]
        exact insertPhase_append fuel ((of, lvl) :: run) rem m ups
      by_cases hex : v ∈ C.map (mval m)
      · -- the value already has a chain entry: a pure duplicate run
        obtain ⟨pr, hprC, hprv⟩ := List.mem_map.mp hex
        obtain ⟨⟨p0, hprdisk⟩, hDdisk⟩ := hdisk pr hprC
          ⟨(of, lvl), List.mem_cons_self _ _, hprv⟩
        obtain ⟨m1, ups1, hrunE, hlen1, hhead1, hbase1, hframe1, hnew1,
            ⟨prE, hprEa, hprEb⟩, hInv1, hperm1, hupsub1, hupnd1, hupin1⟩ :=
          insertRunDup_spec fuel v pr C ((of, lvl) :: run) m D ups hInv
            (by
              intro it hit
              rcases List.mem_cons.mp hit with h | h
              · rw [h]
              · exact hrunvals it h)
            (by omega) hprC hprv
        set n0 := m.inserts.length with hn0
        set runlen := run.length + 1 with hrunlen
        set D1 : Ref → List Ref := fun r => if r = pr then
          (List.range' n0 (((of, lvl) :: run).length)).reverse.map Ref.new
            ++ D pr else D r with hD1
        have hrlen : ((of, lvl) :: run).length = runlen := by
          rw [List.length_cons]
        have hprpos : 0 < prE.position := by
          have hgd : getRef m (Ref.disk p0) = some prE := by
            rw [← hprdisk]
            exact hprEa
          have hpp := getRef_disk_position hInv p0 prE hgd
          rw [hpp]
          have hvld := Inv_cvalid hInv pr hprC
          rw [hprdisk] at hvld
          simp only [refValid] at hvld
          exact_mod_cast hvld.1
        have hprhd : pr ≠ Ref.hd := by
          rw [hprdisk]
          intro h
          cases h
        have hprnonew : ∀ j, pr ≠ Ref.new j := by
          rw [hprdisk]
          intro j h
          cases h
        -- transported field preservation over the run
        have hflds1 : ∀ r, (∀ j, n0 ≤ j → r ≠ Ref.new j) →
            (getRef m1 r).isSome = (getRef m r).isSome ∧
            (ent m1 r).position = (ent m r).position ∧
            (ent m1 r).node.value = (ent m r).node.value := by
          intro r hr
          by_cases hrp : r = pr
          · subst hrp
            refine ⟨?_, ?_, ?_⟩
            · rw [hprEb, hprEa]
              rfl
            · rw [ent_eq hprEb, ent_eq hprEa]
            · rw [ent_eq hprEb, ent_eq hprEa]
          · have he := hframe1 r hrp hr
            unfold ent
            rw [he]
            exact ⟨rfl, rfl, rfl⟩
        have hval1pr : mval m1 pr = v := by
          unfold mval
          rw [ent_eq hprEb]
          show prE.node.value = v
          rw [← hprv]
          unfold mval
          rw [ent_eq hprEa]
        -- recurse on the remainder
        obtain ⟨m', ups', C', D', blocks, h1, h2, h3, h4, h5, h6, h7, h8,
            h9, h10, h11, h12, h13, h14, h15, h16⟩ :=
          ih rem m1 C D1 ups1 hremlen hInv1
            (by rw [hlen1] at *; omega)
            hremsorted
            (by
              intro it hit
              rw [hhead1]
              exact hvh it (by
                rw [htail]
                exact List.mem_cons_of_mem _
                  (List.mem_append_right _ hit)))
            (by
              intro r hrC hvr
              obtain ⟨it, hit, hval⟩ := hvr
              have hrmval : mval m r = it.1.value := by
                rw [← hval]
                exact ((hflds1 r (fun j _ h => by
                  have := Inv_cvalid hInv r hrC
                  rw [h] at this
                  simp only [refValid] at this
                  omega)).2.2).symm
              have hrne : mval m r ≠ v := by
                rw [hrmval]
                exact ne_of_lt (hremlt it hit)
              have hrnepr : r ≠ pr := by
                intro h
                rw [h, hprv] at hrne
                exact hrne rfl
              obtain ⟨hd1, hd2⟩ := hdisk r hrC ⟨it, by
                rw [htail]
                exact List.mem_cons_of_mem _ (List.mem_append_right _ hit),
                hrmval⟩
              refine ⟨hd1, ?_⟩
              rw [hD1]
              show (∀ d ∈ (if r = pr then _ else D r), ∃ q, d = Ref.disk q)
              rw [if_neg hrnepr]
              exact hd2)
        have hnewpres : ∀ t, t < runlen → ∃ of2 lvl2,
            ((of, lvl) :: run).get? t = some (of2, lvl2) ∧
            getRef m' (Ref.new (n0 + t)) = some
              ⟨-(n0 + t + 1 : Int), of2.position,
               (if t = 0 then mlink m pr else -(n0 + t : Int)),
               ⟨[], v⟩⟩ := by
          intro t ht
          obtain ⟨e2, he2⟩ : ∃ e2, ((of, lvl) :: run).get? t = some e2 := by
            rw [List.get?_eq_get (by rw [hrlen]; omega)]
            exact ⟨_, rfl⟩
          obtain ⟨of2, lvl2⟩ := e2
          have hg1 := hnew1 t of2 lvl2 he2
          refine ⟨of2, lvl2, he2, ?_⟩
          rw [← hg1]
          refine h11 (Ref.new (n0 + t)) (fun h => Ref.noConfusion h)
            (fun j hj h => ?_) ?_
          · have hjeq : n0 + t = j := Ref.noConfusion h (fun h2 => h2)
            rw [hlen1, hrlen] at hj
            omega
          · intro it hit
            have hmv : mval m1 (Ref.new (n0 + t)) = v := by
              unfold mval
              rw [ent_eq hg1]
            show ¬ mval m1 (Ref.new (n0 + t)) ≤ it.1.value
            rw [hmv]
            exact not_le.mpr (hremlt it hit)
        have hprpres : getRef m' pr = some { prE with link :=
            (if ((of, lvl) :: run).length = 0 then prE.link
             else -(m.inserts.length + ((of, lvl) :: run).length : Int)) }
            := by
          rw [← hprEb]
          refine h11 pr hprhd (fun j _ => hprnonew j) ?_
          intro it hit
          show ¬ mval m1 pr ≤ it.1.value
          rw [hval1pr]
          exact not_le.mpr (hremlt it hit)
        have hvalpr' : mval m' pr = v := by
          unfold mval
          rw [ent_eq hprpres]
          show prE.node.value = v
          rw [← hprv]
          unfold mval
          rw [ent_eq hprEa]
        refine ⟨m', ups', C', D',
          ⟨n0, runlen, pr, false⟩ :: blocks, ?_, ?_, ?_, ?_, h5, ?_, ?_,
          ?_, ?_, ?_, ?_, ?_, ?_, ?_, ?_, ?_⟩
        · rw [hsplitPhase m ups, hrunE]
          exact h1
        · rw [h2, hlen1, hrlen, hlenitems]
          omega
        · rw [h3, hhead1]
        · rw [h4, hbase1]
        · intro r hr
          exact h6 r hr
        · refine h7.trans ?_
          refine (hperm1.append_left (rem.map _)).trans ?_
          rw [← List.append_assoc]
          refine ((List.perm_append_comm).append_right _).trans ?_
          rw [show ((of, lvl) :: tail).map
              (fun it => (it.1.value, it.1.position)) =
            ((of, lvl) :: run).map (fun it => (it.1.value, it.1.position))
              ++ rem.map (fun it => (it.1.value, it.1.position)) from by
            rw [show ((of, lvl) :: tail) = ((of, lvl) :: run) ++ rem from by
              rw [htail]; rfl, List.map_append]]
          rw [List.append_assoc, List.append_assoc]
          refine List.Perm.append ?_ (List.Perm.refl _)
          refine List.Perm.of_eq ?_
          refine List.map_congr_left ?_
          intro it hit
          rcases List.mem_cons.mp hit with h | h
          · rw [h]
          · rw [hrunvals it h]
        · refine ⟨rfl, by show 0 < runlen; omega, ?_, h6 pr hprC,
            ?_, ?_, ?_, ?_, ?_⟩
          · show n0 + runlen ≤ m'.inserts.length
            rw [h2, hlen1, hrlen]
            omega
          · intro j hj1 hj2
            have hj1' : n0 ≤ j := hj1
            have hj2' : j < n0 + runlen := hj2
            obtain ⟨t, ht⟩ : ∃ t, j = n0 + t := ⟨j - n0, by omega⟩
            subst ht
            obtain ⟨of2, lvl2, hg2, hg'⟩ := hnewpres (n0 + t - n0)
              (by omega)
            rw [show n0 + (n0 + t - n0) = n0 + t from by omega] at hg'
            have h5a : mval m' (Ref.new (n0 + t)) = v := by
              unfold mval
              rw [ent_eq hg']
            show mval m' (Ref.new (n0 + t)) = mval m' pr
            rw [h5a, hvalpr']
          · intro j hj1 hj2
            right
            have hj1' : n0 ≤ j := hj1
            have hj2' : j < n0 + runlen := hj2
            obtain ⟨t, ht⟩ : ∃ t, j = n0 + t := ⟨j - n0, by omega⟩
            subst ht
            obtain ⟨of2, lvl2, hg2, hg'⟩ := hnewpres (n0 + t - n0)
              (by omega)
            rw [show n0 + (n0 + t - n0) = n0 + t from by omega] at hg'
            rw [ent_eq hg']
          · refine ⟨⟨p0, hprdisk⟩, D pr, ?_, hDdisk⟩
            rw [h13 pr (fun j _ => hprnonew j) (fun it hit => by
              show mval m1 pr ≠ it.1.value
              rw [hval1pr]
              exact ne_of_gt (hremlt it hit))]
            simp only [hD1, if_true]
            rw [hrlen]
          · intro B2 hB2
            obtain ⟨it, hit, hval⟩ := h10 B2 hB2
            show mval m' B2.owner < mval m' pr
            rw [hval, hvalpr']
            exact hremlt it hit
          · show BlocksWF m' C' D' (n0 + runlen) blocks
            rw [show n0 + runlen = m1.inserts.length from by
              rw [hlen1, hrlen]]
            exact h8
        · intro B hB
          rcases List.mem_cons.mp hB with h | h
          · subst h
            intro hF
            exact Bool.noConfusion hF
          · exact h9 B h
        · intro B hB
          rcases List.mem_cons.mp hB with h | h
          · subst h
            exact ⟨(of, lvl), List.mem_cons_self _ _, hvalpr'⟩
          · obtain ⟨it, hit, hval⟩ := h10 B h
            exact ⟨it, by
              rw [htail]
              exact List.mem_cons_of_mem _
                (List.mem_append_right _ hit), hval⟩
        · intro r h1' h2' h3'
          have hstep2 : getRef m' r = getRef m1 r := by
            refine h11 r h1'
              (fun j hj => h2' j (by rw [hlen1, hrlen] at hj; omega)) ?_
            intro it hit
            show ¬ mval m1 r ≤ it.1.value
            unfold mval
            rw [(hflds1 r h2').2.2]
            exact h3' it (by
              rw [htail]
              exact List.mem_cons_of_mem _ (List.mem_append_right _ hit))
          have hrnp : r ≠ pr := by
            intro h
            have h0 := h3' (of, lvl) (List.mem_cons_self _ _)
            rw [h, hprv] at h0
            exact h0 (le_refl _)
          rw [hstep2, hframe1 r hrnp h2']
        · intro r h2'
          have ha := h12 r
            (fun j hj => h2' j (by rw [hlen1, hrlen] at hj; omega))
          have hb := hflds1 r h2'
          exact ⟨ha.1.trans hb.1, ha.2.1.trans hb.2.1,
            ha.2.2.trans hb.2.2⟩
        · intro r h2' h3'
          have hrnp : r ≠ pr := by
            intro h
            have h0 := h3' (of, lvl) (List.mem_cons_self _ _)
            rw [h, hprv] at h0
            exact h0 rfl
          have hd13 := h13 r
            (fun j hj => h2' j (by rw [hlen1, hrlen] at hj; omega))
            (by
              intro it hit
              show mval m1 r ≠ it.1.value
              unfold mval
              rw [(hflds1 r h2').2.2]
              exact h3' it (by
                rw [htail]
                exact List.mem_cons_of_mem _ (List.mem_append_right _ hit)))
          rw [hd13]
          simp only [hD1]
          rw [if_neg hrnp]
        · obtain ⟨extra1, he1, hp1⟩ := hupsub1
          obtain ⟨extra2, he2, hp2⟩ := h14
          refine ⟨extra1 ++ extra2,
            by rw [he2, he1, List.append_assoc], ?_⟩
          intro r hr
          rcases List.mem_append.mp hr with h | h
          · refine ⟨Or.inr ⟨p0, by rw [(hp1 r h).1, hprdisk]⟩, ?_⟩
            rw [(hp1 r h).1]
            exact (hp1 r h).2
          · have hnn : ∀ j, m.inserts.length ≤ j → r ≠ Ref.new j := by
              intro j _
              rcases (hp2 r h).1 with h4 | ⟨p, h4⟩ <;> rw [h4] <;>
                exact fun hc => Ref.noConfusion hc
            refine ⟨(hp2 r h).1, ?_⟩
            have := (hp2 r h).2
            rw [(hflds1 r hnn).2.1] at this
            exact this
        · intro hnd
          exact h15 (hupnd1 hnd)
        · intro r hdk hno
          have hno1 : r ∉ ups1 := by
            intro hin
            obtain ⟨extra2, he2, _⟩ := h14
            exact hno (by rw [he2]; exact List.mem_append_left _ hin)
          rw [h16 r hdk hno]
          by_cases hrp : r = pr
          · exfalso
            subst hrp
            exact hno1 (hupin1 prE hprEa hprpos (by simp))
          · refine hframe1 r hrp ?_
            intro j _
            rcases hdk with h | ⟨p, h⟩ <;> rw [h] <;>
              exact fun hc => Ref.noConfusion hc
      · -- the value is new: splice a fresh entry, then its duplicates
        have hvhd : of.value ≠ m.head.node.value :=
          hvh (of, lvl) (List.mem_cons_self _ _)
        obtain ⟨m1, ups1, level, hrunE, hlen1, hheadv1, hbase1, hInv1,
            hperm1, ⟨eK, hgeK, heKpos, heKptr, heKval, heKlvl, heKslots,
            heKlink⟩, hnew1, hframe1, hflds1, hupsub1, hupnd1, hupin1⟩ :=
          insertRunFresh_spec fuel C of lvl run m D ups hInv hrunvals
            (by omega) hex hvhd
        set n0 := m.inserts.length with hn0
        set runlen := run.length + 1 with hrunlen
        set C1 : List Ref := seg m of.value C ++ Ref.new n0 ::
          C.dropWhile (fun r => decide (mval m r ≤ of.value)) with hC1
        set D1 : Ref → List Ref := fun r => if r = Ref.new n0 then
          (List.range' (n0 + 1) run.length).reverse.map Ref.new
          else D r with hD1
        have hC1len : C1.length = C.length + 1 := by
          rw [hC1]
          rw [List.length_append, List.length_cons]
          have hsegtake : seg m of.value C =
              C.takeWhile (fun r => decide (mval m r ≤ of.value)) :=
            sorted_filter_eq_takeWhile (mval m) of.value C hInv.sorted
          rw [hsegtake]
          have := congrArg List.length
            (List.takeWhile_append_dropWhile
              (p := fun r => decide (mval m r ≤ of.value)) (l := C))
          rw [List.length_append] at this
          omega
        have hC1sub : ∀ r ∈ C, r ∈ C1 := by
          intro r hr
          have hsegtake : seg m of.value C =
              C.takeWhile (fun r => decide (mval m r ≤ of.value)) :=
            sorted_filter_eq_takeWhile (mval m) of.value C hInv.sorted
          rw [hC1]
          have hsplit : r ∈ C.takeWhile
                (fun r => decide (mval m r ≤ of.value)) ++
              C.dropWhile (fun r => decide (mval m r ≤ of.value)) := by
            rw [List.takeWhile_append_dropWhile]
            exact hr
          rcases List.mem_append.mp hsplit with h | h
          · exact List.mem_append_left _ (by rw [hsegtake]; exact h)
          · exact List.mem_append_right _ (List.mem_cons_of_mem _ h)
        have hCmem : ∀ r ∈ C1, r = Ref.new n0 ∨ r ∈ C := by
          intro r hr
          rw [hC1] at hr
          rcases List.mem_append.mp hr with h | h
          · exact Or.inr ((seg_sublist m of.value C).mem h)
          · rcases List.mem_cons.mp h with h2 | h2
            · exact Or.inl h2
            · exact Or.inr ((List.dropWhile_sublist _).mem h2)
        have hCnonew : ∀ r ∈ C, ∀ j, n0 ≤ j → r ≠ Ref.new j := by
          intro r hr j hj h
          have := Inv_cvalid hInv r hr
          rw [h] at this
          simp only [refValid] at this
          omega
        have hvalK1 : mval m1 (Ref.new n0) = of.value := by
          unfold mval
          rw [ent_eq hgeK, heKval]
        obtain ⟨m', ups', C', D', blocks, h1, h2, h3, h4, h5, h6, h7, h8,
            h9, h10, h11, h12, h13, h14, h15, h16⟩ :=
          ih rem m1 C1 D1 ups1 hremlen hInv1
            (by rw [hlen1] at *; rw [hC1len]; omega)
            hremsorted
            (by
              intro it hit
              rw [hheadv1]
              exact hvh it (by
                rw [htail]
                exact List.mem_cons_of_mem _
                  (List.mem_append_right _ hit)))
            (by
              intro r hrC1 hvr
              obtain ⟨it, hit, hval⟩ := hvr
              rcases hCmem r hrC1 with hk | hrC
              · exfalso
                subst hk
                rw [hvalK1] at hval
                exact ne_of_gt (hremlt it hit) hval
              · have hrnn := hCnonew r hrC
                have hrmval : mval m r = it.1.value := by
                  rw [← hval]
                  exact ((hflds1 r hrnn).2.2).symm
                obtain ⟨hd1, hd2⟩ := hdisk r hrC ⟨it, by
                  rw [htail]
                  exact List.mem_cons_of_mem _
                    (List.mem_append_right _ hit), hrmval⟩
                refine ⟨hd1, ?_⟩
                rw [hD1]
                show (∀ d ∈ (if r = Ref.new n0 then _ else D r),
                  ∃ q, d = Ref.disk q)
                rw [if_neg (hrnn n0 (le_refl _))]
                exact hd2)
        have howner' : getRef m' (Ref.new n0) = some eK := by
          rw [← hgeK]
          refine h11 (Ref.new n0) (fun h => Ref.noConfusion h)
            (fun j hj h => ?_) ?_
          · have hjeq : n0 = j := Ref.noConfusion h (fun h2 => h2)
            rw [hlen1] at hj
            omega
          · intro it hit
            show ¬ mval m1 (Ref.new n0) ≤ it.1.value
            rw [hvalK1]
            exact not_le.mpr (hremlt it hit)
        have hvalow' : mval m' (Ref.new n0) = of.value := by
          unfold mval
          rw [ent_eq howner', heKval]
        have hnewpres : ∀ t, t < run.length → ∃ of2 lvl2,
            run.get? t = some (of2, lvl2) ∧
            getRef m' (Ref.new (n0 + 1 + t)) = some
              ⟨-(n0 + 1 + t + 1 : Int), of2.position,
               (if t = 0 then 0 else -(n0 + 1 + t : Int)),
               ⟨[], of.value⟩⟩ := by
          intro t ht
          obtain ⟨e2, he2⟩ : ∃ e2, run.get? t = some e2 := by
            rw [List.get?_eq_get (by omega)]
            exact ⟨_, rfl⟩
          obtain ⟨of2, lvl2⟩ := e2
          have hg1 := hnew1 t of2 lvl2 he2
          refine ⟨of2, lvl2, he2, ?_⟩
          rw [← hg1]
          refine h11 (Ref.new (n0 + 1 + t)) (fun h => Ref.noConfusion h)
            (fun j hj h => ?_) ?_
          · have hjeq : n0 + 1 + t = j := Ref.noConfusion h (fun h2 => h2)
            rw [hlen1] at hj
            omega
          · intro it hit
            have hmv : mval m1 (Ref.new (n0 + 1 + t)) = of.value := by
              unfold mval
              rw [ent_eq hg1]
            show ¬ mval m1 (Ref.new (n0 + 1 + t)) ≤ it.1.value
            rw [hmv]
            exact not_le.mpr (hremlt it hit)
        refine ⟨m', ups', C', D',
          ⟨n0, runlen, Ref.new n0, true⟩ :: blocks, ?_, ?_, ?_, ?_, h5,
          ?_, ?_, ?_, ?_, ?_, ?_, ?_, ?_, ?_, ?_, ?_⟩
        · rw [hsplitPhase m ups, hrunE]
          exact h1
        · rw [h2, hlen1, hlenitems]
          omega
        · rw [h3, hheadv1]
        · rw [h4, hbase1]
        · intro r hr
          exact h6 r (hC1sub r hr)
        · refine h7.trans ?_
          refine (hperm1.append_left (rem.map _)).trans ?_
          rw [← List.append_assoc]
          refine ((List.perm_append_comm).append_right _).trans ?_
          rw [show ((of, lvl) :: tail).map
              (fun it => (it.1.value, it.1.position)) =
            ((of, lvl) :: run).map (fun it => (it.1.value, it.1.position))
              ++ rem.map (fun it => (it.1.value, it.1.position)) from by
            rw [show ((of, lvl) :: tail) = ((of, lvl) :: run) ++ rem from by
              rw [htail]; rfl, List.map_append]]
        · refine ⟨rfl, by show 0 < runlen; omega, ?_,
            h6 _ (by
              rw [hC1]
              exact List.mem_append_right _ (List.mem_cons_self _ _)),
            ?_, ?_, ?_, ?_, ?_⟩
          · show n0 + runlen ≤ m'.inserts.length
            rw [h2, hlen1]
            omega
          · intro j hj1 hj2
            have hj1' : n0 ≤ j := hj1
            have hj2' : j < n0 + runlen := hj2
            show mval m' (Ref.new j) = mval m' (Ref.new n0)
            by_cases hj0 : j = n0
            · rw [hj0]
            · obtain ⟨t, ht⟩ : ∃ t, j = n0 + 1 + t :=
                ⟨j - (n0 + 1), by omega⟩
              subst ht
              obtain ⟨of2, lvl2, hg2, hg'⟩ := hnewpres (n0 + 1 + t - (n0 + 1))
                (by omega)
              rw [show n0 + 1 + (n0 + 1 + t - (n0 + 1)) = n0 + 1 + t
                from by omega] at hg'
              have h5a : mval m' (Ref.new (n0 + 1 + t)) = of.value := by
                unfold mval
                rw [ent_eq hg']
              rw [h5a, hvalow']
          · intro j hj1 hj2
            have hj1' : n0 ≤ j := hj1
            have hj2' : j < n0 + runlen := hj2
            by_cases hj0 : j = n0
            · left
              exact ⟨rfl, hj0⟩
            · right
              obtain ⟨t, ht⟩ : ∃ t, j = n0 + 1 + t :=
                ⟨j - (n0 + 1), by omega⟩
              subst ht
              obtain ⟨of2, lvl2, hg2, hg'⟩ := hnewpres
                (n0 + 1 + t - (n0 + 1)) (by omega)
              rw [show n0 + 1 + (n0 + 1 + t - (n0 + 1)) = n0 + 1 + t
                from by omega] at hg'
              rw [ent_eq hg']
          · refine ⟨rfl, ?_⟩
            show D' (Ref.new n0) = (List.range' (n0 + 1)
              (runlen - 1)).reverse.map Ref.new
            rw [h13 (Ref.new n0)
              (fun j hj h => by
                have hjeq : n0 = j := Ref.noConfusion h (fun h2 => h2)
                rw [hlen1] at hj
                omega)
              (fun it hit => by
                show mval m1 (Ref.new n0) ≠ it.1.value
                rw [hvalK1]
                exact ne_of_gt (hremlt it hit))]
            simp only [hD1, if_true]
            rw [show runlen - 1 = run.length from by omega]
          · intro B2 hB2
            obtain ⟨it, hit, hval⟩ := h10 B2 hB2
            show mval m' B2.owner < mval m' (Ref.new n0)
            rw [hval, hvalow']
            exact hremlt it hit
          · show BlocksWF m' C' D' (n0 + runlen) blocks
            rw [show n0 + runlen = m1.inserts.length from by rw [hlen1]]
            exact h8
        · intro B hB
          rcases List.mem_cons.mp hB with h | h
          · subst h
            intro _
            show (ent m' (Ref.new n0)).node.levels ≠ [] ∧
              (∀ p ∈ (ent m' (Ref.new n0)).node.levels, p < 0 →
                p.natAbs - 1 < n0)
            rw [ent_eq howner']
            refine ⟨?_, heKslots⟩
            intro hnil
            rw [hnil] at heKlvl
            simp at heKlvl
          · exact h9 B h
        · intro B hB
          rcases List.mem_cons.mp hB with h | h
          · subst h
            exact ⟨(of, lvl), List.mem_cons_self _ _, hvalow'⟩
          · obtain ⟨it, hit, hval⟩ := h10 B h
            exact ⟨it, by
              rw [htail]
              exact List.mem_cons_of_mem _
                (List.mem_append_right _ hit), hval⟩
        · intro r h1' h2' h3'
          have hstep2 : getRef m' r = getRef m1 r := by
            refine h11 r h1'
              (fun j hj => h2' j (by rw [hlen1] at hj; omega)) ?_
            intro it hit
            show ¬ mval m1 r ≤ it.1.value
            unfold mval
            rw [(hflds1 r h2').2.2]
            exact h3' it (by
              rw [htail]
              exact List.mem_cons_of_mem _ (List.mem_append_right _ hit))
          rw [hstep2]
          exact hframe1 r h1' h2'
            ( h3' (of, lvl) (List.mem_cons_self _ _))
        · intro r h2'
          have ha := h12 r
            (fun j hj => h2' j (by rw [hlen1] at hj; omega))
          have hb := hflds1 r h2'
          exact ⟨ha.1.trans hb.1, ha.2.1.trans hb.2.1,
            ha.2.2.trans hb.2.2⟩
        · intro r h2' h3'
          have hd13 := h13 r
            (fun j hj => h2' j (by rw [hlen1] at hj; omega))
            (by
              intro it hit
              show mval m1 r ≠ it.1.value
              unfold mval
              rw [(hflds1 r h2').2.2]
              exact h3' it (by
                rw [htail]
                exact List.mem_cons_of_mem _ (List.mem_append_right _ hit)))
          rw [hd13]
          simp only [hD1]
          rw [if_neg ( h2' n0 (le_refl _))]
        · obtain ⟨extra1, he1, hp1⟩ := hupsub1
          obtain ⟨extra2, he2, hp2⟩ := h14
          refine ⟨extra1 ++ extra2,
            by rw [he2, he1, List.append_assoc], ?_⟩
          intro r hr
          rcases List.mem_append.mp hr with h | h
          · exact hp1 r h
          · have hnn : ∀ j, m.inserts.length ≤ j → r ≠ Ref.new j := by
              intro j _
              rcases (hp2 r h).1 with h4 | ⟨p, h4⟩ <;> rw [h4] <;>
                exact fun hc => Ref.noConfusion hc
            refine ⟨(hp2 r h).1, ?_⟩
            have := (hp2 r h).2
            rw [(hflds1 r hnn).2.1] at this
            exact this
        · intro hnd
          exact h15 (hupnd1 hnd)
        · intro r hdk hno
          have hno1 : r ∉ ups1 := by
            intro hin
            obtain ⟨extra2, he2, _⟩ := h14
            exact hno (by rw [he2]; exact List.mem_append_left _ hin)
          rw [h16 r hdk hno]
          exact hupin1 r hdk hno1
